import Mathlib

/-!
# ccpm: a shallow embedding of the upgrade engine, the plugin-spec resolver,
the config store, the remote-URL parser, the plugin inventory and the commands
`discover` and `check-conflicts`

Go strings are modelled by Lean `String` (sequences of code points; on valid
UTF-8 the byte-wise order and the byte-wise search for an ASCII separator used
by Go agree with the code-point versions used here).  A Go `map` is an
association list whose order is the (unspecified) iteration order, and the
statements below hold for all such lists.

Everything outside the process (file system, `git`, the host CLI `claude`) is
reached through the oracles of `Sys`, and for the config file through those of
`ConfigSys`; the functions return, next to their Go results, the list of child
processes they started (`Event`).  Two library functions are arguments of the
commands that call them: `os.ReadDir` of runDiscover and `strings.EqualFold` of
runCheckConflicts.  Terminal output is presentational and is not part of the
model.
-/

namespace Ccpm

/-! ## Go library primitives -/

/-- Go `strings.Cut` on a one-character separator, on code-point lists: the
part before the first separator and the part after it, `none` when the
separator does not occur. -/
def cutAt (c : Char) : List Char → Option (List Char × List Char)
  | [] => none
  | x :: xs =>
    if x = c then some ([], xs)
    else match cutAt c xs with
      | none => none
      | some (a, b) => some (x :: a, b)

/-- Go `strings.Contains(s, string(c))` for a one-character needle. -/
def stringsContains (s : String) (c : Char) : Bool :=
  (cutAt c s.data).isSome

/-- Go `strings.SplitN(s, string(c), 2)`: one element (`s` itself) when the
separator is absent, otherwise the two halves around its first occurrence. -/
def stringsSplitN2 (s : String) (c : Char) : List String :=
  match cutAt c s.data with
  | none => [s]
  | some (a, b) => [String.mk a, String.mk b]

/-- Go `strings.Split(s, string(c))` on code-point lists: always at least one
piece, the empty input giving one empty piece. -/
def splitAll (c : Char) : List Char → List (List Char)
  | [] => [[]]
  | x :: xs =>
    if x = c then [] :: splitAll c xs
    else match splitAll c xs with
      | [] => [[x]]
      | p :: ps => (x :: p) :: ps

/-- Go `strings.Split(s, string(c))`. -/
def stringsSplit (s : String) (c : Char) : List String :=
  (splitAll c s.data).map String.mk

/-- Go `unicode.IsSpace`: the code points with the White_Space property. -/
def isSpace (c : Char) : Bool :=
  let n := c.toNat
  (0x09 ≤ n && n ≤ 0x0d) || n == 0x20 || n == 0x85 || n == 0xa0 || n == 0x1680 ||
  (0x2000 ≤ n && n ≤ 0x200a) || n == 0x2028 || n == 0x2029 || n == 0x202f ||
  n == 0x205f || n == 0x3000

/-- Go `strings.TrimSpace`: drop leading and trailing white space. -/
def stringsTrimSpace (s : String) : String :=
  String.mk ((s.data.dropWhile isSpace).reverse.dropWhile isSpace).reverse

/-- Go `strings.Join(l, sep)`: the elements with `sep` between neighbours. -/
def stringsJoin : List String → String → String
  | [], _ => ""
  | [a], _ => a
  | a :: b :: rest, sep => a ++ sep ++ stringsJoin (b :: rest) sep

/-- Go `sort.Strings`: ascending order of the strings.  The order on strings is
total and antisymmetric, so the sorted result does not depend on the sorting
algorithm (see `sortStrings_eq_of_perm`). -/
def sortStrings (l : List String) : List String :=
  l.insertionSort (fun a b => a.data ≤ b.data)

/-- The order used by `sortStrings` is total. -/
instance sortStrings_isTotal : IsTotal String (fun a b => a.data ≤ b.data) :=
  ⟨fun a b => le_total a.data b.data⟩

/-- The order used by `sortStrings` is transitive. -/
instance sortStrings_isTrans : IsTrans String (fun a b => a.data ≤ b.data) :=
  ⟨fun _ _ _ h1 h2 => le_trans h1 h2⟩

/-- The order used by `sortStrings` is antisymmetric. -/
instance sortStrings_isAntisymm : IsAntisymm String (fun a b => a.data ≤ b.data) :=
  ⟨fun _ _ h1 h2 => String.ext (le_antisymm h1 h2)⟩

/-- Keys of a Go `map[string]bool` after the assignment `m[k] = true`, kept in
first-insertion order. -/
def mapSet (keys : List String) (k : String) : List String :=
  if k ∈ keys then keys else keys ++ [k]

/-! ## The world outside the process -/

/-- What the callers of `os.Stat` distinguish: success, an error satisfying
`os.IsNotExist`, any other error. -/
inductive StatResult where
  | ok
  | notExist
  | otherError
  deriving DecidableEq, Repr

/-- What the callers of `os.ReadFile` distinguish: the data, an error that is
`os.ErrNotExist`, any other error (with its text). -/
inductive ReadResult where
  | data (bytes : String)
  | notExist
  | otherError (msg : String)
  deriving DecidableEq, Repr

/-- A child process started by the program, with what came back:
`exec.Command("claude", args...).Run()` and its error (`none` for nil),
`exec.Command("git", args...).Output()` and its stdout (`none` on error). -/
inductive Event where
  | claude (args : List String) (err : Option String)
  | git (args : List String) (out : Option String)
  deriving DecidableEq, Repr

/-- PluginInstall of `installed.go`: one installation record (times kept as
their serialized text). -/
structure PluginInstall where
  Scope : String
  InstallPath : String
  Version : String
  InstalledAt : String
  LastUpdated : String
  GitCommitSha : String
  IsLocal : Bool
  deriving DecidableEq, Repr

/-- InstalledPlugins of `installed.go`; `Plugins` is the Go map, as the list of
its entries in iteration order. -/
structure InstalledPlugins where
  Version : Int
  Plugins : List (String × List PluginInstall)
  deriving DecidableEq, Repr

/-- The environment: file system, `git`, the host CLI and the library decoders.
`W` is the state of the outside world; only the host CLI changes it. -/
structure Sys (W : Type) where
  /-- Go `os.UserHomeDir`, `none` on error. -/
  userHomeDir : Option String
  /-- Go `filepath.Join`. -/
  join : List String → String
  /-- Go `os.Stat`. -/
  stat : W → String → StatResult
  /-- Go `os.ReadFile`. -/
  readFile : W → String → ReadResult
  /-- Go `json.Unmarshal` into an `InstalledPlugins`. -/
  unmarshalInstalled : String → Except String InstalledPlugins
  /-- Running `git` with the given arguments and collecting stdout. -/
  git : W → List String → Option String
  /-- Running `claude` with the given arguments: the new world and the error. -/
  claude : W → List String → W × Option String

/-- A Go call that may change the world: the world afterwards, the returned
value and the child processes started, in order. -/
structure Step (W : Type) (α : Type) where
  world : W
  val : α
  events : List Event

/-! ## config -/

/-- Config of `config.go`; `Marketplaces` is the Go map repo → alias, as the
list of its entries in iteration order. -/
structure Config where
  Marketplaces : List (String × String)
  path : String
  deriving DecidableEq, Repr

/-- Config.GetAlias: the map lookup, the empty string when the repo is absent. -/
def Config.GetAlias (c : Config) (repo : String) : String :=
  match c.Marketplaces.lookup repo with
  | some a => a
  | none => ""

/-- Config.Repos: the keys of the map, in iteration order. -/
def Config.Repos (c : Config) : List String :=
  c.Marketplaces.map Prod.fst

/-- ClaudeDir of `paths.go`. -/
def ClaudeDir {W : Type} (sys : Sys W) : String :=
  match sys.userHomeDir with
  | none => ".claude"
  | some home => sys.join [home, ".claude"]

/-- PluginsDir of `paths.go`. -/
def PluginsDir {W : Type} (sys : Sys W) : String :=
  sys.join [ClaudeDir sys, "plugins/marketplaces"]

/-- InstalledPluginsPath of `paths.go`. -/
def InstalledPluginsPath {W : Type} (sys : Sys W) : String :=
  sys.join [ClaudeDir sys, "plugins/installed_plugins.json"]

/-! ## update.go -/

/-- The loop of getTargetAliases over the given repos: the first repo without
an alias ends it with the error. -/
def getTargetAliases.resolve (cfg : Config) : List String → Except String (List String)
  | [] => .ok []
  | repo :: rest =>
    let aliasName := cfg.GetAlias repo
    if aliasName = "" then
      .error ("unknown marketplace '" ++ repo ++
        "'\nRun 'ccpm discover' or add it with: ccpm add " ++ repo ++ " <alias>")
    else
      match getTargetAliases.resolve cfg rest with
      | .error e => .error e
      | .ok aliases => .ok (aliasName :: aliases)

/-- getTargetAliases of `update.go`. -/
def getTargetAliases (cfg : Config) (repos : List String) : Except String (List String) :=
  if repos.length > 0 then
    getTargetAliases.resolve cfg repos
  else
    let configuredRepos := cfg.Repos
    if configuredRepos.length = 0 then
      .error ("no marketplaces configured\nRun 'ccpm discover' to import installed " ++
        "marketplaces\nOr add one with: ccpm add <org/repo> <alias>")
    else
      let aliases := configuredRepos.filterMap (fun repo =>
        let aliasName := cfg.GetAlias repo
        if aliasName ≠ "" then some aliasName else none)
      .ok (sortStrings aliases)

/-- getGitHash of `update.go`. -/
def getGitHash {W : Type} (sys : Sys W) (w : W) (dir : String) : String × List Event :=
  let args := ["-C", dir, "rev-parse", "HEAD"]
  match sys.git w args with
  | none => ("", [Event.git args none])
  | some out => (stringsTrimSpace out, [Event.git args (some out)])

/-- The first loop of getChangedPlugins: the keys of the map `dirs`, one for
the first path segment of every non-blank line of the diff output. -/
def getChangedPlugins.dirs (out : String) : List String :=
  (stringsSplit out '\n').foldl (fun dirs line =>
    let line := stringsTrimSpace line
    if line = "" then dirs
    else match stringsSplitN2 line '/' with
      | [] => dirs
      | part :: _ => mapSet dirs part) []

/-- getChangedPlugins of `update.go`. The map `dirs` is ranged over in an
unspecified order and the result is sorted afterwards, so that order does not
show in the result. -/
def getChangedPlugins {W : Type} (sys : Sys W) (w : W) (mpDir oldHash newHash : String) :
    List String × List Event :=
  let args := ["-C", mpDir, "diff", "--name-only", oldHash, newHash]
  match sys.git w args with
  | none => ([], [Event.git args none])
  | some out =>
    let plugins := (getChangedPlugins.dirs out).filter (fun dir =>
      sys.stat w (sys.join [mpDir, dir, ".claude-plugin"]) = StatResult.ok)
    (sortStrings plugins, [Event.git args (some out)])

/-! ## root.go -/

/-- The package-level variables of `root.go`: the global flags and the config
loaded before a command runs. -/
structure Globals where
  cfgFile : String
  verbose : Bool
  dryRun : Bool
  cfg : Config
  deriving DecidableEq, Repr

/-- What running a piece of Go code comes to: a value, a returned error, or a
run-time panic (nil dereference, index out of range) that ends the process. -/
inductive GoResult (α : Type) where
  | ok (v : α)
  | err (msg : String)
  | panic
  deriving DecidableEq, Repr

/-! ## claude.go -/

/-- RunSilent of `claude.go`: run `claude args...`, return the error of `Run`. -/
def RunSilent {W : Type} (sys : Sys W) (w : W) (args : List String) : Step W (Option String) :=
  let r := sys.claude w args
  { world := r.1, val := r.2, events := [Event.claude args r.2] }

/-- MarketplaceUpdate of `claude.go`. -/
def MarketplaceUpdate {W : Type} (sys : Sys W) (w : W) (aliasName : String) :
    Step W (Option String) :=
  RunSilent sys w ["plugin", "marketplace", "update", aliasName]

/-- PluginInstall of `claude.go` (the function, not the record type). -/
def claudePluginInstall {W : Type} (sys : Sys W) (w : W) (pluginID : String) :
    Step W (Option String) :=
  RunSilent sys w ["plugin", "install", pluginID]

/-- PluginUninstall of `claude.go`. -/
def PluginUninstall {W : Type} (sys : Sys W) (w : W) (pluginID : String) :
    Step W (Option String) :=
  RunSilent sys w ["plugin", "uninstall", pluginID]

/-- PluginReinstall of `claude.go`: the error of the uninstall is dropped. -/
def PluginReinstall {W : Type} (sys : Sys W) (w : W) (pluginID : String) :
    Step W (Option String) :=
  let u := PluginUninstall sys w pluginID
  let i := claudePluginInstall sys u.world pluginID
  { world := i.world, val := i.val, events := u.events ++ i.events }

/-! ## installed.go -/

/-- PluginID of `installed.go`. -/
structure PluginID where
  Name : String
  Marketplace : String
  Full : String
  deriving DecidableEq, Repr

/-- ParsePluginID of `installed.go`. -/
def ParsePluginID (id : String) : Except String PluginID :=
  match stringsSplitN2 id '@' with
  | [name, marketplace] => .ok { Name := name, Marketplace := marketplace, Full := id }
  | _ => .error ("invalid plugin ID format: " ++ id ++ " (expected name@marketplace)")

/-- LoadInstalled of `installed.go`; a nil map and an empty map are both the
empty list. -/
def LoadInstalled {W : Type} (sys : Sys W) (w : W) : Except String InstalledPlugins :=
  let path := InstalledPluginsPath sys
  match sys.readFile w path with
  | .notExist => .ok { Version := 2, Plugins := [] }
  | .otherError msg => .error ("reading installed plugins: " ++ msg)
  | .data bytes =>
    match sys.unmarshalInstalled bytes with
    | .error msg => .error ("parsing installed plugins: " ++ msg)
    | .ok installed => .ok installed

/-- InstalledPlugins.PluginsForMarketplace of `installed.go`. -/
def InstalledPlugins.PluginsForMarketplace (ip : InstalledPlugins) (marketplace : String) :
    List String :=
  ip.Plugins.filterMap (fun entry =>
    match ParsePluginID entry.1 with
    | .error _ => none
    | .ok parsed => if parsed.Marketplace = marketplace then some parsed.Name else none)

/-! ## reinstall.go, uninstall.go -/

/-- The loop of parsePluginSpec over the inventory: the marketplaces of the
IDs whose parsed name is `spec`, in iteration order. -/
def parsePluginSpec.matches (spec : String) (installed : InstalledPlugins) : List String :=
  installed.Plugins.filterMap (fun entry =>
    match ParsePluginID entry.1 with
    | .error _ => none
    | .ok parsed => if parsed.Name = spec then some parsed.Marketplace else none)

/-- parsePluginSpec of `reinstall.go`. `installed` is a pointer: `none` is nil,
which the bare-name branch dereferences. -/
def parsePluginSpec (spec : String) (installed : Option InstalledPlugins) :
    GoResult (String × String) :=
  if stringsContains spec '@' then
    match stringsSplitN2 spec '@' with
    | [p0, p1] => .ok (p0, p1)
    | _ => .panic
  else
    match installed with
    | none => .panic
    | some inst =>
      let ms := parsePluginSpec.matches spec inst
      if ms.length = 0 then
        .err "not found in any marketplace"
      else if ms.length > 1 then
        .err ("ambiguous - exists in multiple marketplaces: " ++ stringsJoin ms ", " ++
          "\nPlease specify: " ++ spec ++ "@<marketplace>")
      else
        match ms with
        | m :: _ => .ok (spec, m)
        | [] => .panic

/-- State of the per-spec loops of reinstall and uninstall: the world, the
child processes so far, the counter `failed`, and whether the loop panicked. -/
structure Tally (W : Type) where
  world : W
  events : List Event
  failed : Nat
  panicked : Bool

/-- The `for _, spec := range pluginSpecs` loop of runReinstall. -/
def runReinstall.loop {W : Type} (sys : Sys W) (dryRun : Bool)
    (installed : Option InstalledPlugins) : List String → Tally W → Tally W
  | [], t => t
  | spec :: rest, t =>
    match parsePluginSpec spec installed with
    | .panic => { t with panicked := true }
    | .err _ => runReinstall.loop sys dryRun installed rest { t with failed := t.failed + 1 }
    | .ok (pluginName, marketplace) =>
      let pluginID := pluginName ++ "@" ++ marketplace
      if dryRun then
        runReinstall.loop sys dryRun installed rest t
      else
        let r := PluginReinstall sys t.world pluginID
        match r.val with
        | some _ =>
          runReinstall.loop sys dryRun installed rest
            { t with world := r.world, events := t.events ++ r.events, failed := t.failed + 1 }
        | none =>
          runReinstall.loop sys dryRun installed rest
            { t with world := r.world, events := t.events ++ r.events }

/-- The first part of runReinstall: the plugin specs to act on, or the early
return. -/
def runReinstall.specs {W : Type} (sys : Sys W) (reinstallAll : String) (args : List String)
    (w : W) : Except (GoResult Unit) (List String) :=
  if reinstallAll ≠ "" then
    match LoadInstalled sys w with
    | .error e => .error (.err ("loading installed plugins: " ++ e))
    | .ok installed =>
      let plugins := installed.PluginsForMarketplace reinstallAll
      if plugins.length = 0 then .error (.ok ())
      else .ok (plugins.map (fun p => p ++ "@" ++ reinstallAll))
  else if args.length = 0 then
    .error (.err ("no plugins specified\nUsage: ccpm reinstall <plugin@marketplace> " ++
      "[plugin@marketplace...]\n       ccpm reinstall --all <marketplace-alias>"))
  else .ok args

/-- The value of `installed, _ := plugin.LoadInstalled()`: nil on error. -/
def loadInstalledOrNil {W : Type} (sys : Sys W) (w : W) : Option InstalledPlugins :=
  match LoadInstalled sys w with
  | .ok installed => some installed
  | .error _ => none

/-- runReinstall of `reinstall.go`. -/
def runReinstall {W : Type} (sys : Sys W) (g : Globals) (reinstallAll : String)
    (args : List String) (w : W) : Step W (GoResult Unit) :=
  match runReinstall.specs sys reinstallAll args w with
  | .error r => { world := w, val := r, events := [] }
  | .ok pluginSpecs =>
    let installed := loadInstalledOrNil sys w
    let t := runReinstall.loop sys g.dryRun installed pluginSpecs
      { world := w, events := [], failed := 0, panicked := false }
    if t.panicked then { world := t.world, val := .panic, events := t.events }
    else if t.failed = 0 then { world := t.world, val := .ok (), events := t.events }
    else { world := t.world, events := t.events,
           val := .err ("failed to reinstall " ++ toString t.failed ++ " plugin(s)") }

/-- The `for _, spec := range args` loop of runUninstall. -/
def runUninstall.loop {W : Type} (sys : Sys W) (installed : Option InstalledPlugins) :
    List String → Tally W → Tally W
  | [], t => t
  | spec :: rest, t =>
    match parsePluginSpec spec installed with
    | .panic => { t with panicked := true }
    | .err _ => runUninstall.loop sys installed rest { t with failed := t.failed + 1 }
    | .ok (pluginName, marketplace) =>
      let pluginID := pluginName ++ "@" ++ marketplace
      let r := PluginUninstall sys t.world pluginID
      match r.val with
      | some _ =>
        runUninstall.loop sys installed rest
          { t with world := r.world, events := t.events ++ r.events, failed := t.failed + 1 }
      | none =>
        runUninstall.loop sys installed rest
          { t with world := r.world, events := t.events ++ r.events }

/-- runUninstall of `uninstall.go`. -/
def runUninstall {W : Type} (sys : Sys W) (_g : Globals) (args : List String) (w : W) :
    Step W (GoResult Unit) :=
  let installed := loadInstalledOrNil sys w
  let t := runUninstall.loop sys installed args
    { world := w, events := [], failed := 0, panicked := false }
  if t.panicked then { world := t.world, val := .panic, events := t.events }
  else if t.failed = 0 then { world := t.world, val := .ok (), events := t.events }
  else { world := t.world, events := t.events,
         val := .err ("failed to uninstall " ++ toString t.failed ++ " plugin(s)") }

/-! ## update.go, upgrade.go: the per-alias loops

The counters `totalAvailable`, `totalUpdated`, `anyChanges` and `success` only
feed the printed summary and are left out with it. -/

/-- The body of the `for _, alias := range aliases` loop of runUpdate. -/
def runUpdate.body {W : Type} (sys : Sys W) (pluginsDir : String) (w : W)
    (aliasName : String) : Step W Unit :=
  let mpDir := sys.join [pluginsDir, aliasName]
  if sys.stat w mpDir = StatResult.notExist then
    { world := w, val := (), events := [] }
  else
    let old := getGitHash sys w mpDir
    if old.1 = "" then
      { world := w, val := (), events := old.2 }
    else
      let u := MarketplaceUpdate sys w aliasName
      match u.val with
      | some _ => { world := u.world, val := (), events := old.2 ++ u.events }
      | none =>
        let new := getGitHash sys u.world mpDir
        if old.1 = new.1 then
          { world := u.world, val := (), events := old.2 ++ u.events ++ new.2 }
        else
          let changed := getChangedPlugins sys u.world mpDir old.1 new.1
          { world := u.world, val := (), events := old.2 ++ u.events ++ new.2 ++ changed.2 }

/-- The `for _, alias := range aliases` loop of runUpdate. -/
def runUpdate.loop {W : Type} (sys : Sys W) (pluginsDir : String) :
    List String → W → Step W Unit
  | [], w => { world := w, val := (), events := [] }
  | aliasName :: rest, w =>
    let r := runUpdate.body sys pluginsDir w aliasName
    let t := runUpdate.loop sys pluginsDir rest r.world
    { world := t.world, val := (), events := r.events ++ t.events }

/-- runUpdate of `update.go`. -/
def runUpdate {W : Type} (sys : Sys W) (g : Globals) (args : List String) (w : W) :
    Step W (GoResult Unit) :=
  match getTargetAliases g.cfg args with
  | .error e => { world := w, val := .err e, events := [] }
  | .ok aliases =>
    let t := runUpdate.loop sys (PluginsDir sys) aliases w
    { world := t.world, val := .ok (), events := t.events }

/-- The `for _, pluginName := range changed` loop of runUpgrade. -/
def runUpgrade.reinstall {W : Type} (sys : Sys W) (dryRun : Bool) (aliasName : String) :
    List String → W → Step W Unit
  | [], w => { world := w, val := (), events := [] }
  | pluginName :: rest, w =>
    let pluginID := pluginName ++ "@" ++ aliasName
    if dryRun then
      runUpgrade.reinstall sys dryRun aliasName rest w
    else
      let r := PluginReinstall sys w pluginID
      let t := runUpgrade.reinstall sys dryRun aliasName rest r.world
      { world := t.world, val := (), events := r.events ++ t.events }

/-- The body of the `for _, alias := range aliases` loop of runUpgrade. -/
def runUpgrade.body {W : Type} (sys : Sys W) (dryRun : Bool) (pluginsDir : String) (w : W)
    (aliasName : String) : Step W Unit :=
  let mpDir := sys.join [pluginsDir, aliasName]
  if sys.stat w mpDir = StatResult.notExist then
    { world := w, val := (), events := [] }
  else
    let old := getGitHash sys w mpDir
    if old.1 = "" then
      { world := w, val := (), events := old.2 }
    else
      let u : Step W Unit :=
        if !dryRun then
          let m := MarketplaceUpdate sys w aliasName
          { world := m.world, val := (), events := m.events }
        else { world := w, val := (), events := [] }
      let new := getGitHash sys u.world mpDir
      if old.1 = new.1 then
        { world := u.world, val := (), events := old.2 ++ u.events ++ new.2 }
      else
        let changed := getChangedPlugins sys u.world mpDir old.1 new.1
        if changed.1.length = 0 then
          { world := u.world, val := (), events := old.2 ++ u.events ++ new.2 ++ changed.2 }
        else
          let t := runUpgrade.reinstall sys dryRun aliasName changed.1 u.world
          { world := t.world, val := (),
            events := old.2 ++ u.events ++ new.2 ++ changed.2 ++ t.events }

/-- The `for _, alias := range aliases` loop of runUpgrade. -/
def runUpgrade.loop {W : Type} (sys : Sys W) (dryRun : Bool) (pluginsDir : String) :
    List String → W → Step W Unit
  | [], w => { world := w, val := (), events := [] }
  | aliasName :: rest, w =>
    let r := runUpgrade.body sys dryRun pluginsDir w aliasName
    let t := runUpgrade.loop sys dryRun pluginsDir rest r.world
    { world := t.world, val := (), events := r.events ++ t.events }

/-- runUpgrade of `upgrade.go`. -/
def runUpgrade {W : Type} (sys : Sys W) (g : Globals) (args : List String) (w : W) :
    Step W (GoResult Unit) :=
  match getTargetAliases g.cfg args with
  | .error e => { world := w, val := .err e, events := [] }
  | .ok aliases =>
    let t := runUpgrade.loop sys g.dryRun (PluginsDir sys) aliases w
    { world := t.world, val := .ok (), events := t.events }

/-! ## A concrete system, for evaluating the definitions

The world is the list of `claude` commands run so far.  One marketplace
`mp` is cloned; its HEAD moves from `aaa` to `bbb` once `marketplace update`
has run; the diff touches `README.md`, `plugin-b` and `plugin-a`; the install
of `plugin-a@mp` and the uninstall of `ghost@mp` fail. -/

/-- A simple `filepath.Join` for the sample system: the non-empty elements
separated by a slash (the sample paths need no cleaning). -/
def sampleJoin (elems : List String) : String :=
  "/".intercalate (elems.filter (fun e => e ≠ ""))

/-- The sample inventory: `trivy` installed from two marketplaces, `snyk` from
one, and a key that is not of the form `name@alias`. -/
def sampleInventory : InstalledPlugins :=
  { Version := 2,
    Plugins := [("trivy@mp1", []), ("snyk@mp1", []), ("trivy@mp2", []), ("broken", [])] }

/-- The sample system, given the HEAD hash that `mp` has after the update. -/
def sampleSysWith (newHead : String) : Sys (List (List String)) where
  userHomeDir := some "/home/u"
  join := sampleJoin
  stat := fun _ path =>
    if path ∈ ["/home/u/.claude/plugins/marketplaces/mp",
               "/home/u/.claude/plugins/marketplaces/mp/plugin-a/.claude-plugin",
               "/home/u/.claude/plugins/marketplaces/mp/plugin-b/.claude-plugin"]
    then StatResult.ok else StatResult.notExist
  readFile := fun _ _ => ReadResult.data "manifest"
  unmarshalInstalled := fun _ => .ok sampleInventory
  git := fun w args =>
    match args with
    | ["-C", "/home/u/.claude/plugins/marketplaces/mp", "rev-parse", "HEAD"] =>
      if ["plugin", "marketplace", "update", "mp"] ∈ w then some (newHead ++ "\n")
      else some "aaa\n"
    | ["-C", "/home/u/.claude/plugins/marketplaces/mp", "diff", "--name-only", "aaa", "bbb"] =>
      some "README.md\nplugin-b/.claude-plugin/plugin.json\nplugin-a/file.md\nplugin-a/x.md\n"
    | _ => none
  claude := fun w args =>
    (w ++ [args],
     if args = ["plugin", "install", "plugin-a@mp"] ∨ args = ["plugin", "uninstall", "ghost@mp"]
     then some "exit status 1" else none)

/-- The sample system in which the update moves `mp` from `aaa` to `bbb`. -/
def sampleSys : Sys (List (List String)) := sampleSysWith "bbb"

/-- The sample system in which the update leaves `mp` at `aaa`. -/
def quietSys : Sys (List (List String)) := sampleSysWith "aaa"

/-- The sample globals: one configured marketplace. -/
def sampleGlobals (dryRun : Bool) : Globals :=
  { cfgFile := "", verbose := false, dryRun := dryRun,
    cfg := { Marketplaces := [("org/mp", "mp")], path := "/home/u/.config/ccpm.yaml" } }

/-- A second sample system: the diff names the changed gitlink `plugin-a`
(a plugin kept as a submodule), whose checked-out directory holds
`.claude-plugin`. -/
def gitlinkSys : Sys Unit where
  userHomeDir := some "/home/u"
  join := sampleJoin
  stat := fun _ path =>
    if path = "mp/plugin-a/.claude-plugin" then StatResult.ok else StatResult.notExist
  readFile := fun _ _ => ReadResult.notExist
  unmarshalInstalled := fun _ => .error "unexpected end of JSON input"
  git := fun _ args =>
    match args with
    | ["-C", "mp", "diff", "--name-only", "aaa", "bbb"] => some "plugin-a\n"
    | _ => none
  claude := fun w _ => (w, none)

/-- The changed-plugin set in the words of the claim: `seg` belongs to it when
some diff path has the form `seg/…` and the plugin directory of `seg` exists. -/
def claimedChangedSet (paths : List String) (pluginDirExists : String → Prop) (seg : String) :
    Prop :=
  (∃ path ∈ paths, ∃ rest : String, path = seg ++ "/" ++ rest) ∧ pluginDirExists seg

/-! ## Reading the list of child processes -/

/-- The argument lists of the `claude` commands among the events, in order. -/
def claudeCalls (evs : List Event) : List (List String) :=
  evs.filterMap (fun e =>
    match e with
    | .claude args _ => some args
    | .git _ _ => none)

/-- The event is a `git -C dir diff ...` command, as getChangedPlugins issues it. -/
def Event.isDiff : Event → Bool
  | .git ("-C" :: _ :: "diff" :: _) _ => true
  | _ => false

/-- The event is a `claude plugin install ...` command. -/
def Event.isPluginInstall : Event → Bool
  | .claude ("plugin" :: "install" :: _) _ => true
  | _ => false

/-- The event is a `claude plugin uninstall ...` command. -/
def Event.isPluginUninstall : Event → Bool
  | .claude ("plugin" :: "uninstall" :: _) _ => true
  | _ => false

/-- The event is a `claude plugin marketplace update ...` command. -/
def Event.isMarketplaceUpdate : Event → Bool
  | .claude ("plugin" :: "marketplace" :: "update" :: _) _ => true
  | _ => false

/-- The `claude` commands of one PluginReinstall per name, in the order of the
names: for each `name`, the uninstall and then the install of `name@alias`. -/
def reinstallCalls (aliasName : String) (names : List String) : List (List String) :=
  names.flatMap (fun name =>
    [["plugin", "uninstall", name ++ "@" ++ aliasName],
     ["plugin", "install", name ++ "@" ++ aliasName]])

/-- A config as `ccpm add org/tools ""` followed by `ccpm add org/mp mp` leaves
it: one repo mapped to the empty alias. -/
def emptyAliasConfig : Config :=
  { Marketplaces := [("org/tools", ""), ("org/mp", "mp")], path := "/home/u/.config/ccpm.yaml" }

/-- The installed ID `id` has bare name `token`: it parses as `name@alias`
with `name` equal to `token`. -/
def hasBareName (token id : String) : Bool :=
  match ParsePluginID id with
  | .ok parsed => parsed.Name = token
  | .error _ => false

/-- The alias of an installed ID: the marketplace field of its parse (the empty
string when the ID does not parse). -/
def aliasOf (id : String) : String :=
  match ParsePluginID id with
  | .ok parsed => parsed.Marketplace
  | .error _ => ""

/-- The installed IDs with bare name `token`, in iteration order. -/
def matchingIDs (token : String) (installed : InstalledPlugins) : List String :=
  (installed.Plugins.map Prod.fst).filter (hasBareName token)

/-- The event is a `claude` command that returned an error. -/
def Event.hostError : Event → Bool
  | .claude _ (some _) => true
  | _ => false

/-! ## marketplace.go -/

/-- Go `strings.HasPrefix`. -/
def stringsHasPrefix (s pre : String) : Bool :=
  pre.data.isPrefixOf s.data

/-- Go `strings.HasSuffix`. -/
def stringsHasSuffix (s suf : String) : Bool :=
  suf.data.isSuffixOf s.data

/-- Go `strings.TrimSuffix`: `s` without the given trailing suffix, once; `s`
itself when it does not end with it. -/
def stringsTrimSuffix (s suf : String) : String :=
  if stringsHasSuffix s suf then String.mk (s.data.take (s.data.length - suf.data.length))
  else s

/-- Go `strings.TrimPrefix`: `s` without the given leading prefix; `s` itself
when it does not start with it. -/
def stringsTrimPrefix (s pre : String) : String :=
  if stringsHasPrefix s pre then String.mk (s.data.drop pre.data.length) else s

/-- Go `strings.Cut` with a string separator, on code-point lists: the part
before the first occurrence of the separator and the part after it, `none`
when the separator does not occur. -/
def cutStr (sep : List Char) : List Char → Option (List Char × List Char)
  | [] => if sep.isPrefixOf [] then some ([], []) else none
  | x :: xs =>
    if sep.isPrefixOf (x :: xs) then some ([], (x :: xs).drop sep.length)
    else match cutStr sep xs with
      | none => none
      | some (a, b) => some (x :: a, b)

/-- Go `strings.Contains(s, substr)`. -/
def stringsContainsStr (s substr : String) : Bool :=
  (cutStr substr.data s.data).isSome

/-- Go `strings.SplitN(s, sep, 2)` for a non-empty separator: `s` itself when
the separator is absent, otherwise the two parts around its first
occurrence. -/
def stringsSplitNStr2 (s sep : String) : List String :=
  match cutStr sep.data s.data with
  | none => [s]
  | some (a, b) => [String.mk a, String.mk b]

/-- GetRepoFromRemote of `marketplace.go`. -/
def GetRepoFromRemote (remoteURL : String) : String :=
  let url := stringsTrimSuffix remoteURL ".git"
  if stringsHasPrefix url "git@github.com:" then
    stringsTrimPrefix url "git@github.com:"
  else if stringsContainsStr url "github.com/" then
    match stringsSplitNStr2 url "github.com/" with
    | [_, p1] => p1
    | _ => ""
  else
    ""

/-! ## config.go: the operations on the mapping -/

/-- The Go map assignment `m[k] = v` on the list of entries: the value of an
existing key is overwritten in place, a new key is added (its place in the
iteration order is unspecified in Go; here it goes last). -/
def mapAssign (m : List (String × String)) (k v : String) : List (String × String) :=
  if (m.lookup k).isSome then m.map (fun e => if e.1 = k then (k, v) else e)
  else m ++ [(k, v)]

/-- The keys of a Go map are distinct: the lists that stand for a map. -/
def Config.WellFormed (c : Config) : Prop :=
  (c.Marketplaces.map Prod.fst).Nodup

/-- Config.GetRepo of `config.go`: the repo of the first entry, in iteration
order, whose alias is the given one; the empty string when there is none. -/
def Config.GetRepo (c : Config) (aliasName : String) : String :=
  match c.Marketplaces.find? (fun e => e.2 = aliasName) with
  | some e => e.1
  | none => ""

/-- Config.AddMarketplace of `config.go`. -/
def Config.AddMarketplace (c : Config) (repo aliasName : String) : Config :=
  { c with Marketplaces := mapAssign c.Marketplaces repo aliasName }

/-- The config of TestGetAlias and TestGetRepo. -/
def testConfig : Config :=
  { Marketplaces := [("org/repo1", "alias1"), ("org/repo2", "alias2")], path := "" }

/-! ## config.go, paths.go: loading and saving the config file -/

/-- The environment of the config store: `Sys` together with what Load and
Save reach besides it.  The writes of Save change the world too. -/
structure ConfigSys (W : Type) extends Sys W where
  /-- Go `os.Getenv("XDG_CONFIG_HOME")`. -/
  xdgConfigHome : String
  /-- Go `filepath.Dir`. -/
  dirOf : String → String
  /-- Go `os.MkdirAll(dir, 0755)`: the new world and the error. -/
  mkdirAll : W → String → W × Option String
  /-- Go `os.WriteFile(path, data, 0644)`: the new world and the error. -/
  writeFile : W → String → String → W × Option String
  /-- Go `yaml.Marshal` of a Config: the document for its map (the field `path`
  is unexported and not serialized). -/
  yamlMarshal : List (String × String) → Except String String
  /-- Go `yaml.Unmarshal` into a Config whose map is empty: the decoded map. -/
  yamlUnmarshal : String → Except String (List (String × String))

/-- DefaultConfigDir of `paths.go`. -/
def DefaultConfigDir {W : Type} (sys : ConfigSys W) : String :=
  if sys.xdgConfigHome ≠ "" then sys.xdgConfigHome
  else
    match sys.userHomeDir with
    | none => ".config"
    | some home => sys.join [home, ".config"]

/-- DefaultConfigPath of `paths.go`. -/
def DefaultConfigPath {W : Type} (sys : ConfigSys W) : String :=
  sys.join [DefaultConfigDir sys, "ccpm.yaml"]

/-- Load of `config.go`; a nil map and an empty map are both the empty list. -/
def Config.Load {W : Type} (sys : ConfigSys W) (w : W) (path : String) : Except String Config :=
  let path := if path = "" then DefaultConfigPath sys else path
  match sys.readFile w path with
  | .notExist => .ok { Marketplaces := [], path := path }
  | .otherError msg => .error ("reading config: " ++ msg)
  | .data bytes =>
    match sys.yamlUnmarshal bytes with
    | .error msg => .error ("parsing config: " ++ msg)
    | .ok m => .ok { Marketplaces := m, path := path }

/-- The header comment that Save writes before the document. -/
def configHeader : String :=
  "# ccpm - Claude Code Plugin Manager configuration\n# Format: repo: alias\n"

/-- Config.Save of `config.go`: the world afterwards and the returned error. -/
def Config.Save {W : Type} (sys : ConfigSys W) (w : W) (c : Config) : Step W (Option String) :=
  let dir := sys.dirOf c.path
  match sys.mkdirAll w dir with
  | (w1, some e) =>
    { world := w1, val := some ("creating config directory: " ++ e), events := [] }
  | (w1, none) =>
    match sys.yamlMarshal c.Marketplaces with
    | .error e => { world := w1, val := some ("marshaling config: " ++ e), events := [] }
    | .ok data =>
      match sys.writeFile w1 c.path (configHeader ++ data) with
      | (w2, some e) => { world := w2, val := some ("writing config: " ++ e), events := [] }
      | (w2, none) => { world := w2, val := none, events := [] }

/-- A sample encoder standing for `yaml.Marshal`: the key `marketplaces` and
one indented `repo: alias` line per entry. -/
def sampleMarshal (m : List (String × String)) : String :=
  "marketplaces:\n" ++ String.join (m.map (fun e => "    " ++ e.1 ++ ": " ++ e.2 ++ "\n"))

/-- A sample decoder standing for `yaml.Unmarshal`, for the documents that
`sampleMarshal` writes: every line indented by four blanks is an entry, split at
its first `: `. -/
def sampleUnmarshal (doc : String) : List (String × String) :=
  (stringsSplit doc '\n').filterMap (fun line =>
    if stringsHasPrefix line "    " then
      match cutStr ": ".data (line.data.drop 4) with
      | some (k, v) => some (String.mk k, String.mk v)
      | none => none
    else none)

/-- A sample system for the config store: the world is the list of the files
written so far, newest first, with their contents. -/
def fileSys : ConfigSys (List (String × String)) where
  userHomeDir := some "/home/u"
  join := sampleJoin
  stat := fun w path => if (w.lookup path).isSome then StatResult.ok else StatResult.notExist
  readFile := fun w path =>
    match w.lookup path with
    | some bytes => ReadResult.data bytes
    | none => ReadResult.notExist
  unmarshalInstalled := fun _ => .ok sampleInventory
  git := fun _ _ => none
  claude := fun w _ => (w, none)
  xdgConfigHome := ""
  dirOf := fun _ => "/home/u/.config"
  mkdirAll := fun w _ => (w, none)
  writeFile := fun w path bytes => ((path, bytes) :: w, none)
  yamlMarshal := fun m => .ok (sampleMarshal m)
  yamlUnmarshal := fun doc => .ok (sampleUnmarshal doc)

/-- A config in which the alias `shared` is already taken by `org/old`. -/
def sharedAliasConfig : Config :=
  { Marketplaces := [("org/old", "shared")], path := "/home/u/.config/ccpm.yaml" }

/-- A config in which the order of the repos and the order of their aliases
differ. -/
def crossedConfig : Config :=
  { Marketplaces := [("a/first", "zz"), ("b/second", "aa")],
    path := "/home/u/.config/ccpm.yaml" }

/-! ## config.go: removing; add.go, remove.go -/

/-- The Go `delete(m, k)` on the list of entries. -/
def mapDelete (m : List (String × String)) (k : String) : List (String × String) :=
  m.filter (fun e => e.1 ≠ k)

/-- Config.RemoveMarketplace of `config.go`: the config afterwards and the
returned boolean. -/
def Config.RemoveMarketplace (c : Config) (repo : String) : Config × Bool :=
  if (c.Marketplaces.lookup repo).isSome then
    ({ c with Marketplaces := mapDelete c.Marketplaces repo }, true)
  else
    (c, false)

/-- A call that changes the mapping: AddMarketplace or RemoveMarketplace. -/
inductive ConfigOp where
  | add (repo aliasName : String)
  | remove (repo : String)
  deriving DecidableEq, Repr

/-- The config after one call. -/
def Config.applyOp (c : Config) : ConfigOp → Config
  | .add repo aliasName => c.AddMarketplace repo aliasName
  | .remove repo => (c.RemoveMarketplace repo).1

/-- The config after a sequence of calls, first to last. -/
def Config.applyOps (c : Config) (ops : List ConfigOp) : Config :=
  ops.foldl Config.applyOp c

/-- What a command that works on the config leaves: the config in memory, the
world, the returned error and the child processes started. -/
structure CmdOut (W : Type) where
  cfg : Config
  world : W
  val : GoResult Unit
  events : List Event

/-- runAdd of `add.go`, on its two arguments.  The inventory is loaded only to
print a warning and does not enter the result. -/
def runAdd {W : Type} (sys : ConfigSys W) (cfg : Config) (repo aliasName : String) (w : W) :
    CmdOut W :=
  if !stringsContains repo '/' then
    { cfg := cfg, world := w, events := [],
      val := .err ("invalid repo format: " ++ repo ++ " (expected org/name)") }
  else
    let cfg1 := cfg.AddMarketplace repo aliasName
    let s := Config.Save sys w cfg1
    match s.val with
    | some e => { cfg := cfg1, world := s.world, events := [], val := .err ("saving config: " ++ e) }
    | none => { cfg := cfg1, world := s.world, events := [], val := .ok () }

/-- runRemove of `remove.go`, on its argument. -/
def runRemove {W : Type} (sys : ConfigSys W) (cfg : Config) (repo : String) (w : W) :
    CmdOut W :=
  if cfg.GetAlias repo = "" then
    { cfg := cfg, world := w, events := [], val := .err ("marketplace not found: " ++ repo) }
  else
    let r := cfg.RemoveMarketplace repo
    if !r.2 then
      { cfg := r.1, world := w, events := [], val := .err ("failed to remove: " ++ repo) }
    else
      let s := Config.Save sys w r.1
      match s.val with
      | some e => { cfg := r.1, world := s.world, events := [], val := .err ("saving config: " ++ e) }
      | none => { cfg := r.1, world := s.world, events := [], val := .ok () }

/-- The empty config that Load returns when there is no config file yet. -/
def emptyConfig : Config :=
  { Marketplaces := [], path := "/home/u/.config/ccpm.yaml" }

/-- Two runs of `ccpm add` with the same alias, on the sample system for the
config store: `ccpm add org/one shared`, then `ccpm add org/two shared` on
what the first run left. -/
def addTwice : CmdOut (List (String × String)) :=
  let first := runAdd fileSys emptyConfig "org/one" "shared" []
  runAdd fileSys first.cfg "org/two" "shared" first.world

/-! ## installed.go: lookups and listings -/

/-- The zero value `PluginInstall{}`; the zero `time.Time` as its serialized
text. -/
def PluginInstall.zero : PluginInstall :=
  { Scope := "", InstallPath := "", Version := "",
    InstalledAt := "0001-01-01T00:00:00Z", LastUpdated := "0001-01-01T00:00:00Z",
    GitCommitSha := "", IsLocal := false }

/-- The keys of the Go map `Plugins` are distinct: the lists that stand for a
map. -/
def InstalledPlugins.WellFormed (ip : InstalledPlugins) : Prop :=
  (ip.Plugins.map Prod.fst).Nodup

/-- InstalledPlugins.GetPlugin of `installed.go`. -/
def InstalledPlugins.GetPlugin (ip : InstalledPlugins) (id : String) : PluginInstall × Bool :=
  match ip.Plugins.lookup id with
  | none => (PluginInstall.zero, false)
  | some installs =>
    match installs with
    | [] => (PluginInstall.zero, false)
    | first :: _ => (first, true)

/-- InstalledPlugins.Count of `installed.go`. -/
def InstalledPlugins.Count (ip : InstalledPlugins) : Nat :=
  ip.Plugins.length

/-- The Go statement `m[k] = append(m[k], v)` on the list of entries of a
`map[string][]string`: the slice of an existing key grows in place, a new key
is added (here last). -/
def mapAppend (m : List (String × List String)) (k v : String) : List (String × List String) :=
  match m.lookup k with
  | some vs => m.map (fun e => if e.1 = k then (k, vs ++ [v]) else e)
  | none => m ++ [(k, [v])]

/-- InstalledPlugins.ByMarketplace of `installed.go`. -/
def InstalledPlugins.ByMarketplace (ip : InstalledPlugins) : List (String × List String) :=
  ip.Plugins.foldl (fun result entry =>
    match ParsePluginID entry.1 with
    | .error _ => result
    | .ok parsed => mapAppend result parsed.Marketplace parsed.Name) []

/-- InstalledPlugins.All of `installed.go`. -/
def InstalledPlugins.All (ip : InstalledPlugins) : List String :=
  ip.Plugins.foldl (fun ids entry => ids ++ [entry.1]) []

/-- The inventory of TestLoadInstalledValid. -/
def validInventory : InstalledPlugins :=
  { Version := 2,
    Plugins :=
      [("trivy@plinde-plugins",
        [{ PluginInstall.zero with Scope := "user", Version := "1.0.0",
                                   GitCommitSha := "abc1234" }]),
       ("snyk@elastic-psec-plugins",
        [{ PluginInstall.zero with Scope := "user", Version := "2.0.0",
                                   GitCommitSha := "def5678" }])] }

/-- The inventory of TestInstalledPluginsAll. -/
def allInventory : InstalledPlugins :=
  { Version := 0, Plugins := [("a@mp1", []), ("b@mp2", []), ("c@mp1", [])] }

/-- The installed ID `id` parses with marketplace `aliasName`: it parses as
`name@alias` with `alias` equal to `aliasName`. -/
def parsesWithMarketplace (aliasName id : String) : Bool :=
  match ParsePluginID id with
  | .ok parsed => parsed.Marketplace = aliasName
  | .error _ => false

/-- The inventory keys that parse with marketplace `aliasName`, in iteration
order. -/
def keysOfMarketplace (installed : InstalledPlugins) (aliasName : String) : List String :=
  (installed.Plugins.map Prod.fst).filter (parsesWithMarketplace aliasName)

/-! ## check_conflicts.go -/

/-- The map `pluginsByName` of runCheckConflicts: for each bare name the full
IDs that parse with it. -/
def runCheckConflicts.pluginsByName (installed : InstalledPlugins) :
    List (String × List String) :=
  installed.All.foldl (fun m id =>
    match ParsePluginID id with
    | .error _ => m
    | .ok parsed => mapAppend m parsed.Name id) []

/-- The slice `duplicates` of runCheckConflicts after `sort.Strings`: the names
of `pluginsByName` that have more than one ID. -/
def runCheckConflicts.duplicates (installed : InstalledPlugins) : List String :=
  sortStrings (((runCheckConflicts.pluginsByName installed).filter
    (fun e => e.2.length > 1)).map Prod.fst)

/-- The slice `matching` that runCheckConflicts builds for one alias; EqualFold
is Go `strings.EqualFold`. -/
def runCheckConflicts.matching (EqualFold : String → String → Bool)
    (installed : InstalledPlugins) (aliasName : String) : List String :=
  installed.Plugins.filterMap (fun entry =>
    match ParsePluginID entry.1 with
    | .error _ => none
    | .ok parsed => if EqualFold parsed.Name aliasName then some entry.1 else none)

/-- The two counters of runCheckConflicts. -/
structure ConflictCounters where
  aliasConflicts : Nat
  conflictsFound : Nat
  deriving DecidableEq, Repr

/-- The two loops of runCheckConflicts that count: one step per duplicated
name, then one step per configured repo (in sorted order) whose alias has a
matching plugin. -/
def runCheckConflicts.count (EqualFold : String → String → Bool) (cfg : Config)
    (installed : InstalledPlugins) : ConflictCounters :=
  let afterDuplicates : ConflictCounters :=
    (runCheckConflicts.duplicates installed).foldl
      (fun st _ => { st with conflictsFound := st.conflictsFound + 1 })
      { aliasConflicts := 0, conflictsFound := 0 }
  (sortStrings cfg.Repos).foldl (fun st repo =>
      let aliasName := cfg.GetAlias repo
      if (runCheckConflicts.matching EqualFold installed aliasName).length > 0 then
        { aliasConflicts := st.aliasConflicts + 1, conflictsFound := st.conflictsFound + 1 }
      else st)
    afterDuplicates

/-- runCheckConflicts of `check_conflicts.go`: the returned error. -/
def runCheckConflicts {W : Type} (sys : Sys W) (EqualFold : String → String → Bool)
    (cfg : Config) (w : W) : GoResult Unit :=
  match LoadInstalled sys w with
  | .error e => .err ("loading installed plugins: " ++ e)
  | .ok installed =>
    let conflictsFound := (runCheckConflicts.count EqualFold cfg installed).conflictsFound
    if conflictsFound = 0 then .ok ()
    else .err (toString conflictsFound ++ " conflict(s) found")

/-- The bare name of an installed ID, when it parses. -/
def bareNameOf (id : String) : Option String :=
  match ParsePluginID id with
  | .ok parsed => some parsed.Name
  | .error _ => none

/-- The duplicated names in the words of the claim: the bare names that occur
in two or more installed IDs, each listed once. -/
def duplicatedNames (installed : InstalledPlugins) : List String :=
  ((installed.Plugins.map Prod.fst).filterMap bareNameOf).dedup.filter
    (fun name => 2 ≤ (matchingIDs name installed).length)

/-- The alias equals, ignoring case, the bare name of an installed plugin. -/
def aliasMatchesPlugin (EqualFold : String → String → Bool) (installed : InstalledPlugins)
    (aliasName : String) : Bool :=
  (installed.Plugins.map Prod.fst).any (fun id =>
    match ParsePluginID id with
    | .ok parsed => EqualFold parsed.Name aliasName
    | .error _ => false)

/-- The configured repos whose alias equals, ignoring case, the bare name of an
installed plugin. -/
def conflictingRepos (EqualFold : String → String → Bool) (cfg : Config)
    (installed : InstalledPlugins) : List String :=
  cfg.Repos.filter (fun repo => aliasMatchesPlugin EqualFold installed (cfg.GetAlias repo))

/-- A stand-in for `strings.EqualFold` on ASCII letters. -/
def sampleEqualFold (a b : String) : Bool :=
  a.data.map Char.toLower = b.data.map Char.toLower

/-- A config whose alias `Snyk` is, up to case, the name of an installed
plugin of the sample inventory. -/
def snykConfig : Config :=
  { Marketplaces := [("org/snyk-tools", "Snyk"), ("org/mp", "mp")],
    path := "/home/u/.config/ccpm.yaml" }

/-! ## discover.go -/

/-- What runDiscover reads of an `os.DirEntry`: `Name()` and `IsDir()`. -/
structure DirEntry where
  Name : String
  IsDir : Bool
  deriving DecidableEq, Repr

/-- State of the loop of runDiscover: the config, the counter `imported` and
the child processes so far. -/
structure DiscoverState where
  cfg : Config
  (imported : Nat)
  events : List Event

/-- The `for _, entry := range entries` loop of runDiscover. -/
def runDiscover.loop {W : Type} (sys : Sys W) (w : W) (pluginsDir : String) :
    List DirEntry → DiscoverState → DiscoverState
  | [], st => st
  | entry :: rest, st =>
    if !entry.IsDir then runDiscover.loop sys w pluginsDir rest st
    else
      let aliasName := entry.Name
      let dirPath := sys.join [pluginsDir, aliasName]
      let args := ["-C", dirPath, "remote", "get-url", "origin"]
      match sys.git w args with
      | none =>
        runDiscover.loop sys w pluginsDir rest
          { st with events := st.events ++ [Event.git args none] }
      | some out =>
        let remote := stringsTrimSpace out
        let repo := GetRepoFromRemote remote
        if repo = "" then
          runDiscover.loop sys w pluginsDir rest
            { st with events := st.events ++ [Event.git args (some out)] }
        else if st.cfg.GetAlias repo ≠ "" then
          runDiscover.loop sys w pluginsDir rest
            { st with events := st.events ++ [Event.git args (some out)] }
        else
          runDiscover.loop sys w pluginsDir rest
            { cfg := st.cfg.AddMarketplace repo aliasName, imported := st.imported + 1,
              events := st.events ++ [Event.git args (some out)] }

/-- runDiscover of `discover.go`; readDir is Go `os.ReadDir`. -/
def runDiscover {W : Type} (sys : ConfigSys W)
    (readDir : W → String → Except String (List DirEntry)) (cfg : Config) (w : W) : CmdOut W :=
  let pluginsDir := PluginsDir sys.toSys
  if sys.stat w pluginsDir = StatResult.notExist then
    { cfg := cfg, world := w, events := [],
      val := .err ("no marketplaces directory found at " ++ pluginsDir) }
  else
    match readDir w pluginsDir with
    | .error e =>
      { cfg := cfg, world := w, events := [], val := .err ("reading plugins directory: " ++ e) }
    | .ok entries =>
      let st := runDiscover.loop sys.toSys w pluginsDir entries
        { cfg := cfg, imported := 0, events := [] }
      if st.imported > 0 then
        let s := Config.Save sys w st.cfg
        match s.val with
        | some e =>
          { cfg := st.cfg, world := s.world, events := st.events,
            val := .err ("saving config: " ++ e) }
        | none => { cfg := st.cfg, world := s.world, events := st.events, val := .ok () }
      else { cfg := st.cfg, world := w, events := st.events, val := .ok () }

/-- The repo that discover derives for a directory entry: the org/name of the
origin remote of the directory (`none` when the entry is not a directory, has
no origin remote, or the remote is not recognized). -/
def derivedRepo {W : Type} (sys : Sys W) (w : W) (pluginsDir : String) (entry : DirEntry) :
    Option String :=
  if entry.IsDir then
    match sys.git w ["-C", sys.join [pluginsDir, entry.Name], "remote", "get-url", "origin"] with
    | none => none
    | some out =>
      if GetRepoFromRemote (stringsTrimSpace out) = "" then none
      else some (GetRepoFromRemote (stringsTrimSpace out))
  else none

/-- The entry derives a repo for which the config returns no alias. -/
def importable {W : Type} (sys : Sys W) (w : W) (pluginsDir : String) (cfg : Config)
    (entry : DirEntry) : Bool :=
  match derivedRepo sys w pluginsDir entry with
  | none => false
  | some repo => cfg.GetAlias repo = ""

/-- A sample system for discover: three marketplace directories with GitHub
remotes, on the file system of `fileSys`. -/
def discoverSys : ConfigSys (List (String × String)) :=
  { fileSys with
    stat := fun _ _ => StatResult.ok
    git := fun _ args =>
      match args with
      | ["-C", "/home/u/.claude/plugins/marketplaces/tools", "remote", "get-url", "origin"] =>
        some "https://github.com/org/tools.git\n"
      | ["-C", "/home/u/.claude/plugins/marketplaces/mp", "remote", "get-url", "origin"] =>
        some "git@github.com:org/mp.git\n"
      | ["-C", "/home/u/.claude/plugins/marketplaces/fresh", "remote", "get-url", "origin"] =>
        some "git@github.com:org/fresh.git\n"
      | _ => none }

/-- The listing of the marketplaces directory of `discoverSys`. -/
def sampleReadDir (_ : List (String × String)) (_ : String) : Except String (List DirEntry) :=
  .ok [{ Name := "README.md", IsDir := false }, { Name := "mp", IsDir := true },
       { Name := "tools", IsDir := true }]

/-- A listing with a directory whose repo is not in the config. -/
def freshReadDir (_ : List (String × String)) (_ : String) : Except String (List DirEntry) :=
  .ok [{ Name := "mp", IsDir := true }, { Name := "fresh", IsDir := true },
       { Name := "local", IsDir := true }]

/-- A config that already has the two repos of the listing `sampleReadDir`. -/
def testDiscovered : Config :=
  { Marketplaces := [("org/mp", "mp"), ("org/tools", "t")], path := "/home/u/.config/ccpm.yaml" }

/-! # Theorems -/

/-! ## Lemmas on the library primitives -/

theorem cutAt_eq_none_iff (c : Char) (l : List Char) : cutAt c l = none ↔ c ∉ l := by
  induction l with
  | nil => simp [cutAt]
  | cons x xs ih =>
    unfold cutAt
    by_cases h : x = c
    · simp [h]
    · have hne : ¬ c = x := fun e => h e.symm
      cases hc : cutAt c xs with
      | none => simp [h, hne, ih.mp hc]
      | some p =>
        have : c ∈ xs := by
          by_contra hn
          rw [ih.mpr hn] at hc
          cases hc
        simp [h, this]

theorem cutAt_eq_some (c : Char) (l a b : List Char) (h : cutAt c l = some (a, b)) :
    l = a ++ c :: b ∧ a = l.takeWhile (fun ch => ch ≠ c) := by
  induction l generalizing a b with
  | nil => simp [cutAt] at h
  | cons x xs ih =>
    unfold cutAt at h
    by_cases hx : x = c
    · simp [hx] at h
      obtain ⟨rfl, rfl⟩ := h
      simp [hx]
    · simp only [hx, if_false] at h
      cases hc : cutAt c xs with
      | none => simp [hc] at h
      | some p =>
        obtain ⟨a', b'⟩ := p
        simp [hc] at h
        obtain ⟨rfl, rfl⟩ := h
        obtain ⟨h1, h2⟩ := ih a' b' hc
        constructor
        · simp [← h1]
        · simpa [hx] using h2

theorem takeWhile_ne_eq_self (c : Char) (l : List Char) (h : c ∉ l) :
    l.takeWhile (fun ch => ch ≠ c) = l := by
  induction l with
  | nil => rfl
  | cons x xs ih =>
    have hx : x ≠ c := fun e => h (by simp [e])
    have hxs : c ∉ xs := fun e => h (by simp [e])
    have := ih hxs
    simp only [List.takeWhile, hx, ne_eq, not_false_eq_true, decide_True, this]

/-- The first element of `strings.SplitN(s, sep, 2)` is the part of `s` before
the first separator, all of `s` when there is none. -/
theorem stringsSplitN2_head (s : String) (c : Char) :
    ∃ rest, stringsSplitN2 s c = String.mk (s.data.takeWhile (fun ch => ch ≠ c)) :: rest := by
  unfold stringsSplitN2
  cases h : cutAt c s.data with
  | none =>
    refine ⟨[], ?_⟩
    rw [takeWhile_ne_eq_self c s.data ((cutAt_eq_none_iff c s.data).mp h)]
  | some p =>
    obtain ⟨a, b⟩ := p
    refine ⟨[String.mk b], ?_⟩
    rw [← (cutAt_eq_some c s.data a b h).2]

theorem stringsContains_iff (s : String) (c : Char) : stringsContains s c = true ↔ c ∈ s.data := by
  unfold stringsContains
  cases h : cutAt c s.data with
  | none => simp [(cutAt_eq_none_iff c s.data).mp h]
  | some p =>
    have : c ∈ s.data := by
      by_contra hn
      rw [(cutAt_eq_none_iff c s.data).mpr hn] at h
      cases h
    simp [this]

theorem sortStrings_perm (l : List String) : (sortStrings l).Perm l :=
  List.perm_insertionSort _ l

theorem mem_sortStrings (l : List String) (s : String) : s ∈ sortStrings l ↔ s ∈ l :=
  (sortStrings_perm l).mem_iff

theorem sortStrings_sorted (l : List String) :
    (sortStrings l).Sorted (fun a b => a.data ≤ b.data) :=
  List.sorted_insertionSort _ l

/-- The result of `sort.Strings` depends only on the elements, not on the order
they came in. -/
theorem sortStrings_eq_of_perm (l₁ l₂ : List String) (h : l₁.Perm l₂) :
    sortStrings l₁ = sortStrings l₂ :=
  List.eq_of_perm_of_sorted (r := fun a b : String => a.data ≤ b.data)
    ((sortStrings_perm l₁).trans (h.trans (sortStrings_perm l₂).symm))
    (sortStrings_sorted l₁) (sortStrings_sorted l₂)

/-- Sorting in the order of `String`: ascending for `≤`. -/
theorem sortStrings_sorted_le (l : List String) : (sortStrings l).Sorted (fun a b => a ≤ b) :=
  (sortStrings_sorted l).imp (fun h => String.le_iff_toList_le.mpr h)

/-- Sorting a duplicate-free list gives a strictly ascending list. -/
theorem sortStrings_sorted_lt (l : List String) (h : l.Nodup) :
    (sortStrings l).Sorted (fun a b => a < b) := by
  have hn : (sortStrings l).Nodup := (sortStrings_perm l).nodup_iff.mpr h
  have hs := sortStrings_sorted_le l
  exact (List.Pairwise.and hs hn).imp (fun hab => lt_of_le_of_ne hab.1 hab.2)

/-! ## C1: getChangedPlugins -/

theorem mem_mapSet (keys : List String) (k s : String) :
    s ∈ mapSet keys k ↔ s ∈ keys ∨ s = k := by
  unfold mapSet
  by_cases h : k ∈ keys
  · simp only [h, if_true]
    constructor
    · exact Or.inl
    · rintro (h' | rfl)
      · exact h'
      · exact h
  · simp [h]

theorem nodup_mapSet (keys : List String) (k : String) (h : keys.Nodup) :
    (mapSet keys k).Nodup := by
  unfold mapSet
  by_cases hk : k ∈ keys
  · simpa [hk] using h
  · simp only [hk, if_false]
    exact List.Nodup.append h (List.nodup_singleton k) (by simpa using hk)

/-- One round of the first loop of getChangedPlugins. -/
theorem getChangedPlugins_dirs_step (dirs : List String) (line : String) :
    (let l := stringsTrimSpace line
     if l = "" then dirs
     else match stringsSplitN2 l '/' with
       | [] => dirs
       | part :: _ => mapSet dirs part) =
    if stringsTrimSpace line = "" then dirs
    else mapSet dirs (String.mk ((stringsTrimSpace line).data.takeWhile (fun ch => ch ≠ '/'))) := by
  obtain ⟨rest, h⟩ := stringsSplitN2_head (stringsTrimSpace line) '/'
  simp only [h]

theorem getChangedPlugins_foldl_spec (lines : List String) (acc : List String) (seg : String) :
    seg ∈ lines.foldl (fun dirs line =>
        let l := stringsTrimSpace line
        if l = "" then dirs
        else match stringsSplitN2 l '/' with
          | [] => dirs
          | part :: _ => mapSet dirs part) acc ↔
      seg ∈ acc ∨ ∃ line ∈ lines, stringsTrimSpace line ≠ "" ∧
        seg = String.mk ((stringsTrimSpace line).data.takeWhile (fun ch => ch ≠ '/')) := by
  induction lines generalizing acc with
  | nil => simp
  | cons line rest ih =>
    rw [List.foldl_cons, ih, getChangedPlugins_dirs_step]
    by_cases hl : stringsTrimSpace line = ""
    · simp [hl]
    · simp only [hl, if_false, mem_mapSet, List.mem_cons, exists_eq_or_imp, ne_eq,
        not_false_eq_true, true_and]
      tauto

theorem getChangedPlugins_foldl_nodup (lines : List String) (acc : List String)
    (h : acc.Nodup) :
    (lines.foldl (fun dirs line =>
        let l := stringsTrimSpace line
        if l = "" then dirs
        else match stringsSplitN2 l '/' with
          | [] => dirs
          | part :: _ => mapSet dirs part) acc).Nodup := by
  induction lines generalizing acc with
  | nil => simpa using h
  | cons line rest ih =>
    rw [List.foldl_cons]
    apply ih
    rw [getChangedPlugins_dirs_step]
    by_cases hl : stringsTrimSpace line = ""
    · simpa [hl] using h
    · simpa [hl] using nodup_mapSet _ _ h

theorem getChangedPlugins_mem_dirs (out seg : String) :
    seg ∈ getChangedPlugins.dirs out ↔
      ∃ line ∈ stringsSplit out '\n', stringsTrimSpace line ≠ "" ∧
        seg = String.mk ((stringsTrimSpace line).data.takeWhile (fun ch => ch ≠ '/')) := by
  unfold getChangedPlugins.dirs
  rw [getChangedPlugins_foldl_spec]
  simp

theorem getChangedPlugins_nodup_dirs (out : String) : (getChangedPlugins.dirs out).Nodup :=
  getChangedPlugins_foldl_nodup _ [] List.nodup_nil

/-- When `git diff` fails, getChangedPlugins returns no plugin. -/
theorem getChangedPlugins_git_error {W : Type} (sys : Sys W) (w : W)
    (mpDir oldHash newHash : String)
    (hgit : sys.git w ["-C", mpDir, "diff", "--name-only", oldHash, newHash] = none) :
    (getChangedPlugins sys w mpDir oldHash newHash).1 = [] := by
  simp [getChangedPlugins, hgit]

/-- C1 (as stated, refuted): on the diff output `plugin-a` (a path without a
slash) with `mp/plugin-a/.claude-plugin` on disk, getChangedPlugins returns
`plugin-a`, which is not in the set of segments `seg` with a diff path of the
form `seg/…`. -/
theorem getChangedPlugins_claimed_set_counterexample :
    ¬ (∀ seg : String,
        seg ∈ (getChangedPlugins gitlinkSys () "mp" "aaa" "bbb").1 ↔
        claimedChangedSet (stringsSplit "plugin-a\n" '\n')
          (fun s => gitlinkSys.stat () (gitlinkSys.join ["mp", s, ".claude-plugin"]) =
            StatResult.ok) seg) := by
  intro h
  have hmem : "plugin-a" ∈ (getChangedPlugins gitlinkSys () "mp" "aaa" "bbb").1 := by decide
  obtain ⟨⟨path, hpath, rest, hrest⟩, _⟩ := (h "plugin-a").mp hmem
  have hlines : stringsSplit "plugin-a\n" '\n' = ["plugin-a", ""] := by decide
  rw [hlines] at hpath
  have hlen : path.data.length = 9 + rest.data.length := by
    rw [hrest]
    simp [String.data_append]
    omega
  simp only [List.mem_cons, List.mem_singleton, List.not_mem_nil, or_false] at hpath
  rcases hpath with rfl | rfl
  · simp at hlen
    omega
  · simp at hlen
    omega

/-- When `git diff` succeeds, getChangedPlugins returns the sorted list of the
collected segments whose plugin directory can be stat-ed. -/
theorem getChangedPlugins_val {W : Type} (sys : Sys W) (w : W)
    (mpDir oldHash newHash out : String)
    (hgit : sys.git w ["-C", mpDir, "diff", "--name-only", oldHash, newHash] = some out) :
    (getChangedPlugins sys w mpDir oldHash newHash).1 =
      sortStrings ((getChangedPlugins.dirs out).filter (fun dir =>
        sys.stat w (sys.join [mpDir, dir, ".claude-plugin"]) = StatResult.ok)) := by
  simp [getChangedPlugins, hgit]

/-- The list returned by getChangedPlugins is strictly ascending in every
case, also when `git diff` fails. -/
theorem getChangedPlugins_sorted {W : Type} (sys : Sys W) (w : W)
    (mpDir oldHash newHash : String) :
    ((getChangedPlugins sys w mpDir oldHash newHash).1).Sorted (fun a b => a < b) := by
  cases h : sys.git w ["-C", mpDir, "diff", "--name-only", oldHash, newHash] with
  | none =>
    rw [getChangedPlugins_git_error sys w mpDir oldHash newHash h]
    exact List.sorted_nil
  | some out =>
    rw [getChangedPlugins_val sys w mpDir oldHash newHash out h]
    exact sortStrings_sorted_lt _ ((getChangedPlugins_nodup_dirs out).filter _)

/-- C1 (amended): when `git diff --name-only` succeeds with output `out`,
getChangedPlugins returns exactly the segments `seg` that are the first
`/`-separated segment of some non-blank, white-space-trimmed line of `out` (the
whole line when it has no `/`) and for which `mpDir/seg/.claude-plugin` can be
stat-ed; the list is strictly ascending, so each segment appears once. -/
theorem getChangedPlugins_spec {W : Type} (sys : Sys W) (w : W)
    (mpDir oldHash newHash out : String)
    (hgit : sys.git w ["-C", mpDir, "diff", "--name-only", oldHash, newHash] = some out) :
    (∀ seg : String,
      seg ∈ (getChangedPlugins sys w mpDir oldHash newHash).1 ↔
        (∃ line ∈ stringsSplit out '\n', stringsTrimSpace line ≠ "" ∧
          seg = String.mk ((stringsTrimSpace line).data.takeWhile (fun ch => ch ≠ '/'))) ∧
        sys.stat w (sys.join [mpDir, seg, ".claude-plugin"]) = StatResult.ok) ∧
    ((getChangedPlugins sys w mpDir oldHash newHash).1).Sorted (fun a b => a < b) := by
  refine ⟨?_, getChangedPlugins_sorted sys w mpDir oldHash newHash⟩
  intro seg
  rw [getChangedPlugins_val sys w mpDir oldHash newHash out hgit, mem_sortStrings,
    List.mem_filter, getChangedPlugins_mem_dirs]
  simp

/-- C1 (amended) on the sample system: the diff of `mp` between `aaa` and `bbb`
gives `plugin-a` and `plugin-b`. -/
theorem getChangedPlugins_spec_witness :
    sampleSys.git [] ["-C", "/home/u/.claude/plugins/marketplaces/mp", "diff", "--name-only",
        "aaa", "bbb"] =
      some "README.md\nplugin-b/.claude-plugin/plugin.json\nplugin-a/file.md\nplugin-a/x.md\n" ∧
    (getChangedPlugins sampleSys [] "/home/u/.claude/plugins/marketplaces/mp" "aaa" "bbb").1 =
      ["plugin-a", "plugin-b"] ∧
    ((∀ seg : String,
      seg ∈ (getChangedPlugins sampleSys [] "/home/u/.claude/plugins/marketplaces/mp"
          "aaa" "bbb").1 ↔
        (∃ line ∈ stringsSplit
            "README.md\nplugin-b/.claude-plugin/plugin.json\nplugin-a/file.md\nplugin-a/x.md\n"
            '\n',
          stringsTrimSpace line ≠ "" ∧
          seg = String.mk ((stringsTrimSpace line).data.takeWhile (fun ch => ch ≠ '/'))) ∧
        sampleSys.stat [] (sampleSys.join ["/home/u/.claude/plugins/marketplaces/mp", seg,
          ".claude-plugin"]) = StatResult.ok) ∧
    ((getChangedPlugins sampleSys [] "/home/u/.claude/plugins/marketplaces/mp"
        "aaa" "bbb").1).Sorted (fun a b => a < b)) :=
  ⟨rfl, by decide,
   getChangedPlugins_spec sampleSys [] "/home/u/.claude/plugins/marketplaces/mp" "aaa" "bbb"
      "README.md\nplugin-b/.claude-plugin/plugin.json\nplugin-a/file.md\nplugin-a/x.md\n" rfl⟩

/-! ## The child processes of the loops -/

theorem claudeCalls_append (a b : List Event) :
    claudeCalls (a ++ b) = claudeCalls a ++ claudeCalls b := by
  simp [claudeCalls, List.filterMap_append]

/-- getGitHash starts exactly one process, `git -C dir rev-parse HEAD`. -/
theorem getGitHash_events {W : Type} (sys : Sys W) (w : W) (dir : String) :
    (getGitHash sys w dir).2 =
      [Event.git ["-C", dir, "rev-parse", "HEAD"] (sys.git w ["-C", dir, "rev-parse", "HEAD"])] := by
  unfold getGitHash
  cases h : sys.git w ["-C", dir, "rev-parse", "HEAD"] <;> simp [h]

/-- getChangedPlugins starts exactly one process, the `git diff`. -/
theorem getChangedPlugins_events {W : Type} (sys : Sys W) (w : W)
    (mpDir oldHash newHash : String) :
    (getChangedPlugins sys w mpDir oldHash newHash).2 =
      [Event.git ["-C", mpDir, "diff", "--name-only", oldHash, newHash]
        (sys.git w ["-C", mpDir, "diff", "--name-only", oldHash, newHash])] := by
  unfold getChangedPlugins
  cases h : sys.git w ["-C", mpDir, "diff", "--name-only", oldHash, newHash] <;> simp [h]

theorem claudeCalls_getGitHash {W : Type} (sys : Sys W) (w : W) (dir : String) :
    claudeCalls (getGitHash sys w dir).2 = [] := by
  rw [getGitHash_events]
  rfl

theorem claudeCalls_getChangedPlugins {W : Type} (sys : Sys W) (w : W)
    (mpDir oldHash newHash : String) :
    claudeCalls (getChangedPlugins sys w mpDir oldHash newHash).2 = [] := by
  rw [getChangedPlugins_events]
  rfl

theorem claudeCalls_PluginReinstall {W : Type} (sys : Sys W) (w : W) (pluginID : String) :
    claudeCalls (PluginReinstall sys w pluginID).events =
      [["plugin", "uninstall", pluginID], ["plugin", "install", pluginID]] := rfl

theorem claudeCalls_MarketplaceUpdate {W : Type} (sys : Sys W) (w : W) (aliasName : String) :
    claudeCalls (MarketplaceUpdate sys w aliasName).events =
      [["plugin", "marketplace", "update", aliasName]] := rfl

/-- Outside dry-run the reinstall loop of runUpgrade runs one PluginReinstall
per name, whatever the earlier ones returned. -/
theorem runUpgrade_reinstall_calls {W : Type} (sys : Sys W) (aliasName : String)
    (names : List String) (w : W) :
    claudeCalls (runUpgrade.reinstall sys false aliasName names w).events =
      reinstallCalls aliasName names := by
  induction names generalizing w with
  | nil => rfl
  | cons name rest ih =>
    simp only [runUpgrade.reinstall, Bool.false_eq_true, if_false, claudeCalls_append,
      claudeCalls_PluginReinstall, ih]
    simp [reinstallCalls]

/-- In dry-run the reinstall loop of runUpgrade starts no process and leaves
the world as it is. -/
theorem runUpgrade_reinstall_dryRun {W : Type} (sys : Sys W) (aliasName : String)
    (names : List String) (w : W) :
    (runUpgrade.reinstall sys true aliasName names w).events = [] ∧
    (runUpgrade.reinstall sys true aliasName names w).world = w := by
  induction names with
  | nil => exact ⟨rfl, rfl⟩
  | cons name rest ih => simpa [runUpgrade.reinstall] using ih

theorem runUpgrade_loop_append {W : Type} (sys : Sys W) (dryRun : Bool) (pluginsDir : String)
    (pre post : List String) (w : W) :
    (runUpgrade.loop sys dryRun pluginsDir (pre ++ post) w).events =
      (runUpgrade.loop sys dryRun pluginsDir pre w).events ++
      (runUpgrade.loop sys dryRun pluginsDir post
        (runUpgrade.loop sys dryRun pluginsDir pre w).world).events ∧
    (runUpgrade.loop sys dryRun pluginsDir (pre ++ post) w).world =
      (runUpgrade.loop sys dryRun pluginsDir post
        (runUpgrade.loop sys dryRun pluginsDir pre w).world).world := by
  induction pre generalizing w with
  | nil => simp [runUpgrade.loop]
  | cons a rest ih =>
    have h := ih (runUpgrade.body sys dryRun pluginsDir w a).world
    rw [List.cons_append]
    simp only [runUpgrade.loop, h.1, h.2, List.append_assoc, and_self]

/-- The `claude` commands of one round of the upgrade loop, outside dry-run,
for an alias whose clone exists, has a HEAD hash, and whose hash changed. -/
theorem runUpgrade_body_calls {W : Type} (sys : Sys W) (pluginsDir : String) (w : W)
    (aliasName : String)
    (hdir : sys.stat w (sys.join [pluginsDir, aliasName]) ≠ StatResult.notExist)
    (hold : (getGitHash sys w (sys.join [pluginsDir, aliasName])).1 ≠ "")
    (hchg : (getGitHash sys w (sys.join [pluginsDir, aliasName])).1 ≠
      (getGitHash sys (MarketplaceUpdate sys w aliasName).world
        (sys.join [pluginsDir, aliasName])).1) :
    claudeCalls (runUpgrade.body sys false pluginsDir w aliasName).events =
      ["plugin", "marketplace", "update", aliasName] ::
        reinstallCalls aliasName
          (getChangedPlugins sys (MarketplaceUpdate sys w aliasName).world
            (sys.join [pluginsDir, aliasName])
            (getGitHash sys w (sys.join [pluginsDir, aliasName])).1
            (getGitHash sys (MarketplaceUpdate sys w aliasName).world
              (sys.join [pluginsDir, aliasName])).1).1 := by
  unfold runUpgrade.body
  simp only [hdir, hold, if_false, Bool.not_false, if_true, hchg]
  split
  · rename_i h0
    have hnil := List.length_eq_zero.mp h0
    simp [claudeCalls_append, claudeCalls_getGitHash, claudeCalls_getChangedPlugins,
      claudeCalls_MarketplaceUpdate, hnil, reinstallCalls]
  · simp [claudeCalls_append, claudeCalls_getGitHash, claudeCalls_getChangedPlugins,
      claudeCalls_MarketplaceUpdate, runUpgrade_reinstall_calls]

/-! ## C2: upgrade reinstalls exactly the changed set -/

/-- C2: in a non-dry-run upgrade whose target aliases are `pre ++ alias :: post`,
if, when the loop reaches `alias`, its clone exists, has HEAD hash `oldHash`,
and the hash after `marketplace update` is a different `newHash`, then the
`claude` commands of the whole run are: those of the aliases before, then the
marketplace update of `alias`, then for each name of the changed-plugin set, in
the ascending order of that set, the uninstall and the install of `name@alias`
(one PluginReinstall each, whatever the earlier ones returned), then those of
the aliases after, run from the world the reinstalls left. -/
theorem runUpgrade_reinstalls_changed_set {W : Type} (sys : Sys W) (g : Globals)
    (args pre post : List String) (aliasName : String) (w0 w w1 : W)
    (mpDir oldHash newHash : String) (changed : List String)
    (hdry : g.dryRun = false)
    (htargets : getTargetAliases g.cfg args = .ok (pre ++ aliasName :: post))
    (hw : w = (runUpgrade.loop sys false (PluginsDir sys) pre w0).world)
    (hmp : mpDir = sys.join [PluginsDir sys, aliasName])
    (hdir : sys.stat w mpDir ≠ StatResult.notExist)
    (hold : oldHash = (getGitHash sys w mpDir).1)
    (hold_ne : oldHash ≠ "")
    (hw1 : w1 = (MarketplaceUpdate sys w aliasName).world)
    (hnew : newHash = (getGitHash sys w1 mpDir).1)
    (hchg : oldHash ≠ newHash)
    (hchanged : changed = (getChangedPlugins sys w1 mpDir oldHash newHash).1) :
    claudeCalls (runUpgrade sys g args w0).events =
      claudeCalls (runUpgrade.loop sys false (PluginsDir sys) pre w0).events ++
      (["plugin", "marketplace", "update", aliasName] :: reinstallCalls aliasName changed) ++
      claudeCalls (runUpgrade.loop sys false (PluginsDir sys) post
        (runUpgrade.body sys false (PluginsDir sys) w aliasName).world).events ∧
    changed.Sorted (fun a b => a < b) := by
  subst hw hmp hold hw1 hnew hchanged
  refine ⟨?_, getChangedPlugins_sorted _ _ _ _ _⟩
  have hbody := runUpgrade_body_calls sys (PluginsDir sys) _ aliasName hdir hold_ne hchg
  have happ := runUpgrade_loop_append sys false (PluginsDir sys) pre (aliasName :: post) w0
  simp only [runUpgrade, htargets, hdry, happ.1, claudeCalls_append, runUpgrade.loop, hbody,
    List.append_assoc]

/-- C2 on the sample system: `ccpm upgrade` updates `mp` and reinstalls
`plugin-a@mp`, then `plugin-b@mp`, although the install of `plugin-a@mp` fails. -/
theorem runUpgrade_reinstalls_changed_set_witness :
    claudeCalls (runUpgrade sampleSys (sampleGlobals false) [] []).events =
      claudeCalls (runUpgrade.loop sampleSys false (PluginsDir sampleSys) [] []).events ++
      (["plugin", "marketplace", "update", "mp"] ::
        reinstallCalls "mp" ["plugin-a", "plugin-b"]) ++
      claudeCalls (runUpgrade.loop sampleSys false (PluginsDir sampleSys) []
        (runUpgrade.body sampleSys false (PluginsDir sampleSys) [] "mp").world).events ∧
    ["plugin-a", "plugin-b"].Sorted (fun a b => a < b) :=
  runUpgrade_reinstalls_changed_set sampleSys (sampleGlobals false) [] [] [] "mp" [] []
    [["plugin", "marketplace", "update", "mp"]]
    "/home/u/.claude/plugins/marketplaces/mp" "aaa" "bbb" ["plugin-a", "plugin-b"]
    rfl rfl rfl (by decide) (by decide) (by decide) (by decide) rfl (by decide)
    (by decide) (by decide)

/-! ## C3: an unchanged hash asks for no diff and no reinstall -/

/-- C3: in one round of the per-alias loop of upgrade (dry-run or not) and of
update, if the hash read before the marketplace update equals the hash read
after it, the round starts no `git diff` and no plugin install or uninstall. -/
theorem unchanged_hash_no_diff_no_reinstall {W : Type} (sys : Sys W) (dryRun : Bool)
    (pluginsDir : String) (w : W) (aliasName : String) :
    ((getGitHash sys w (sys.join [pluginsDir, aliasName])).1 =
        (getGitHash sys (if dryRun then w else (MarketplaceUpdate sys w aliasName).world)
          (sys.join [pluginsDir, aliasName])).1 →
      ∀ e ∈ (runUpgrade.body sys dryRun pluginsDir w aliasName).events,
        e.isDiff = false ∧ e.isPluginInstall = false ∧ e.isPluginUninstall = false) ∧
    ((getGitHash sys w (sys.join [pluginsDir, aliasName])).1 =
        (getGitHash sys (MarketplaceUpdate sys w aliasName).world
          (sys.join [pluginsDir, aliasName])).1 →
      ∀ e ∈ (runUpdate.body sys pluginsDir w aliasName).events,
        e.isDiff = false ∧ e.isPluginInstall = false ∧ e.isPluginUninstall = false) := by
  constructor
  · intro h e he
    unfold runUpgrade.body at he
    by_cases hdir : sys.stat w (sys.join [pluginsDir, aliasName]) = StatResult.notExist
    · simp [hdir] at he
    · by_cases hold : (getGitHash sys w (sys.join [pluginsDir, aliasName])).1 = ""
      · simp only [hdir, hold, if_false, if_true, getGitHash_events] at he
        simp at he
        subst he
        exact ⟨rfl, rfl, rfl⟩
      · cases dryRun with
        | true =>
          simp only [if_true] at h
          simp only [hdir, hold, if_false, Bool.not_true, Bool.false_eq_true] at he
          rw [if_pos h] at he
          simp [getGitHash_events] at he
          subst he
          exact ⟨rfl, rfl, rfl⟩
        | false =>
          simp only [Bool.false_eq_true, if_false] at h
          simp only [hdir, hold, if_false, Bool.not_false, if_true] at he
          rw [if_pos h] at he
          simp [getGitHash_events, MarketplaceUpdate, RunSilent] at he
          rcases he with rfl | rfl | rfl <;> exact ⟨rfl, rfl, rfl⟩
  · intro h e he
    unfold runUpdate.body at he
    by_cases hdir : sys.stat w (sys.join [pluginsDir, aliasName]) = StatResult.notExist
    · simp [hdir] at he
    · by_cases hold : (getGitHash sys w (sys.join [pluginsDir, aliasName])).1 = ""
      · simp only [hdir, hold, if_false, if_true, getGitHash_events] at he
        simp at he
        subst he
        exact ⟨rfl, rfl, rfl⟩
      · simp only [hdir, hold, if_false] at he
        split at he
        · simp [getGitHash_events, MarketplaceUpdate, RunSilent] at he
          rcases he with rfl | rfl <;> exact ⟨rfl, rfl, rfl⟩
        · rw [if_pos h] at he
          simp [getGitHash_events, MarketplaceUpdate, RunSilent] at he
          rcases he with rfl | rfl | rfl <;> exact ⟨rfl, rfl, rfl⟩

/-- C3 on the sample system in which the update leaves the hash of `mp`
unchanged. -/
theorem unchanged_hash_no_diff_no_reinstall_witness :
    (getGitHash quietSys [] (quietSys.join [PluginsDir quietSys, "mp"])).1 =
      (getGitHash quietSys (MarketplaceUpdate quietSys [] "mp").world
        (quietSys.join [PluginsDir quietSys, "mp"])).1 ∧
    (∀ e ∈ (runUpgrade.body quietSys false (PluginsDir quietSys) [] "mp").events,
      e.isDiff = false ∧ e.isPluginInstall = false ∧ e.isPluginUninstall = false) ∧
    (∀ e ∈ (runUpdate.body quietSys (PluginsDir quietSys) [] "mp").events,
      e.isDiff = false ∧ e.isPluginInstall = false ∧ e.isPluginUninstall = false) :=
  ⟨by decide,
   (unchanged_hash_no_diff_no_reinstall quietSys false (PluginsDir quietSys) [] "mp").1
     (by decide),
   (unchanged_hash_no_diff_no_reinstall quietSys false (PluginsDir quietSys) [] "mp").2
     (by decide)⟩

/-! ## C6, C7: dry-run -/

theorem claudeCalls_nil : claudeCalls [] = [] := rfl

/-- One round of the upgrade loop in dry-run runs no `claude` command and
leaves the world as it is. -/
theorem runUpgrade_body_dryRun {W : Type} (sys : Sys W) (pluginsDir : String) (w : W)
    (aliasName : String) :
    claudeCalls (runUpgrade.body sys true pluginsDir w aliasName).events = [] ∧
    (runUpgrade.body sys true pluginsDir w aliasName).world = w := by
  unfold runUpgrade.body
  have hr := runUpgrade_reinstall_dryRun sys aliasName
  simp only [Bool.not_true, Bool.false_eq_true, if_false]
  split
  · exact ⟨rfl, rfl⟩
  · split
    · exact ⟨claudeCalls_getGitHash _ _ _, rfl⟩
    · split
      · simp [claudeCalls_append, claudeCalls_getGitHash, claudeCalls_nil]
      · split
        · simp [claudeCalls_append, claudeCalls_getGitHash, claudeCalls_getChangedPlugins,
            claudeCalls_nil]
        · simp [claudeCalls_append, claudeCalls_getGitHash, claudeCalls_getChangedPlugins,
            claudeCalls_nil, (hr _ _).1, (hr _ _).2]

theorem runUpgrade_loop_dryRun {W : Type} (sys : Sys W) (pluginsDir : String)
    (aliases : List String) (w : W) :
    claudeCalls (runUpgrade.loop sys true pluginsDir aliases w).events = [] ∧
    (runUpgrade.loop sys true pluginsDir aliases w).world = w := by
  induction aliases generalizing w with
  | nil => exact ⟨rfl, rfl⟩
  | cons a rest ih =>
    have hb := runUpgrade_body_dryRun sys pluginsDir w a
    simp only [runUpgrade.loop, claudeCalls_append, hb.1, hb.2, (ih w).1, (ih w).2,
      List.append_nil, and_self]

theorem runReinstall_loop_dryRun {W : Type} (sys : Sys W) (installed : Option InstalledPlugins)
    (specs : List String) (t : Tally W) :
    (runReinstall.loop sys true installed specs t).events = t.events ∧
    (runReinstall.loop sys true installed specs t).world = t.world := by
  induction specs generalizing t with
  | nil => exact ⟨rfl, rfl⟩
  | cons spec rest ih =>
    unfold runReinstall.loop
    split
    · exact ⟨rfl, rfl⟩
    · simpa using ih _
    · simpa using ih _

/-- Past the early returns, the processes and the final world of runReinstall
are those of its loop. -/
theorem runReinstall_events_world {W : Type} (sys : Sys W) (g : Globals)
    (reinstallAll : String) (args : List String) (w : W) (specs : List String)
    (hs : runReinstall.specs sys reinstallAll args w = .ok specs) :
    (runReinstall sys g reinstallAll args w).events =
      (runReinstall.loop sys g.dryRun (loadInstalledOrNil sys w) specs
        { world := w, events := [], failed := 0, panicked := false }).events ∧
    (runReinstall sys g reinstallAll args w).world =
      (runReinstall.loop sys g.dryRun (loadInstalledOrNil sys w) specs
        { world := w, events := [], failed := 0, panicked := false }).world := by
  unfold runReinstall
  rw [hs]
  dsimp only
  split_ifs <;> exact ⟨rfl, rfl⟩

/-- In dry-run runUpgrade runs no `claude` command and leaves the world as it
was. -/
theorem runUpgrade_dryRun {W : Type} (sys : Sys W) (g : Globals) (args : List String) (w : W) :
    claudeCalls (runUpgrade sys { g with dryRun := true } args w).events = [] ∧
    (runUpgrade sys { g with dryRun := true } args w).world = w := by
  unfold runUpgrade
  split
  · exact ⟨rfl, rfl⟩
  · exact runUpgrade_loop_dryRun sys _ _ w

/-- C6: with the dry-run flag set, upgrade and reinstall run no `claude`
command at all (no marketplace update, no plugin uninstall, no plugin
install) and leave the world as it was, for every system, config, flag
values and arguments. -/
theorem dryRun_runs_no_host_command {W : Type} (sys : Sys W) (g : Globals)
    (reinstallAll : String) (args : List String) (w : W) :
    claudeCalls (runUpgrade sys { g with dryRun := true } args w).events = [] ∧
    (runUpgrade sys { g with dryRun := true } args w).world = w ∧
    claudeCalls (runReinstall sys { g with dryRun := true } reinstallAll args w).events = [] ∧
    (runReinstall sys { g with dryRun := true } reinstallAll args w).world = w := by
  refine ⟨(runUpgrade_dryRun sys g args w).1, (runUpgrade_dryRun sys g args w).2, ?_, ?_⟩
  · cases hs : runReinstall.specs sys reinstallAll args w with
    | error r => simp only [runReinstall, hs]; rfl
    | ok specs =>
      rw [(runReinstall_events_world sys _ reinstallAll args w specs hs).1]
      exact congrArg claudeCalls (runReinstall_loop_dryRun sys _ _ _).1
  · cases hs : runReinstall.specs sys reinstallAll args w with
    | error r => simp only [runReinstall, hs]
    | ok specs =>
      rw [(runReinstall_events_world sys _ reinstallAll args w specs hs).2]
      exact (runReinstall_loop_dryRun sys _ _ _).2

/-- C7: the code at the failing input.  With the dry-run flag set, `ccpm update`
on the sample system runs `claude plugin marketplace update mp` and so changes
the state of the host CLI, against the documentation of the flag (`show what
would be done without making changes`); `ccpm upgrade` with the same flag, whose
loop gates the same call, runs no host command on the same input. -/
theorem runUpdate_dryRun_counterexample :
    (sampleGlobals true).dryRun = true ∧
    Event.claude ["plugin", "marketplace", "update", "mp"] none ∈
      (runUpdate sampleSys (sampleGlobals true) [] []).events ∧
    (runUpdate sampleSys (sampleGlobals true) [] []).world =
      [["plugin", "marketplace", "update", "mp"]] ∧
    claudeCalls (runUpgrade sampleSys (sampleGlobals true) [] []).events = [] ∧
    (runUpgrade sampleSys (sampleGlobals true) [] []).world = [] := by
  decide

/-- Where the dry-run gate of the marketplace update is: in dry-run the upgrade
command runs no `claude plugin marketplace update`, while the run of the update
command is the same for both values of the flag, with the marketplace update
for every alias whose clone exists and has a HEAD hash. -/
theorem marketplace_update_skipped_by_upgrade_only {W : Type} (sys : Sys W) (g : Globals)
    (args : List String) (w : W) (pluginsDir aliasName : String) :
    (∀ e ∈ (runUpgrade sys { g with dryRun := true } args w).events,
      e.isMarketplaceUpdate = false) ∧
    (∀ b : Bool, runUpdate sys { g with dryRun := b } args w = runUpdate sys g args w) ∧
    (sys.stat w (sys.join [pluginsDir, aliasName]) ≠ StatResult.notExist →
      (getGitHash sys w (sys.join [pluginsDir, aliasName])).1 ≠ "" →
      Event.claude ["plugin", "marketplace", "update", aliasName]
          (sys.claude w ["plugin", "marketplace", "update", aliasName]).2 ∈
        (runUpdate.body sys pluginsDir w aliasName).events) := by
  refine ⟨?_, fun _ => rfl, ?_⟩
  · intro e he
    have h := (runUpgrade_dryRun sys g args w).1
    cases e with
    | git a o => rfl
    | claude a o =>
      have hmem : a ∈ claudeCalls (runUpgrade sys { g with dryRun := true } args w).events := by
        unfold claudeCalls
        exact List.mem_filterMap.mpr ⟨_, he, rfl⟩
      rw [h] at hmem
      cases hmem
  · intro hdir hold
    unfold runUpdate.body
    simp only [hdir, hold, if_false]
    split
    · simp [MarketplaceUpdate, RunSilent]
    · split <;> simp [MarketplaceUpdate, RunSilent]

/-- The gate of the marketplace update on the sample system. -/
theorem marketplace_update_skipped_by_upgrade_only_witness :
    sampleSys.stat [] (sampleSys.join [PluginsDir sampleSys, "mp"]) ≠ StatResult.notExist ∧
    (getGitHash sampleSys [] (sampleSys.join [PluginsDir sampleSys, "mp"])).1 ≠ "" ∧
    (∀ e ∈ (runUpgrade sampleSys { sampleGlobals false with dryRun := true } [] []).events,
      e.isMarketplaceUpdate = false) ∧
    Event.claude ["plugin", "marketplace", "update", "mp"]
        (sampleSys.claude [] ["plugin", "marketplace", "update", "mp"]).2 ∈
      (runUpdate.body sampleSys (PluginsDir sampleSys) [] "mp").events :=
  ⟨by decide, by decide,
   (marketplace_update_skipped_by_upgrade_only sampleSys (sampleGlobals false) [] []
      (PluginsDir sampleSys) "mp").1,
   (marketplace_update_skipped_by_upgrade_only sampleSys (sampleGlobals false) [] []
      (PluginsDir sampleSys) "mp").2.2 (by decide) (by decide)⟩

/-! ## C9: PluginReinstall -/

/-- C9: PluginReinstall(id) runs `claude plugin uninstall id` and then, in the
world the uninstall left, `claude plugin install id`, and nothing else; what it
returns is what that install returned, whatever the uninstall returned. -/
theorem PluginReinstall_spec {W : Type} (sys : Sys W) (w : W) (pluginID : String) :
    (PluginReinstall sys w pluginID).events =
      [Event.claude ["plugin", "uninstall", pluginID]
         (sys.claude w ["plugin", "uninstall", pluginID]).2,
       Event.claude ["plugin", "install", pluginID]
         (sys.claude (sys.claude w ["plugin", "uninstall", pluginID]).1
           ["plugin", "install", pluginID]).2] ∧
    (PluginReinstall sys w pluginID).events =
      (PluginUninstall sys w pluginID).events ++
      (claudePluginInstall sys (PluginUninstall sys w pluginID).world pluginID).events ∧
    (PluginReinstall sys w pluginID).val =
      (claudePluginInstall sys (PluginUninstall sys w pluginID).world pluginID).val ∧
    ((PluginReinstall sys w pluginID).val = none ↔
      (sys.claude (sys.claude w ["plugin", "uninstall", pluginID]).1
        ["plugin", "install", pluginID]).2 = none) :=
  ⟨rfl, rfl, rfl, Iff.rfl⟩

/-! ## C10: getTargetAliases without arguments -/

/-- The aliases collected by getTargetAliases are the non-empty aliases of the
configured repos, in iteration order. -/
theorem getTargetAliases_collect_eq (cfg : Config) (repos : List String) :
    repos.filterMap (fun repo =>
        let aliasName := cfg.GetAlias repo
        if aliasName ≠ "" then some aliasName else none) =
      (repos.map cfg.GetAlias).filter (fun a => a ≠ "") := by
  induction repos with
  | nil => rfl
  | cons r rest ih =>
    by_cases h : cfg.GetAlias r = ""
    · simpa [List.filterMap_cons, h] using ih
    · simpa [List.filterMap_cons, h] using ih

/-- C10 (as stated, refuted): the config maps `org/tools` to the empty alias;
getTargetAliases without arguments succeeds with `["mp"]`, a list that does not
contain the alias of the configured repo `org/tools`. -/
theorem getTargetAliases_all_counterexample :
    ¬ (∀ aliases, getTargetAliases emptyAliasConfig [] = .ok aliases →
        ∀ repo ∈ emptyAliasConfig.Repos, emptyAliasConfig.GetAlias repo ∈ aliases) := by
  intro h
  have hrun : getTargetAliases emptyAliasConfig [] = .ok ["mp"] := rfl
  have hmem := h ["mp"] hrun "org/tools" (by decide)
  revert hmem
  decide

/-- C10 (amended): without repo arguments, on a config with at least one
mapping getTargetAliases succeeds with an ascending list that holds exactly the
non-empty aliases of the configured repos (a repo mapped to the empty alias is
skipped), so it contains the alias of every repo whose alias is not empty; on a
config without mappings it fails with the `no marketplaces configured` error. -/
theorem getTargetAliases_all (cfg : Config) :
    (cfg.Marketplaces ≠ [] →
      ∃ aliases, getTargetAliases cfg [] = .ok aliases ∧
        aliases.Sorted (fun a b => a ≤ b) ∧
        aliases.Perm ((cfg.Repos.map cfg.GetAlias).filter (fun a => a ≠ "")) ∧
        ∀ repo ∈ cfg.Repos, cfg.GetAlias repo ≠ "" → cfg.GetAlias repo ∈ aliases) ∧
    (cfg.Marketplaces = [] →
      getTargetAliases cfg [] = .error
        ("no marketplaces configured\nRun 'ccpm discover' to import installed " ++
         "marketplaces\nOr add one with: ccpm add <org/repo> <alias>")) := by
  constructor
  · intro hne
    have hlen : ¬ cfg.Repos.length = 0 := by
      simpa [Config.Repos] using hne
    refine ⟨sortStrings ((cfg.Repos.map cfg.GetAlias).filter (fun a => a ≠ "")), ?_,
      sortStrings_sorted_le _, sortStrings_perm _, ?_⟩
    · simp only [getTargetAliases, List.length_nil, gt_iff_lt, lt_self_iff_false, if_false, hlen,
        getTargetAliases_collect_eq]
    · intro repo hrepo hnonempty
      rw [mem_sortStrings, List.mem_filter]
      exact ⟨List.mem_map.mpr ⟨repo, hrepo, rfl⟩, by simpa using hnonempty⟩
  · intro hnil
    simp [getTargetAliases, Config.Repos, hnil]

/-- C10 (amended) on the config with an empty alias and on the empty config. -/
theorem getTargetAliases_all_witness :
    emptyAliasConfig.Marketplaces ≠ [] ∧
    getTargetAliases emptyAliasConfig [] = .ok ["mp"] ∧
    (∃ aliases, getTargetAliases emptyAliasConfig [] = .ok aliases ∧
        aliases.Sorted (fun a b => a ≤ b) ∧
        aliases.Perm ((emptyAliasConfig.Repos.map emptyAliasConfig.GetAlias).filter
          (fun a => a ≠ "")) ∧
        ∀ repo ∈ emptyAliasConfig.Repos, emptyAliasConfig.GetAlias repo ≠ "" →
          emptyAliasConfig.GetAlias repo ∈ aliases) ∧
    getTargetAliases { Marketplaces := [], path := "" } [] = .error
        ("no marketplaces configured\nRun 'ccpm discover' to import installed " ++
         "marketplaces\nOr add one with: ccpm add <org/repo> <alias>") :=
  ⟨by decide, rfl, (getTargetAliases_all emptyAliasConfig).1 (by decide),
   (getTargetAliases_all { Marketplaces := [], path := "" }).2 rfl⟩

/-! ## C5, C4: parsePluginSpec -/

theorem not_mem_takeWhile_ne (c : Char) (l : List Char) :
    c ∉ l.takeWhile (fun ch => ch ≠ c) := by
  intro h
  have := List.mem_takeWhile_imp h
  simp at this

theorem stringsSplitN2_of_mem (s : String) (c : Char) (h : c ∈ s.data) :
    ∃ a b : List Char, stringsSplitN2 s c = [String.mk a, String.mk b] ∧
      s.data = a ++ c :: b ∧ c ∉ a := by
  unfold stringsSplitN2
  cases hc : cutAt c s.data with
  | none => exact absurd h ((cutAt_eq_none_iff c s.data).mp hc)
  | some p =>
    obtain ⟨a, b⟩ := p
    obtain ⟨h1, h2⟩ := cutAt_eq_some c s.data a b hc
    refine ⟨a, b, rfl, h1, ?_⟩
    rw [h2]
    exact not_mem_takeWhile_ne c s.data

theorem stringsSplitN2_of_not_mem (s : String) (c : Char) (h : c ∉ s.data) :
    stringsSplitN2 s c = [s] := by
  unfold stringsSplitN2
  rw [(cutAt_eq_none_iff c s.data).mpr h]

/-- C5: for a token that contains `@`, parsePluginSpec succeeds with the same
pair for every inventory pointer (also nil and the empty inventory): the name
is the part before the first `@` (it contains no `@`), the alias everything
after it, and `name@alias` is the token. -/
theorem parsePluginSpec_qualified (token : String) (h : '@' ∈ token.data) :
    ∃ name aliasName : String,
      (∀ installed : Option InstalledPlugins,
        parsePluginSpec token installed = .ok (name, aliasName)) ∧
      '@' ∉ name.data ∧
      name.data = token.data.takeWhile (fun ch => ch ≠ '@') ∧
      name ++ "@" ++ aliasName = token := by
  obtain ⟨a, b, hsplit, hdata, hnot⟩ := stringsSplitN2_of_mem token '@' h
  refine ⟨String.mk a, String.mk b, ?_, hnot, ?_, ?_⟩
  · intro installed
    unfold parsePluginSpec
    rw [(stringsContains_iff token '@').mpr h]
    simp [hsplit]
  · obtain ⟨rest, hrest⟩ := stringsSplitN2_head token '@'
    rw [hsplit] at hrest
    have := (List.cons.inj hrest).1
    exact congrArg String.data this
  · apply String.ext
    simp [String.data_append, hdata]

/-- C5 on the token `trivy@plinde-plugins`, with a nil inventory. -/
theorem parsePluginSpec_qualified_witness :
    '@' ∈ "trivy@plinde-plugins".data ∧
    parsePluginSpec "trivy@plinde-plugins" none = .ok ("trivy", "plinde-plugins") ∧
    ∃ name aliasName : String,
      (∀ installed : Option InstalledPlugins,
        parsePluginSpec "trivy@plinde-plugins" installed = .ok (name, aliasName)) ∧
      '@' ∉ name.data ∧
      name.data = "trivy@plinde-plugins".data.takeWhile (fun ch => ch ≠ '@') ∧
      name ++ "@" ++ aliasName = "trivy@plinde-plugins" :=
  ⟨by decide, by decide, parsePluginSpec_qualified "trivy@plinde-plugins" (by decide)⟩

/-- ParsePluginID succeeds exactly on the IDs that contain `@`, splitting at
the first one. -/
theorem ParsePluginID_of_mem (id : String) (h : '@' ∈ id.data) :
    ∃ a b : List Char, ParsePluginID id =
        .ok { Name := String.mk a, Marketplace := String.mk b, Full := id } ∧
      id.data = a ++ '@' :: b ∧ '@' ∉ a := by
  obtain ⟨a, b, hsplit, hdata, hnot⟩ := stringsSplitN2_of_mem id '@' h
  exact ⟨a, b, by simp [ParsePluginID, hsplit], hdata, hnot⟩

theorem ParsePluginID_of_not_mem (id : String) (h : '@' ∉ id.data) :
    ParsePluginID id =
      .error ("invalid plugin ID format: " ++ id ++ " (expected name@marketplace)") := by
  simp [ParsePluginID, stringsSplitN2_of_not_mem id '@' h]

/-- An ID with bare name `token` is `token@alias` for its alias. -/
theorem eq_of_hasBareName (token id : String) (h : hasBareName token id = true) :
    id = token ++ "@" ++ aliasOf id := by
  by_cases hat : '@' ∈ id.data
  · obtain ⟨a, b, hparse, hdata, _⟩ := ParsePluginID_of_mem id hat
    simp only [hasBareName, hparse, decide_eq_true_eq] at h
    subst h
    apply String.ext
    simp [aliasOf, hparse, String.data_append, hdata]
  · simp [hasBareName, ParsePluginID_of_not_mem id hat] at h

/-- The list `matches` built by parsePluginSpec holds the aliases of the IDs
with bare name `spec`, in iteration order. -/
theorem parsePluginSpec_matches_eq (spec : String) (installed : InstalledPlugins) :
    parsePluginSpec.matches spec installed = (matchingIDs spec installed).map aliasOf := by
  unfold parsePluginSpec.matches matchingIDs
  induction installed.Plugins with
  | nil => rfl
  | cons entry rest ih =>
    cases hp : ParsePluginID entry.1 with
    | error e => simp [List.filterMap_cons, hp, hasBareName, ih]
    | ok parsed =>
      by_cases hn : parsed.Name = spec
      · simp [List.filterMap_cons, hp, hasBareName, aliasOf, hn, ih]
      · simp [List.filterMap_cons, hp, hasBareName, hn, ih]

theorem infix_stringsJoin (l : List String) (sep m : String) (h : m ∈ l) :
    m.data <:+: (stringsJoin l sep).data := by
  induction l with
  | nil => cases h
  | cons a rest ih =>
    cases rest with
    | nil =>
      simp only [List.mem_singleton] at h
      subst h
      exact List.infix_refl _
    | cons b rest' =>
      simp only [stringsJoin, String.data_append]
      rcases List.mem_cons.mp h with rfl | h'
      · exact ⟨[], sep.data ++ (stringsJoin (b :: rest') sep).data, by simp⟩
      · obtain ⟨s, t, hst⟩ := ih h'
        exact ⟨a.data ++ sep.data ++ s, t, by simp [← hst]⟩

/-- C4: for a token without `@` and any inventory: parsePluginSpec succeeds
iff exactly one installed ID has bare name equal to the token, and then it
returns the token with the alias of that ID (which is `token@alias`); with no
such ID it fails with `not found in any marketplace`; with two or more it fails
with a message that starts with `ambiguous` and contains the alias of every
matching ID. -/
theorem parsePluginSpec_bare (token : String) (installed : InstalledPlugins)
    (h : '@' ∉ token.data) :
    ((∃ r, parsePluginSpec token (some installed) = .ok r) ↔
      (matchingIDs token installed).length = 1) ∧
    (∀ id, matchingIDs token installed = [id] →
      parsePluginSpec token (some installed) = .ok (token, aliasOf id) ∧
      id = token ++ "@" ++ aliasOf id) ∧
    ((matchingIDs token installed).length = 0 →
      parsePluginSpec token (some installed) = .err "not found in any marketplace") ∧
    (2 ≤ (matchingIDs token installed).length →
      ∃ msg, parsePluginSpec token (some installed) = .err msg ∧
        "ambiguous".data <+: msg.data ∧
        ∀ id ∈ matchingIDs token installed, (aliasOf id).data <:+: msg.data) := by
  have hc : stringsContains token '@' = false := by
    cases hb : stringsContains token '@' with
    | false => rfl
    | true => exact absurd ((stringsContains_iff token '@').mp hb) h
  have hrun : parsePluginSpec token (some installed) =
      if ((matchingIDs token installed).map aliasOf).length = 0 then
        .err "not found in any marketplace"
      else if ((matchingIDs token installed).map aliasOf).length > 1 then
        .err ("ambiguous - exists in multiple marketplaces: " ++
          stringsJoin ((matchingIDs token installed).map aliasOf) ", " ++
          "\nPlease specify: " ++ token ++ "@<marketplace>")
      else
        match (matchingIDs token installed).map aliasOf with
        | m :: _ => .ok (token, m)
        | [] => .panic := by
    simp only [parsePluginSpec, hc, Bool.false_eq_true, if_false, parsePluginSpec_matches_eq]
  rw [hrun]
  cases hm : matchingIDs token installed with
  | nil => simp
  | cons id rest =>
    cases rest with
    | nil =>
      refine ⟨by simp, ?_, by simp, by simp⟩
      intro id' hid'
      obtain rfl := (List.cons.inj hid').1
      refine ⟨by simp, ?_⟩
      have hmem : id ∈ matchingIDs token installed := by simp [hm]
      exact eq_of_hasBareName token id (List.mem_filter.mp hmem).2
    | cons id2 rest' =>
      refine ⟨by simp, by simp, by simp, ?_⟩
      intro _
      refine ⟨_, by simp; rfl, ?_, ?_⟩
      · exact ⟨" - exists in multiple marketplaces: ".data ++
          (stringsJoin ((id :: id2 :: rest').map aliasOf) ", ").data ++
          "\nPlease specify: ".data ++ token.data ++ "@<marketplace>".data,
          by simp [String.data_append]⟩
      · intro x hx
        obtain ⟨s, t, hst⟩ := infix_stringsJoin ((id :: id2 :: rest').map aliasOf) ", "
          (aliasOf x) (List.mem_map.mpr ⟨x, hx, rfl⟩)
        simp only [List.map_cons] at hst
        exact ⟨"ambiguous - exists in multiple marketplaces: ".data ++ s,
          t ++ ("\nPlease specify: ".data ++ (token.data ++ "@<marketplace>".data)),
          by simp only [String.data_append, ← hst, List.append_assoc]⟩

/-- C4 on the sample inventory: `trivy` is ambiguous between `mp1` and `mp2`,
`snyk` resolves to `mp1`. -/
theorem parsePluginSpec_bare_witness :
    '@' ∉ "trivy".data ∧
    matchingIDs "trivy" sampleInventory = ["trivy@mp1", "trivy@mp2"] ∧
    parsePluginSpec "trivy" (some sampleInventory) =
      .err ("ambiguous - exists in multiple marketplaces: mp1, mp2\n" ++
            "Please specify: trivy@<marketplace>") ∧
    (∃ msg, parsePluginSpec "trivy" (some sampleInventory) = .err msg ∧
        "ambiguous".data <+: msg.data ∧
        ∀ id ∈ matchingIDs "trivy" sampleInventory, (aliasOf id).data <:+: msg.data) ∧
    parsePluginSpec "snyk" (some sampleInventory) = .ok ("snyk", "mp1") ∧
    ((∃ r, parsePluginSpec "snyk" (some sampleInventory) = .ok r) ↔
      (matchingIDs "snyk" sampleInventory).length = 1) :=
  ⟨by decide, by decide, by decide,
   (parsePluginSpec_bare "trivy" sampleInventory (by decide)).2.2.2 (by decide),
   by decide,
   (parsePluginSpec_bare "snyk" sampleInventory (by decide)).1⟩

/-! ## C8: which commands turn per-item failures into their error -/

/-- The loop of runReinstall, when it does not panic: `failed` never decreases,
the processes started are appended to the earlier ones, and `failed` stays
unchanged exactly when no spec fails to resolve and no install fails. -/
theorem runReinstall_loop_failed {W : Type} (sys : Sys W) (dryRun : Bool)
    (installed : Option InstalledPlugins) (specs : List String) (t : Tally W)
    (hp : (runReinstall.loop sys dryRun installed specs t).panicked = false) :
    t.failed ≤ (runReinstall.loop sys dryRun installed specs t).failed ∧
    ∃ evs, (runReinstall.loop sys dryRun installed specs t).events = t.events ++ evs ∧
      ((runReinstall.loop sys dryRun installed specs t).failed = t.failed ↔
        (∀ spec ∈ specs, ∀ msg, parsePluginSpec spec installed ≠ .err msg) ∧
        (∀ e ∈ evs, ¬ (e.isPluginInstall = true ∧ e.hostError = true))) := by
  induction specs generalizing t with
  | nil => exact ⟨le_refl _, [], by simp [runReinstall.loop], by simp [runReinstall.loop]⟩
  | cons spec rest ih =>
    unfold runReinstall.loop at hp ⊢
    cases hparse : parsePluginSpec spec installed with
    | panic => simp [hparse] at hp
    | err m =>
      simp only [hparse] at hp ⊢
      obtain ⟨hle, evs, hev, _⟩ := ih _ hp
      simp only at hle hev
      refine ⟨by omega, evs, hev, ?_⟩
      constructor
      · intro heq
        omega
      · intro hno
        exact absurd hparse (hno.1 spec (List.mem_cons_self _ _) m)
    | ok r =>
      obtain ⟨pluginName, marketplace⟩ := r
      simp only [hparse] at hp ⊢
      cases dryRun with
      | true =>
        simp only [if_true] at hp ⊢
        obtain ⟨hle, evs, hev, hiff⟩ := ih _ hp
        refine ⟨hle, evs, hev, ?_⟩
        rw [hiff]
        constructor
        · rintro ⟨h1, h2⟩
          refine ⟨?_, h2⟩
          intro s hs msg
          rcases List.mem_cons.mp hs with rfl | hs'
          · rw [hparse]
            exact fun hcontra => by cases hcontra
          · exact h1 s hs' msg
        · rintro ⟨h1, h2⟩
          exact ⟨fun s hs => h1 s (List.mem_cons_of_mem _ hs), h2⟩
      | false =>
        simp only [Bool.false_eq_true, if_false] at hp ⊢
        cases hval : (PluginReinstall sys t.world (pluginName ++ "@" ++ marketplace)).val with
        | some e =>
          simp only [hval] at hp ⊢
          obtain ⟨hle, evs, hev, _⟩ := ih _ hp
          simp only at hle hev
          refine ⟨by omega,
            (PluginReinstall sys t.world (pluginName ++ "@" ++ marketplace)).events ++ evs,
            by rw [hev, List.append_assoc], ?_⟩
          constructor
          · intro heq
            omega
          · intro hno
            exfalso
            refine hno.2 (Event.claude ["plugin", "install", pluginName ++ "@" ++ marketplace]
              (some e)) ?_ ⟨rfl, rfl⟩
            have : (PluginReinstall sys t.world (pluginName ++ "@" ++ marketplace)).val =
                (sys.claude (sys.claude t.world
                  ["plugin", "uninstall", pluginName ++ "@" ++ marketplace]).1
                  ["plugin", "install", pluginName ++ "@" ++ marketplace]).2 := rfl
            rw [hval] at this
            simp [PluginReinstall, PluginUninstall, claudePluginInstall, RunSilent, ← this]
        | none =>
          simp only [hval] at hp ⊢
          obtain ⟨hle, evs, hev, hiff⟩ := ih _ hp
          simp only at hle hev hiff
          refine ⟨hle,
            (PluginReinstall sys t.world (pluginName ++ "@" ++ marketplace)).events ++ evs,
            by rw [hev, List.append_assoc], ?_⟩
          rw [hiff]
          have hinst : (sys.claude (sys.claude t.world
                  ["plugin", "uninstall", pluginName ++ "@" ++ marketplace]).1
                  ["plugin", "install", pluginName ++ "@" ++ marketplace]).2 = none := hval
          constructor
          · rintro ⟨h1, h2⟩
            constructor
            · intro s hs msg
              rcases List.mem_cons.mp hs with rfl | hs'
              · rw [hparse]
                exact fun hcontra => by cases hcontra
              · exact h1 s hs' msg
            · intro e he
              rcases List.mem_append.mp he with he' | he'
              · simp only [PluginReinstall, PluginUninstall, claudePluginInstall, RunSilent,
                  List.singleton_append, List.mem_cons, List.mem_singleton, List.not_mem_nil,
                  or_false, hinst] at he'
                rcases he' with rfl | rfl
                · simp [Event.isPluginInstall]
                · simp [Event.hostError]
              · exact h2 e he'
          · rintro ⟨h1, h2⟩
            exact ⟨fun s hs => h1 s (List.mem_cons_of_mem _ hs),
              fun e he => h2 e (List.mem_append_right _ he)⟩

/-- The loop of runUninstall, when it does not panic: `failed` never decreases,
the processes started are appended to the earlier ones, and `failed` stays
unchanged exactly when no spec fails to resolve and no uninstall fails. -/
theorem runUninstall_loop_failed {W : Type} (sys : Sys W)
    (installed : Option InstalledPlugins) (specs : List String) (t : Tally W)
    (hp : (runUninstall.loop sys installed specs t).panicked = false) :
    t.failed ≤ (runUninstall.loop sys installed specs t).failed ∧
    ∃ evs, (runUninstall.loop sys installed specs t).events = t.events ++ evs ∧
      ((runUninstall.loop sys installed specs t).failed = t.failed ↔
        (∀ spec ∈ specs, ∀ msg, parsePluginSpec spec installed ≠ .err msg) ∧
        (∀ e ∈ evs, ¬ (e.isPluginUninstall = true ∧ e.hostError = true))) := by
  induction specs generalizing t with
  | nil => exact ⟨le_refl _, [], by simp [runUninstall.loop], by simp [runUninstall.loop]⟩
  | cons spec rest ih =>
    unfold runUninstall.loop at hp ⊢
    cases hparse : parsePluginSpec spec installed with
    | panic => simp [hparse] at hp
    | err m =>
      simp only [hparse] at hp ⊢
      obtain ⟨hle, evs, hev, _⟩ := ih _ hp
      simp only at hle hev
      refine ⟨by omega, evs, hev, ?_⟩
      constructor
      · intro heq
        omega
      · intro hno
        exact absurd hparse (hno.1 spec (List.mem_cons_self _ _) m)
    | ok r =>
      obtain ⟨pluginName, marketplace⟩ := r
      simp only [hparse] at hp ⊢
      cases hval : (PluginUninstall sys t.world (pluginName ++ "@" ++ marketplace)).val with
      | some e =>
        simp only [hval] at hp ⊢
        obtain ⟨hle, evs, hev, _⟩ := ih _ hp
        simp only at hle hev
        refine ⟨by omega,
          (PluginUninstall sys t.world (pluginName ++ "@" ++ marketplace)).events ++ evs,
          by rw [hev, List.append_assoc], ?_⟩
        constructor
        · intro heq
          omega
        · intro hno
          exfalso
          refine hno.2 (Event.claude ["plugin", "uninstall", pluginName ++ "@" ++ marketplace]
            (some e)) ?_ ⟨rfl, rfl⟩
          have : (PluginUninstall sys t.world (pluginName ++ "@" ++ marketplace)).val =
              (sys.claude t.world
                ["plugin", "uninstall", pluginName ++ "@" ++ marketplace]).2 := rfl
          rw [hval] at this
          simp [PluginUninstall, RunSilent, ← this]
      | none =>
        simp only [hval] at hp ⊢
        obtain ⟨hle, evs, hev, hiff⟩ := ih _ hp
        simp only at hle hev hiff
        refine ⟨hle,
          (PluginUninstall sys t.world (pluginName ++ "@" ++ marketplace)).events ++ evs,
          by rw [hev, List.append_assoc], ?_⟩
        rw [hiff]
        have hun : (sys.claude t.world
            ["plugin", "uninstall", pluginName ++ "@" ++ marketplace]).2 = none := hval
        constructor
        · rintro ⟨h1, h2⟩
          constructor
          · intro s hs msg
            rcases List.mem_cons.mp hs with rfl | hs'
            · rw [hparse]
              exact fun hcontra => by cases hcontra
            · exact h1 s hs' msg
          · intro e he
            rcases List.mem_append.mp he with he' | he'
            · simp only [PluginUninstall, RunSilent, List.mem_singleton, hun] at he'
              subst he'
              simp [Event.hostError]
            · exact h2 e he'
        · rintro ⟨h1, h2⟩
          exact ⟨fun s hs => h1 s (List.mem_cons_of_mem _ hs),
            fun e he => h2 e (List.mem_append_right _ he)⟩

/-- Past the early returns, what runReinstall returns is decided by the loop:
panic if it panicked, success if `failed` is zero, an error otherwise. -/
theorem runReinstall_val {W : Type} (sys : Sys W) (g : Globals)
    (reinstallAll : String) (args : List String) (w : W) (specs : List String)
    (hs : runReinstall.specs sys reinstallAll args w = .ok specs) :
    (runReinstall sys g reinstallAll args w).val =
      if (runReinstall.loop sys g.dryRun (loadInstalledOrNil sys w) specs
          { world := w, events := [], failed := 0, panicked := false }).panicked then .panic
      else if (runReinstall.loop sys g.dryRun (loadInstalledOrNil sys w) specs
          { world := w, events := [], failed := 0, panicked := false }).failed = 0 then .ok ()
      else .err ("failed to reinstall " ++ toString (runReinstall.loop sys g.dryRun
          (loadInstalledOrNil sys w) specs
          { world := w, events := [], failed := 0, panicked := false }).failed ++
          " plugin(s)") := by
  unfold runReinstall
  rw [hs]
  dsimp only
  split_ifs <;> rfl

theorem runUninstall_val_events {W : Type} (sys : Sys W) (g : Globals)
    (args : List String) (w : W) :
    (runUninstall sys g args w).val =
      (if (runUninstall.loop sys (loadInstalledOrNil sys w) args
          { world := w, events := [], failed := 0, panicked := false }).panicked then .panic
      else if (runUninstall.loop sys (loadInstalledOrNil sys w) args
          { world := w, events := [], failed := 0, panicked := false }).failed = 0 then .ok ()
      else .err ("failed to uninstall " ++ toString (runUninstall.loop sys
          (loadInstalledOrNil sys w) args
          { world := w, events := [], failed := 0, panicked := false }).failed ++
          " plugin(s)")) ∧
    (runUninstall sys g args w).events =
      (runUninstall.loop sys (loadInstalledOrNil sys w) args
          { world := w, events := [], failed := 0, panicked := false }).events := by
  unfold runUninstall
  dsimp only
  split_ifs <;> exact ⟨rfl, rfl⟩

/-- C8 (as stated, refuted): `ccpm uninstall ghost@mp` on the sample system,
where the host CLI fails to uninstall `ghost@mp`, returns an error. -/
theorem runUninstall_failure_counterexample :
    (runUninstall sampleSys (sampleGlobals false) ["ghost@mp"] []).events =
      [Event.claude ["plugin", "uninstall", "ghost@mp"] (some "exit status 1")] ∧
    (runUninstall sampleSys (sampleGlobals false) ["ghost@mp"] []).val =
      .err "failed to uninstall 1 plugin(s)" := by
  decide

/-- The returned error of the four commands, for the runs of reinstall and
uninstall that do not end in a panic. -/
theorem failures_and_error_of_no_panic {W : Type} (sys : Sys W) (g : Globals)
    (reinstallAll : String) (repoArgs specArgs : List String) (w : W) :
    (∀ aliases, getTargetAliases g.cfg repoArgs = .ok aliases →
      (runUpdate sys g repoArgs w).val = .ok ()) ∧
    (∀ aliases, getTargetAliases g.cfg repoArgs = .ok aliases →
      (runUpgrade sys g repoArgs w).val = .ok ()) ∧
    (∀ specs, runReinstall.specs sys reinstallAll specArgs w = .ok specs →
      (runReinstall sys g reinstallAll specArgs w).val ≠ .panic →
      ((∃ msg, (runReinstall sys g reinstallAll specArgs w).val = .err msg) ↔
        (∃ spec ∈ specs, ∃ m, parsePluginSpec spec (loadInstalledOrNil sys w) = .err m) ∨
        (∃ e ∈ (runReinstall sys g reinstallAll specArgs w).events,
          e.isPluginInstall = true ∧ e.hostError = true))) ∧
    ((runUninstall sys g specArgs w).val ≠ .panic →
      ((∃ msg, (runUninstall sys g specArgs w).val = .err msg) ↔
        (∃ spec ∈ specArgs, ∃ m, parsePluginSpec spec (loadInstalledOrNil sys w) = .err m) ∨
        (∃ e ∈ (runUninstall sys g specArgs w).events,
          e.isPluginUninstall = true ∧ e.hostError = true))) := by
  refine ⟨?_, ?_, ?_, ?_⟩
  · intro aliases h
    simp [runUpdate, h]
  · intro aliases h
    simp [runUpgrade, h]
  · intro specs hs hnp
    have hval := runReinstall_val sys g reinstallAll specArgs w specs hs
    have hev := (runReinstall_events_world sys g reinstallAll specArgs w specs hs).1
    rw [hval] at hnp ⊢
    rw [hev]
    generalize hL : runReinstall.loop sys g.dryRun (loadInstalledOrNil sys w) specs
      { world := w, events := [], failed := 0, panicked := false } = L at hnp ⊢
    have hp : L.panicked = false := by
      cases hb : L.panicked with
      | false => rfl
      | true => simp [hb] at hnp
    have hloop := runReinstall_loop_failed sys g.dryRun (loadInstalledOrNil sys w) specs
      { world := w, events := [], failed := 0, panicked := false } (by rw [hL]; exact hp)
    rw [hL] at hloop
    obtain ⟨_, evs, hevs, hiff⟩ := hloop
    simp only [List.nil_append] at hevs hiff
    rw [hevs]
    simp only [hp, Bool.false_eq_true, if_false]
    by_cases hz : L.failed = 0
    · simp only [hz, if_true]
      have := hiff.mp hz
      constructor
      · rintro ⟨msg, hmsg⟩
        cases hmsg
      · rintro (⟨spec, hspec, m, hm⟩ | ⟨e, he, h1, h2⟩)
        · exact absurd hm (this.1 spec hspec m)
        · exact absurd ⟨h1, h2⟩ (this.2 e he)
    · simp only [hz, if_false]
      refine ⟨fun _ => ?_, fun _ => ⟨_, rfl⟩⟩
      by_contra hcon
      push_neg at hcon
      exact hz (hiff.mpr ⟨fun spec hspec m => hcon.1 spec hspec m,
        fun e he hboth => hcon.2 e he hboth.1 hboth.2⟩)
  · intro hnp
    have hval := (runUninstall_val_events sys g specArgs w).1
    have hev := (runUninstall_val_events sys g specArgs w).2
    rw [hval] at hnp ⊢
    rw [hev]
    generalize hL : runUninstall.loop sys (loadInstalledOrNil sys w) specArgs
      { world := w, events := [], failed := 0, panicked := false } = L at hnp ⊢
    have hp : L.panicked = false := by
      cases hb : L.panicked with
      | false => rfl
      | true => simp [hb] at hnp
    have hloop := runUninstall_loop_failed sys (loadInstalledOrNil sys w) specArgs
      { world := w, events := [], failed := 0, panicked := false } (by rw [hL]; exact hp)
    rw [hL] at hloop
    obtain ⟨_, evs, hevs, hiff⟩ := hloop
    simp only [List.nil_append] at hevs hiff
    rw [hevs]
    simp only [hp, Bool.false_eq_true, if_false]
    by_cases hz : L.failed = 0
    · simp only [hz, if_true]
      have := hiff.mp hz
      constructor
      · rintro ⟨msg, hmsg⟩
        cases hmsg
      · rintro (⟨spec, hspec, m, hm⟩ | ⟨e, he, h1, h2⟩)
        · exact absurd hm (this.1 spec hspec m)
        · exact absurd ⟨h1, h2⟩ (this.2 e he)
    · simp only [hz, if_false]
      refine ⟨fun _ => ?_, fun _ => ⟨_, rfl⟩⟩
      by_contra hcon
      push_neg at hcon
      exact hz (hiff.mpr ⟨fun spec hspec m => hcon.1 spec hspec m,
        fun e he hboth => hcon.2 e he hboth.1 hboth.2⟩)

/-- The bare-name branch of parsePluginSpec is the only one that can panic, and
only on a nil inventory: with an inventory, or on a spec that contains `@`,
parsePluginSpec returns. -/
theorem parsePluginSpec_no_panic (spec : String) (installed : Option InstalledPlugins)
    (h : installed ≠ none ∨ '@' ∈ spec.data) : parsePluginSpec spec installed ≠ .panic := by
  by_cases hat : '@' ∈ spec.data
  · obtain ⟨a, b, hsplit, _, _⟩ := stringsSplitN2_of_mem spec '@' hat
    unfold parsePluginSpec
    rw [(stringsContains_iff spec '@').mpr hat]
    simp [hsplit]
  · have hc : stringsContains spec '@' = false := by
      cases hb : stringsContains spec '@' with
      | false => rfl
      | true => exact absurd ((stringsContains_iff spec '@').mp hb) hat
    cases installed with
    | none =>
      rcases h with h | h
      · exact absurd rfl h
      · exact absurd h hat
    | some inst =>
      unfold parsePluginSpec
      rw [hc]
      simp only [Bool.false_eq_true, if_false]
      cases hm : parsePluginSpec.matches spec inst with
      | nil => simp
      | cons m rest =>
        cases rest with
        | nil => simp
        | cons m2 rest2 => simp

theorem runReinstall_loop_no_panic {W : Type} (sys : Sys W) (dryRun : Bool)
    (installed : Option InstalledPlugins) (specs : List String) (t : Tally W)
    (h : installed ≠ none ∨ ∀ spec ∈ specs, '@' ∈ spec.data) :
    (runReinstall.loop sys dryRun installed specs t).panicked = t.panicked := by
  induction specs generalizing t with
  | nil => rfl
  | cons spec rest ih =>
    have hrest : installed ≠ none ∨ ∀ s ∈ rest, '@' ∈ s.data :=
      h.imp id (fun hall s hs => hall s (List.mem_cons_of_mem _ hs))
    have hnp := parsePluginSpec_no_panic spec installed
      (h.imp id (fun hall => hall spec (List.mem_cons_self _ _)))
    rw [runReinstall.loop]
    cases hparse : parsePluginSpec spec installed with
    | panic => exact absurd hparse hnp
    | err m =>
      simp only
      rw [ih _ hrest]
    | ok p =>
      obtain ⟨pluginName, marketplace⟩ := p
      simp only
      split
      · rw [ih _ hrest]
      · split <;> rw [ih _ hrest]

theorem runUninstall_loop_no_panic {W : Type} (sys : Sys W)
    (installed : Option InstalledPlugins) (specs : List String) (t : Tally W)
    (h : installed ≠ none ∨ ∀ spec ∈ specs, '@' ∈ spec.data) :
    (runUninstall.loop sys installed specs t).panicked = t.panicked := by
  induction specs generalizing t with
  | nil => rfl
  | cons spec rest ih =>
    have hrest : installed ≠ none ∨ ∀ s ∈ rest, '@' ∈ s.data :=
      h.imp id (fun hall s hs => hall s (List.mem_cons_of_mem _ hs))
    have hnp := parsePluginSpec_no_panic spec installed
      (h.imp id (fun hall => hall spec (List.mem_cons_self _ _)))
    rw [runUninstall.loop]
    cases hparse : parsePluginSpec spec installed with
    | panic => exact absurd hparse hnp
    | err m =>
      simp only
      rw [ih _ hrest]
    | ok p =>
      obtain ⟨pluginName, marketplace⟩ := p
      simp only
      split <;> rw [ih _ hrest]

/-- With an inventory file that does not parse, `ccpm uninstall ghost@mp trivy`
fails to uninstall `ghost@mp` and then ends in a panic on the bare name
`trivy`: no error is returned. -/
theorem runUninstall_nil_inventory_panics :
    loadInstalledOrNil
      { sampleSys with unmarshalInstalled := fun _ => .error "unexpected end of JSON input" }
      [] = none ∧
    (runUninstall
      { sampleSys with unmarshalInstalled := fun _ => .error "unexpected end of JSON input" }
      (sampleGlobals false) ["ghost@mp", "trivy"] []).events =
      [Event.claude ["plugin", "uninstall", "ghost@mp"] (some "exit status 1")] ∧
    (runUninstall
      { sampleSys with unmarshalInstalled := fun _ => .error "unexpected end of JSON input" }
      (sampleGlobals false) ["ghost@mp", "trivy"] []).val = .panic := by
  decide

/-- C8 (amended): a non-zero count of per-item failures becomes the returned
error for reinstall and for uninstall.  When the inventory loads or every
plugin spec contains `@`, the run returns (it does not panic), and reinstall,
once its plugin specs are determined, returns an error iff some spec failed to
resolve or some install failed; uninstall returns an error iff some spec failed
to resolve or some uninstall failed.  Update and upgrade return success
whenever the target aliases resolve, whatever the host CLI returned for the
single marketplaces and plugins. -/
theorem per_item_failures_and_returned_error {W : Type} (sys : Sys W) (g : Globals)
    (reinstallAll : String) (repoArgs specArgs : List String) (w : W) :
    (∀ aliases, getTargetAliases g.cfg repoArgs = .ok aliases →
      (runUpdate sys g repoArgs w).val = .ok ()) ∧
    (∀ aliases, getTargetAliases g.cfg repoArgs = .ok aliases →
      (runUpgrade sys g repoArgs w).val = .ok ()) ∧
    (∀ specs, runReinstall.specs sys reinstallAll specArgs w = .ok specs →
      (loadInstalledOrNil sys w ≠ none ∨ ∀ spec ∈ specs, '@' ∈ spec.data) →
      (runReinstall sys g reinstallAll specArgs w).val ≠ .panic ∧
      ((∃ msg, (runReinstall sys g reinstallAll specArgs w).val = .err msg) ↔
        (∃ spec ∈ specs, ∃ m, parsePluginSpec spec (loadInstalledOrNil sys w) = .err m) ∨
        (∃ e ∈ (runReinstall sys g reinstallAll specArgs w).events,
          e.isPluginInstall = true ∧ e.hostError = true))) ∧
    ((loadInstalledOrNil sys w ≠ none ∨ ∀ spec ∈ specArgs, '@' ∈ spec.data) →
      (runUninstall sys g specArgs w).val ≠ .panic ∧
      ((∃ msg, (runUninstall sys g specArgs w).val = .err msg) ↔
        (∃ spec ∈ specArgs, ∃ m, parsePluginSpec spec (loadInstalledOrNil sys w) = .err m) ∨
        (∃ e ∈ (runUninstall sys g specArgs w).events,
          e.isPluginUninstall = true ∧ e.hostError = true))) := by
  obtain ⟨h1, h2, h3, h4⟩ :=
    failures_and_error_of_no_panic sys g reinstallAll repoArgs specArgs w
  refine ⟨h1, h2, ?_, ?_⟩
  · intro specs hs hpre
    have hnp : (runReinstall sys g reinstallAll specArgs w).val ≠ .panic := by
      rw [runReinstall_val sys g reinstallAll specArgs w specs hs,
        runReinstall_loop_no_panic sys g.dryRun _ specs _ hpre]
      simp only [Bool.false_eq_true, if_false]
      split <;> simp
    exact ⟨hnp, h3 specs hs hnp⟩
  · intro hpre
    have hnp : (runUninstall sys g specArgs w).val ≠ .panic := by
      rw [(runUninstall_val_events sys g specArgs w).1,
        runUninstall_loop_no_panic sys _ specArgs _ hpre]
      simp only [Bool.false_eq_true, if_false]
      split <;> simp
    exact ⟨hnp, h4 hnp⟩

/-- C8 (amended) on the sample system, where the install of `plugin-a@mp`
fails: upgrade and update return success, reinstall returns an error. -/
theorem per_item_failures_and_returned_error_witness :
    getTargetAliases (sampleGlobals false).cfg [] = .ok ["mp"] ∧
    (runUpgrade sampleSys (sampleGlobals false) [] []).val = .ok () ∧
    Event.claude ["plugin", "install", "plugin-a@mp"] (some "exit status 1") ∈
      (runUpgrade sampleSys (sampleGlobals false) [] []).events ∧
    (runUpdate sampleSys (sampleGlobals false) [] []).val = .ok () ∧
    runReinstall.specs sampleSys "" ["plugin-a@mp"] [] = .ok ["plugin-a@mp"] ∧
    loadInstalledOrNil sampleSys [] ≠ none ∧
    (runReinstall sampleSys (sampleGlobals false) "" ["plugin-a@mp"] []).val =
      .err "failed to reinstall 1 plugin(s)" ∧
    ((∃ msg, (runReinstall sampleSys (sampleGlobals false) "" ["plugin-a@mp"] []).val =
        .err msg) ↔
      (∃ spec ∈ ["plugin-a@mp"], ∃ m,
        parsePluginSpec spec (loadInstalledOrNil sampleSys []) = .err m) ∨
      (∃ e ∈ (runReinstall sampleSys (sampleGlobals false) "" ["plugin-a@mp"] []).events,
        e.isPluginInstall = true ∧ e.hostError = true)) ∧
    ((∃ msg, (runUninstall sampleSys (sampleGlobals false) ["plugin-a@mp"] []).val =
        .err msg) ↔
      (∃ spec ∈ ["plugin-a@mp"], ∃ m,
        parsePluginSpec spec (loadInstalledOrNil sampleSys []) = .err m) ∨
      (∃ e ∈ (runUninstall sampleSys (sampleGlobals false) ["plugin-a@mp"] []).events,
        e.isPluginUninstall = true ∧ e.hostError = true)) :=
  ⟨rfl,
   (per_item_failures_and_returned_error sampleSys (sampleGlobals false) "" []
      ["plugin-a@mp"] []).2.1 ["mp"] rfl,
   by decide,
   (per_item_failures_and_returned_error sampleSys (sampleGlobals false) "" []
      ["plugin-a@mp"] []).1 ["mp"] rfl,
   rfl, by decide, by decide,
   ((per_item_failures_and_returned_error sampleSys (sampleGlobals false) "" []
      ["plugin-a@mp"] []).2.2.1 ["plugin-a@mp"] rfl (Or.inl (by decide))).2,
   ((per_item_failures_and_returned_error sampleSys (sampleGlobals false) "" []
      ["plugin-a@mp"] []).2.2.2 (Or.inl (by decide))).2⟩

/-! ## C12, C13, C14: ParsePluginID -/

theorem cutAt_append_cons (c : Char) (a b : List Char) (h : c ∉ a) :
    cutAt c (a ++ c :: b) = some (a, b) := by
  induction a with
  | nil => simp [cutAt]
  | cons x xs ih =>
    have hx : x ≠ c := fun e => h (by simp [e])
    have hxs : c ∉ xs := fun e => h (by simp [e])
    simp [cutAt, hx, ih hxs]

/-- ParsePluginID on `name@rest`, for a name without `@`. -/
theorem ParsePluginID_append (name rest : String) (h : '@' ∉ name.data) :
    ParsePluginID (name ++ "@" ++ rest) =
      .ok { Name := name, Marketplace := rest, Full := name ++ "@" ++ rest } := by
  have hcut : cutAt '@' (name ++ "@" ++ rest).data = some (name.data, rest.data) := by
    have := cutAt_append_cons '@' name.data rest.data h
    simpa [String.data_append] using this
  simp only [ParsePluginID, stringsSplitN2, hcut]

/-- What ParsePluginID returns on a string that contains `@`. -/
theorem ParsePluginID_ok_of_mem (s : String) (h : '@' ∈ s.data) :
    ∃ p, ParsePluginID s = .ok p ∧
      p.Name.data = s.data.takeWhile (fun ch => ch ≠ '@') ∧
      '@' ∉ p.Name.data ∧
      p.Name ++ "@" ++ p.Marketplace = s ∧
      p.Full = s ∧
      s.data.count '@' = 1 + p.Marketplace.data.count '@' := by
  obtain ⟨a, b, hparse, hdata, hnot⟩ := ParsePluginID_of_mem s h
  refine ⟨_, hparse, ?_, hnot, ?_, rfl, ?_⟩
  · obtain ⟨rest, hrest⟩ := stringsSplitN2_head s '@'
    obtain ⟨a', b', hsplit, _, _⟩ := stringsSplitN2_of_mem s '@' h
    have hp : ParsePluginID s =
        .ok { Name := String.mk a', Marketplace := String.mk b', Full := s } := by
      simp [ParsePluginID, hsplit]
    rw [hp] at hparse
    have ha : a' = a := by
      have := Except.ok.inj hparse
      simpa using congrArg (fun p => p.Name.data) this
    rw [hsplit] at hrest
    have h1 := (List.cons.inj hrest).1
    rw [← ha]
    exact congrArg String.data h1
  · apply String.ext
    simp [String.data_append, hdata]
  · rw [hdata]
    have : List.count '@' a = 0 := List.count_eq_zero.mpr hnot
    simp [List.count_append, List.count_cons, this]
    omega

/-- C12: for every string s that contains `@`, ParsePluginID succeeds with Name
the part of s before the first `@`, Marketplace everything after it
(`Name@Marketplace` is s) and Full equal to s; and for every name without `@`
and every alias, parsing `name@alias` gives back that name and that alias. -/
theorem ParsePluginID_splits_at_first (s name aliasName : String)
    (h : '@' ∈ s.data) (hname : '@' ∉ name.data) :
    (∃ p, ParsePluginID s = .ok p ∧
      p.Name.data = s.data.takeWhile (fun ch => ch ≠ '@') ∧
      '@' ∉ p.Name.data ∧
      p.Name ++ "@" ++ p.Marketplace = s ∧
      p.Full = s) ∧
    ParsePluginID (name ++ "@" ++ aliasName) =
      .ok { Name := name, Marketplace := aliasName, Full := name ++ "@" ++ aliasName } := by
  obtain ⟨p, h1, h2, h3, h4, h5, _⟩ := ParsePluginID_ok_of_mem s h
  exact ⟨⟨p, h1, h2, h3, h4, h5⟩, ParsePluginID_append name aliasName hname⟩

/-- C12 on the ID of the test suite and on an ID with a second `@`. -/
theorem ParsePluginID_splits_at_first_witness :
    '@' ∈ "a@b@c".data ∧ '@' ∉ "trivy".data ∧
    ParsePluginID "a@b@c" = .ok { Name := "a", Marketplace := "b@c", Full := "a@b@c" } ∧
    ((∃ p, ParsePluginID "a@b@c" = .ok p ∧
      p.Name.data = "a@b@c".data.takeWhile (fun ch => ch ≠ '@') ∧
      '@' ∉ p.Name.data ∧
      p.Name ++ "@" ++ p.Marketplace = "a@b@c" ∧
      p.Full = "a@b@c") ∧
    ParsePluginID ("trivy" ++ "@" ++ "plinde-plugins") =
      .ok { Name := "trivy", Marketplace := "plinde-plugins",
            Full := "trivy" ++ "@" ++ "plinde-plugins" }) :=
  ⟨by decide, by decide, rfl,
   ParsePluginID_splits_at_first "a@b@c" "trivy" "plinde-plugins" (by decide) (by decide)⟩

/-- C13: for every string s, ParsePluginID fails iff s contains zero `@`
characters, and succeeds iff s contains at least one; so it fails on the empty
string and on `no-at-sign`. -/
theorem ParsePluginID_fails_iff_no_at (s : String) :
    ((∃ e, ParsePluginID s = .error e) ↔ s.data.count '@' = 0) ∧
    ((∃ p, ParsePluginID s = .ok p) ↔ 1 ≤ s.data.count '@') ∧
    (∃ e, ParsePluginID "" = .error e) ∧
    (∃ e, ParsePluginID "no-at-sign" = .error e) := by
  have key : ∀ t : String, (∃ e, ParsePluginID t = .error e) ↔ '@' ∉ t.data := by
    intro t
    constructor
    · rintro ⟨e, he⟩ hmem
      obtain ⟨a, b, hparse, _, _⟩ := ParsePluginID_of_mem t hmem
      rw [hparse] at he
      cases he
    · intro hnot
      exact ⟨_, ParsePluginID_of_not_mem t hnot⟩
  refine ⟨?_, ?_, (key "").mpr (by decide), (key "no-at-sign").mpr (by decide)⟩
  · rw [key, List.count_eq_zero]
  · rw [Nat.one_le_iff_ne_zero, Ne, List.count_eq_zero, not_not]
    constructor
    · rintro ⟨p, hp⟩
      by_contra hnot
      rw [ParsePluginID_of_not_mem s hnot] at hp
      cases hp
    · intro hmem
      obtain ⟨a, b, hparse, _, _⟩ := ParsePluginID_of_mem s hmem
      exact ⟨_, hparse⟩

/-- C14 (as stated, refuted): `a@b@c` contains two `@` and ParsePluginID
succeeds on it. -/
theorem ParsePluginID_two_ats_counterexample :
    "a@b@c".data.count '@' = 2 ∧
    ParsePluginID "a@b@c" = .ok { Name := "a", Marketplace := "b@c", Full := "a@b@c" } :=
  ⟨by decide, rfl⟩

/-- C14 (amended): parsing s as a plugin identifier fails when s has no `@`;
when s has two or more `@` it succeeds, split at the first `@`: the name has no
`@`, the marketplace part still contains one, and `Name@Marketplace` is s. -/
theorem ParsePluginID_by_number_of_ats (s : String) :
    (s.data.count '@' = 0 → ∃ e, ParsePluginID s = .error e) ∧
    (2 ≤ s.data.count '@' →
      ∃ p, ParsePluginID s = .ok p ∧ '@' ∉ p.Name.data ∧ '@' ∈ p.Marketplace.data ∧
        p.Name ++ "@" ++ p.Marketplace = s) := by
  constructor
  · intro h0
    exact ⟨_, ParsePluginID_of_not_mem s (List.count_eq_zero.mp h0)⟩
  · intro h2
    have hmem : '@' ∈ s.data := by
      by_contra hnot
      rw [List.count_eq_zero.mpr hnot] at h2
      omega
    obtain ⟨p, h1, _, h3, h4, _, hcount⟩ := ParsePluginID_ok_of_mem s hmem
    refine ⟨p, h1, h3, ?_, h4⟩
    have : 0 < p.Marketplace.data.count '@' := by omega
    exact List.count_pos_iff.mp this

/-- C14 (amended) on `no-at-sign` and on `a@b@c`. -/
theorem ParsePluginID_by_number_of_ats_witness :
    "no-at-sign".data.count '@' = 0 ∧ 2 ≤ "a@b@c".data.count '@' ∧
    (∃ e, ParsePluginID "no-at-sign" = .error e) ∧
    (∃ p, ParsePluginID "a@b@c" = .ok p ∧ '@' ∉ p.Name.data ∧ '@' ∈ p.Marketplace.data ∧
        p.Name ++ "@" ++ p.Marketplace = "a@b@c") :=
  ⟨by decide, by decide,
   (ParsePluginID_by_number_of_ats "no-at-sign").1 (by decide),
   (ParsePluginID_by_number_of_ats "a@b@c").2 (by decide)⟩

/-! ## C15, C16, C17: GetRepoFromRemote -/

/-- A suffix `s` of `A ++ c :: r` that does not contain `c` is a suffix of `r`. -/
theorem suffix_of_suffix_append_cons (s A r : List Char) (c : Char) (hc : c ∉ s)
    (h : s <:+ A ++ c :: r) : s <:+ r := by
  obtain ⟨t, ht⟩ := h
  rcases List.append_eq_append_iff.mp ht with ⟨a', _, hs⟩ | ⟨c', _, hcr⟩
  · exact absurd (by rw [hs]; simp) hc
  · cases c' with
    | nil =>
      simp only [List.nil_append] at hcr
      exact absurd (by rw [← hcr]; simp) hc
    | cons x c'' =>
      simp only [List.cons_append, List.cons.injEq] at hcr
      exact ⟨c'', hcr.2.symm⟩

theorem stringsTrimSuffix_of_not_suffix (s suf : String) (h : ¬ suf.data <:+ s.data) :
    stringsTrimSuffix s suf = s := by
  have : stringsHasSuffix s suf = false := by
    cases hb : stringsHasSuffix s suf with
    | false => rfl
    | true => exact absurd (List.isSuffixOf_iff_suffix.mp hb) h
  simp [stringsTrimSuffix, this]

theorem stringsTrimSuffix_append (s suf : String) : stringsTrimSuffix (s ++ suf) suf = s := by
  have : stringsHasSuffix (s ++ suf) suf = true := by
    unfold stringsHasSuffix
    rw [List.isSuffixOf_iff_suffix, String.data_append]
    exact List.suffix_append _ _
  simp only [stringsTrimSuffix, this, if_true]
  apply String.ext
  simp [String.data_append]

theorem stringsTrimPrefix_append (pre r : String) : stringsTrimPrefix (pre ++ r) pre = r := by
  have : stringsHasPrefix (pre ++ r) pre = true := by
    unfold stringsHasPrefix
    rw [List.isPrefixOf_iff_prefix, String.data_append]
    exact List.prefix_append _ _
  simp only [stringsTrimPrefix, this, if_true]
  apply String.ext
  simp [String.data_append]

theorem stringsHasPrefix_append (pre r : String) : stringsHasPrefix (pre ++ r) pre = true := by
  unfold stringsHasPrefix
  rw [List.isPrefixOf_iff_prefix, String.data_append]
  exact List.prefix_append _ _

/-- The SSH form of a repo that does not end in `.git` does not end in `.git`. -/
theorem not_suffix_ssh (r : String) (h : ¬ ".git".data <:+ r.data) :
    ¬ ".git".data <:+ ("git@github.com:" ++ r).data := by
  intro hs
  apply h
  have h1 : ("git@github.com:" ++ r).data = "git@github.com".data ++ ':' :: r.data := by
    simp [String.data_append]
  rw [h1] at hs
  exact suffix_of_suffix_append_cons _ _ _ ':' (by decide) hs

/-- The HTTPS form of a repo that does not end in `.git` does not end in `.git`. -/
theorem not_suffix_https (r : String) (h : ¬ ".git".data <:+ r.data) :
    ¬ ".git".data <:+ ("https://github.com/" ++ r).data := by
  intro hs
  apply h
  have h1 : ("https://github.com/" ++ r).data = "https://github.com".data ++ '/' :: r.data := by
    simp [String.data_append]
  rw [h1] at hs
  exact suffix_of_suffix_append_cons _ _ _ '/' (by decide) hs

/-- GetRepoFromRemote on a URL that starts with `git@github.com:` and does not
end in `.git`. -/
theorem GetRepoFromRemote_ssh (r : String) (h : ¬ ".git".data <:+ r.data) :
    GetRepoFromRemote ("git@github.com:" ++ r) = r := by
  unfold GetRepoFromRemote
  simp only [stringsTrimSuffix_of_not_suffix _ _ (not_suffix_ssh r h),
    stringsHasPrefix_append, if_true, stringsTrimPrefix_append]

/-- GetRepoFromRemote on a URL that starts with `https://github.com/` and does
not end in `.git`. -/
theorem GetRepoFromRemote_https (r : String) (h : ¬ ".git".data <:+ r.data) :
    GetRepoFromRemote ("https://github.com/" ++ r) = r := by
  unfold GetRepoFromRemote
  have hpre : stringsHasPrefix ("https://github.com/" ++ r) "git@github.com:" = false := by
    simp [stringsHasPrefix, String.data_append, List.isPrefixOf]
  have hcut : cutStr "github.com/".data ("https://github.com/" ++ r).data =
      some ("https://".data, r.data) := by
    simp [String.data_append, cutStr, List.isPrefixOf]
  simp only [stringsTrimSuffix_of_not_suffix _ _ (not_suffix_https r h), hpre,
    Bool.false_eq_true, if_false, stringsContainsStr, stringsSplitNStr2, hcut,
    Option.isSome_some, if_true]

/-- The four recognized forms of a repo `r` that does not end in `.git` all
give `r`. -/
theorem GetRepoFromRemote_four_forms (r : String) (h : ¬ ".git".data <:+ r.data) :
    GetRepoFromRemote ("git@github.com:" ++ r) = r ∧
    GetRepoFromRemote ("git@github.com:" ++ r ++ ".git") = r ∧
    GetRepoFromRemote ("https://github.com/" ++ r) = r ∧
    GetRepoFromRemote ("https://github.com/" ++ r ++ ".git") = r := by
  refine ⟨GetRepoFromRemote_ssh r h, ?_, GetRepoFromRemote_https r h, ?_⟩
  · have := GetRepoFromRemote_ssh r h
    unfold GetRepoFromRemote at this ⊢
    rw [stringsTrimSuffix_of_not_suffix _ _ (not_suffix_ssh r h)] at this
    rw [stringsTrimSuffix_append]
    exact this
  · have := GetRepoFromRemote_https r h
    unfold GetRepoFromRemote at this ⊢
    rw [stringsTrimSuffix_of_not_suffix _ _ (not_suffix_https r h)] at this
    rw [stringsTrimSuffix_append]
    exact this

/-- C15: for every org and name such that `org/name` does not end in `.git`,
GetRepoFromRemote maps `git@github.com:org/name`, `git@github.com:org/name.git`,
`https://github.com/org/name` and `https://github.com/org/name.git` to exactly
`org/name`. -/
theorem GetRepoFromRemote_recognized_forms (org name : String)
    (h : ¬ ".git".data <:+ (org ++ "/" ++ name).data) :
    GetRepoFromRemote ("git@github.com:" ++ (org ++ "/" ++ name)) = org ++ "/" ++ name ∧
    GetRepoFromRemote ("git@github.com:" ++ (org ++ "/" ++ name) ++ ".git") =
      org ++ "/" ++ name ∧
    GetRepoFromRemote ("https://github.com/" ++ (org ++ "/" ++ name)) = org ++ "/" ++ name ∧
    GetRepoFromRemote ("https://github.com/" ++ (org ++ "/" ++ name) ++ ".git") =
      org ++ "/" ++ name :=
  GetRepoFromRemote_four_forms (org ++ "/" ++ name) h

/-- C15 on `plinde/claude-plugins`, the repo of the test suite. -/
theorem GetRepoFromRemote_recognized_forms_witness :
    ¬ ".git".data <:+ ("plinde" ++ "/" ++ "claude-plugins").data ∧
    GetRepoFromRemote "git@github.com:plinde/claude-plugins.git" = "plinde/claude-plugins" ∧
    (GetRepoFromRemote ("git@github.com:" ++ ("plinde" ++ "/" ++ "claude-plugins")) =
      "plinde" ++ "/" ++ "claude-plugins" ∧
    GetRepoFromRemote ("git@github.com:" ++ ("plinde" ++ "/" ++ "claude-plugins") ++ ".git") =
      "plinde" ++ "/" ++ "claude-plugins" ∧
    GetRepoFromRemote ("https://github.com/" ++ ("plinde" ++ "/" ++ "claude-plugins")) =
      "plinde" ++ "/" ++ "claude-plugins" ∧
    GetRepoFromRemote ("https://github.com/" ++ ("plinde" ++ "/" ++ "claude-plugins") ++ ".git") =
      "plinde" ++ "/" ++ "claude-plugins") :=
  ⟨by decide, by decide,
   GetRepoFromRemote_recognized_forms "plinde" "claude-plugins" (by decide)⟩

/-- C16 (as stated, refuted): for the remote `git@github.com:org/repo.git.git`
the result is the non-empty `org/repo.git`, and re-embedding it in the SSH or
the HTTPS form gives `org/repo`, not `org/repo.git`. -/
theorem GetRepoFromRemote_reembed_counterexample :
    GetRepoFromRemote "git@github.com:org/repo.git.git" = "org/repo.git" ∧
    GetRepoFromRemote ("git@github.com:" ++ "org/repo.git") = "org/repo" ∧
    GetRepoFromRemote ("https://github.com/" ++ "org/repo.git") = "org/repo" ∧
    "org/repo" ≠ "org/repo.git" := by
  decide

/-- C16 (amended): for every remote URL u whose result r = GetRepoFromRemote(u)
does not end in `.git`, re-embedding r into each of the four recognized forms
gives r back. -/
theorem GetRepoFromRemote_reembed (u : String)
    (h : ¬ ".git".data <:+ (GetRepoFromRemote u).data) :
    GetRepoFromRemote ("git@github.com:" ++ GetRepoFromRemote u) = GetRepoFromRemote u ∧
    GetRepoFromRemote ("git@github.com:" ++ GetRepoFromRemote u ++ ".git") =
      GetRepoFromRemote u ∧
    GetRepoFromRemote ("https://github.com/" ++ GetRepoFromRemote u) = GetRepoFromRemote u ∧
    GetRepoFromRemote ("https://github.com/" ++ GetRepoFromRemote u ++ ".git") =
      GetRepoFromRemote u :=
  GetRepoFromRemote_four_forms (GetRepoFromRemote u) h

/-- C16 (amended) on the remote `https://github.com/elastic/cloud.git`. -/
theorem GetRepoFromRemote_reembed_witness :
    GetRepoFromRemote "https://github.com/elastic/cloud.git" = "elastic/cloud" ∧
    ¬ ".git".data <:+ (GetRepoFromRemote "https://github.com/elastic/cloud.git").data ∧
    (GetRepoFromRemote
        ("git@github.com:" ++ GetRepoFromRemote "https://github.com/elastic/cloud.git") =
      GetRepoFromRemote "https://github.com/elastic/cloud.git" ∧
    GetRepoFromRemote
        ("git@github.com:" ++ GetRepoFromRemote "https://github.com/elastic/cloud.git" ++
          ".git") =
      GetRepoFromRemote "https://github.com/elastic/cloud.git" ∧
    GetRepoFromRemote
        ("https://github.com/" ++ GetRepoFromRemote "https://github.com/elastic/cloud.git") =
      GetRepoFromRemote "https://github.com/elastic/cloud.git" ∧
    GetRepoFromRemote
        ("https://github.com/" ++ GetRepoFromRemote "https://github.com/elastic/cloud.git" ++
          ".git") =
      GetRepoFromRemote "https://github.com/elastic/cloud.git") :=
  ⟨by decide, by decide,
   GetRepoFromRemote_reembed "https://github.com/elastic/cloud.git" (by decide)⟩

theorem infix_of_cutStr_isSome (sep l : List Char) (h : (cutStr sep l).isSome = true) :
    sep <:+: l := by
  induction l with
  | nil =>
    unfold cutStr at h
    by_cases hp : sep.isPrefixOf [] = true
    · exact (List.isPrefixOf_iff_prefix.mp hp).isInfix
    · simp [hp] at h
  | cons x xs ih =>
    unfold cutStr at h
    by_cases hp : sep.isPrefixOf (x :: xs) = true
    · exact (List.isPrefixOf_iff_prefix.mp hp).isInfix
    · simp only [hp, if_false] at h
      cases hc : cutStr sep xs with
      | none => simp [hc] at h
      | some p =>
        have := ih (by simp [hc])
        exact this.trans (List.suffix_cons x xs).isInfix

theorem stringsTrimSuffix_prefix (s suf : String) : (stringsTrimSuffix s suf).data <+: s.data := by
  unfold stringsTrimSuffix
  split
  · exact List.take_prefix _ _
  · exact List.prefix_refl _

/-- C17 (as stated, refuted): `https://notgithub.com/org/repo` has the host
`notgithub.com` and `git@gitlab.com:github.com/x` has the host `gitlab.com`,
both different from `github.com`, and GetRepoFromRemote returns a non-empty
repo for each. -/
theorem GetRepoFromRemote_other_host_counterexample :
    GetRepoFromRemote "https://notgithub.com/org/repo" = "org/repo" ∧
    GetRepoFromRemote "git@gitlab.com:github.com/x" = "x" := by
  decide

/-- C17 (amended): GetRepoFromRemote returns the empty string for every URL
that neither starts with `git@github.com:` nor contains the substring
`github.com/`; put the other way, a non-empty result means that the URL starts
with `git@github.com:` or contains `github.com/` somewhere. -/
theorem GetRepoFromRemote_unrecognized (u : String) :
    (¬ "git@github.com:".data <+: u.data → ¬ "github.com/".data <:+: u.data →
      GetRepoFromRemote u = "") ∧
    (GetRepoFromRemote u ≠ "" →
      "git@github.com:".data <+: u.data ∨ "github.com/".data <:+: u.data) := by
  have key : ¬ "git@github.com:".data <+: u.data → ¬ "github.com/".data <:+: u.data →
      GetRepoFromRemote u = "" := by
    intro hpre hsub
    have htrim := stringsTrimSuffix_prefix u ".git"
    have h1 : stringsHasPrefix (stringsTrimSuffix u ".git") "git@github.com:" = false := by
      cases hb : stringsHasPrefix (stringsTrimSuffix u ".git") "git@github.com:" with
      | false => rfl
      | true => exact absurd ((List.isPrefixOf_iff_prefix.mp hb).trans htrim) hpre
    have h2 : stringsContainsStr (stringsTrimSuffix u ".git") "github.com/" = false := by
      cases hb : stringsContainsStr (stringsTrimSuffix u ".git") "github.com/" with
      | false => rfl
      | true => exact absurd ((infix_of_cutStr_isSome _ _ hb).trans htrim.isInfix) hsub
    simp [GetRepoFromRemote, h1, h2]
  refine ⟨key, ?_⟩
  intro hne
  by_contra hcon
  push_neg at hcon
  exact hne (key hcon.1 hcon.2)

/-- C17 (amended) on the two invalid inputs of the test suite. -/
theorem GetRepoFromRemote_unrecognized_witness :
    ¬ "git@github.com:".data <+: "https://gitlab.com/org/repo".data ∧
    ¬ "github.com/".data <:+: "https://gitlab.com/org/repo".data ∧
    GetRepoFromRemote "https://gitlab.com/org/repo" = "" ∧
    GetRepoFromRemote "not-a-url" = "" :=
  ⟨by decide, by decide,
   (GetRepoFromRemote_unrecognized "https://gitlab.com/org/repo").1 (by decide) (by decide),
   (GetRepoFromRemote_unrecognized "not-a-url").1 (by decide) (by decide)⟩

/-! ## C18, C20: the config mapping -/

theorem lookup_cons_self (k v : String) (rest : List (String × String)) :
    ((k, v) :: rest).lookup k = some v := by
  rw [List.lookup_cons]
  simp

theorem lookup_cons_ne (k k0 v0 : String) (rest : List (String × String)) (h : k ≠ k0) :
    ((k0, v0) :: rest).lookup k = rest.lookup k := by
  rw [List.lookup_cons]
  have hb : (k == k0) = false := by simpa using h
  simp [hb]

theorem lookup_map_replace_self (m : List (String × String)) (k v : String)
    (h : (m.lookup k).isSome = true) :
    (m.map (fun e => if e.1 = k then (k, v) else e)).lookup k = some v := by
  induction m with
  | nil => simp at h
  | cons e rest ih =>
    obtain ⟨k0, v0⟩ := e
    rw [List.map_cons]
    by_cases hk : k0 = k
    · subst hk
      rw [if_pos rfl]
      exact lookup_cons_self _ _ _
    · rw [if_neg hk, lookup_cons_ne _ _ _ _ (fun e => hk e.symm)]
      apply ih
      rwa [lookup_cons_ne _ _ _ _ (fun e => hk e.symm)] at h

theorem lookup_map_replace_other (m : List (String × String)) (k v k' : String)
    (hne : k' ≠ k) :
    (m.map (fun e => if e.1 = k then (k, v) else e)).lookup k' = m.lookup k' := by
  induction m with
  | nil => rfl
  | cons e rest ih =>
    obtain ⟨k0, v0⟩ := e
    rw [List.map_cons]
    by_cases hk : k0 = k
    · subst hk
      rw [if_pos rfl, lookup_cons_ne _ _ _ _ hne, lookup_cons_ne _ _ _ _ hne, ih]
    · rw [if_neg hk]
      by_cases hk2 : k' = k0
      · subst hk2
        rw [lookup_cons_self, lookup_cons_self]
      · rw [lookup_cons_ne _ _ _ _ hk2, lookup_cons_ne _ _ _ _ hk2, ih]

theorem lookup_append_singleton (m : List (String × String)) (k v k' : String) :
    (m ++ [(k, v)]).lookup k' =
      match m.lookup k' with
      | some x => some x
      | none => if k' = k then some v else none := by
  induction m with
  | nil =>
    by_cases h : k' = k
    · subst h
      simp [lookup_cons_self]
    · simp [lookup_cons_ne _ _ _ _ h, h]
  | cons e rest ih =>
    obtain ⟨k0, v0⟩ := e
    rw [List.cons_append]
    by_cases hk2 : k' = k0
    · subst hk2
      rw [lookup_cons_self, lookup_cons_self]
    · rw [lookup_cons_ne _ _ _ _ hk2, lookup_cons_ne _ _ _ _ hk2, ih]

theorem lookup_mapAssign_self (m : List (String × String)) (k v : String) :
    (mapAssign m k v).lookup k = some v := by
  unfold mapAssign
  split
  · rename_i h
    exact lookup_map_replace_self m k v h
  · rename_i h
    rw [lookup_append_singleton]
    cases hl : m.lookup k with
    | some x => simp [hl] at h
    | none => simp

theorem lookup_mapAssign_other (m : List (String × String)) (k v k' : String) (hne : k' ≠ k) :
    (mapAssign m k v).lookup k' = m.lookup k' := by
  unfold mapAssign
  split
  · exact lookup_map_replace_other m k v k' hne
  · rw [lookup_append_singleton]
    cases hl : m.lookup k' with
    | some x => rfl
    | none => simp [hne]

theorem lookup_eq_none_of_not_mem (m : List (String × String)) (k : String)
    (h : k ∉ m.map Prod.fst) : m.lookup k = none := by
  induction m with
  | nil => rfl
  | cons e rest ih =>
    obtain ⟨k0, v0⟩ := e
    have hk : k ≠ k0 := fun e => h (by simp [e])
    have hrest : k ∉ rest.map Prod.fst := fun e => h (List.mem_cons_of_mem _ e)
    rw [lookup_cons_ne _ _ _ _ hk, ih hrest]

/-- C18: after AddMarketplace(r, a), GetAlias(r) is a (whether r was absent or
present with another alias), GetAlias(r') is what it was for every repo r'
different from r, and GetAlias of a repo that is not configured is the empty
string. -/
theorem AddMarketplace_GetAlias (c : Config) (r a : String) :
    (c.AddMarketplace r a).GetAlias r = a ∧
    (∀ r', r' ≠ r → (c.AddMarketplace r a).GetAlias r' = c.GetAlias r') ∧
    (∀ r', r' ∉ c.Repos → c.GetAlias r' = "") := by
  refine ⟨?_, ?_, ?_⟩
  · simp [Config.AddMarketplace, Config.GetAlias, lookup_mapAssign_self]
  · intro r' hne
    simp [Config.AddMarketplace, Config.GetAlias, lookup_mapAssign_other _ _ _ _ hne]
  · intro r' hnot
    simp [Config.GetAlias, lookup_eq_none_of_not_mem c.Marketplaces r' hnot]

/-- With distinct keys, the lookup of a key finds the value of its entry. -/
theorem lookup_of_mem_nodup (m : List (String × String)) (k v : String)
    (hnd : (m.map Prod.fst).Nodup) (hmem : (k, v) ∈ m) : m.lookup k = some v := by
  induction m with
  | nil => cases hmem
  | cons e rest ih =>
    obtain ⟨k0, v0⟩ := e
    rw [List.map_cons, List.nodup_cons] at hnd
    rcases List.mem_cons.mp hmem with heq | hrest
    · obtain ⟨rfl, rfl⟩ := Prod.mk.inj heq
      exact lookup_cons_self _ _ _
    · have hk : k ≠ k0 := by
        rintro rfl
        exact hnd.1 (List.mem_map.mpr ⟨(k, v), hrest, rfl⟩)
      rw [lookup_cons_ne _ _ _ _ hk]
      exact ih hnd.2 hrest

/-- A configured repo has an entry, whose alias is what GetAlias returns. -/
theorem mem_of_mem_Repos (c : Config) (r : String) (hwf : c.WellFormed) (h : r ∈ c.Repos) :
    (r, c.GetAlias r) ∈ c.Marketplaces := by
  obtain ⟨e, he, rfl⟩ := List.mem_map.mp h
  obtain ⟨k, v⟩ := e
  have := lookup_of_mem_nodup c.Marketplaces k v hwf he
  simpa [Config.GetAlias, this] using he

/-- What GetRepo returns when some entry has the alias: the repo of an entry
with that alias. -/
theorem GetRepo_of_mem (c : Config) (x repo : String) (h : (repo, x) ∈ c.Marketplaces) :
    (c.GetRepo x, x) ∈ c.Marketplaces := by
  unfold Config.GetRepo
  cases hf : c.Marketplaces.find? (fun e => e.2 = x) with
  | none =>
    have := List.find?_eq_none.mp hf (repo, x) h
    simp at this
  | some e =>
    have hp := List.find?_some hf
    have hm := List.mem_of_find?_eq_some hf
    obtain ⟨k, v⟩ := e
    simp only [decide_eq_true_eq] at hp
    subst hp
    exact hm

theorem GetRepo_of_not_mem (c : Config) (x : String)
    (h : ¬ ∃ repo, (repo, x) ∈ c.Marketplaces) : c.GetRepo x = "" := by
  unfold Config.GetRepo
  cases hf : c.Marketplaces.find? (fun e => e.2 = x) with
  | none => rfl
  | some e =>
    have hp := List.find?_some hf
    have hm := List.mem_of_find?_eq_some hf
    obtain ⟨k, v⟩ := e
    simp only [decide_eq_true_eq] at hp
    subst hp
    exact absurd ⟨k, hm⟩ h

/-- C20: for every config (a map, so with distinct repos) and alias x: if some
configured repo maps to x, GetRepo(x) is a configured repo whose alias is x;
otherwise GetRepo(x) is the empty string; and when the configured aliases are
pairwise distinct, GetRepo(GetAlias(r)) is r for every configured repo r. -/
theorem GetRepo_reverse_lookup (c : Config) (x : String) (hwf : c.WellFormed) :
    ((∃ repo, (repo, x) ∈ c.Marketplaces) →
      c.GetRepo x ∈ c.Repos ∧ c.GetAlias (c.GetRepo x) = x) ∧
    ((¬ ∃ repo, (repo, x) ∈ c.Marketplaces) → c.GetRepo x = "") ∧
    ((c.Marketplaces.map Prod.snd).Nodup →
      ∀ r ∈ c.Repos, c.GetRepo (c.GetAlias r) = r) := by
  refine ⟨?_, GetRepo_of_not_mem c x, ?_⟩
  · rintro ⟨repo, hrepo⟩
    have hmem := GetRepo_of_mem c x repo hrepo
    refine ⟨List.mem_map.mpr ⟨_, hmem, rfl⟩, ?_⟩
    simp [Config.GetAlias, lookup_of_mem_nodup c.Marketplaces _ _ hwf hmem]
  · intro hinj r hr
    have h1 := mem_of_mem_Repos c r hwf hr
    have h2 := GetRepo_of_mem c (c.GetAlias r) r h1
    have := List.inj_on_of_nodup_map hinj h2 h1 rfl
    exact (Prod.mk.inj this).1

/-- C20 on the config of TestGetRepo. -/
theorem GetRepo_reverse_lookup_witness :
    testConfig.WellFormed ∧
    testConfig.GetRepo "alias1" = "org/repo1" ∧
    testConfig.GetRepo "alias2" = "org/repo2" ∧
    (testConfig.GetRepo "alias2" ∈ testConfig.Repos ∧
      testConfig.GetAlias (testConfig.GetRepo "alias2") = "alias2") ∧
    testConfig.GetRepo "nonexistent" = "" ∧
    (∀ r ∈ testConfig.Repos, testConfig.GetRepo (testConfig.GetAlias r) = r) :=
  ⟨by unfold Config.WellFormed; decide, by decide, by decide,
   (GetRepo_reverse_lookup testConfig "alias2" (by unfold Config.WellFormed; decide)).1
     ⟨"org/repo2", by decide⟩,
   (GetRepo_reverse_lookup testConfig "nonexistent" (by unfold Config.WellFormed; decide)).2.1
     (by simp [testConfig]),
   (GetRepo_reverse_lookup testConfig "alias1" (by unfold Config.WellFormed; decide)).2.2
     (by decide)⟩

/-- C18 on the config of TestGetAlias. -/
theorem AddMarketplace_GetAlias_witness :
    (testConfig.AddMarketplace "org/repo1" "renamed").Marketplaces =
      [("org/repo1", "renamed"), ("org/repo2", "alias2")] ∧
    (testConfig.AddMarketplace "org/new" "fresh").Marketplaces =
      [("org/repo1", "alias1"), ("org/repo2", "alias2"), ("org/new", "fresh")] ∧
    (testConfig.AddMarketplace "org/repo1" "renamed").GetAlias "org/repo1" = "renamed" ∧
    (testConfig.AddMarketplace "org/repo1" "renamed").GetAlias "org/repo2" =
      testConfig.GetAlias "org/repo2" ∧
    testConfig.GetAlias "org/nonexistent" = "" :=
  ⟨by decide, by decide,
   (AddMarketplace_GetAlias testConfig "org/repo1" "renamed").1,
   (AddMarketplace_GetAlias testConfig "org/repo1" "renamed").2.1 "org/repo2" (by decide),
   (AddMarketplace_GetAlias testConfig "org/repo1" "renamed").2.2 "org/nonexistent"
     (by decide)⟩

/-! ## C19: the reverse lookup after AddMarketplace, save and load -/

theorem mem_of_lookup_eq_some (m : List (String × String)) (k v : String)
    (h : m.lookup k = some v) : (k, v) ∈ m := by
  induction m with
  | nil => cases h
  | cons e rest ih =>
    obtain ⟨k0, v0⟩ := e
    by_cases hk : k = k0
    · subst hk
      rw [lookup_cons_self] at h
      obtain rfl := Option.some.inj h
      exact List.mem_cons_self _ _
    · rw [lookup_cons_ne _ _ _ _ hk] at h
      exact List.mem_cons_of_mem _ (ih h)

/-- The entries after the assignment `m[k] = v`: the entry of `k`, and the
entries that `m` had for the other keys. -/
theorem mem_mapAssign (m : List (String × String)) (k v k' v' : String)
    (h : (k', v') ∈ mapAssign m k v) : (k' = k ∧ v' = v) ∨ (k', v') ∈ m := by
  unfold mapAssign at h
  split at h
  · obtain ⟨e, he, heq⟩ := List.mem_map.mp h
    by_cases hk : e.1 = k
    · rw [if_pos hk] at heq
      obtain ⟨rfl, rfl⟩ := Prod.mk.inj heq
      exact Or.inl ⟨rfl, rfl⟩
    · rw [if_neg hk] at heq
      subst heq
      exact Or.inr he
  · rcases List.mem_append.mp h with h1 | h1
    · exact Or.inr h1
    · simp only [List.mem_singleton] at h1
      obtain ⟨rfl, rfl⟩ := Prod.mk.inj h1
      exact Or.inl ⟨rfl, rfl⟩

/-- GetRepo on a map in which exactly the repo `r` has the alias `a`. -/
theorem GetRepo_of_unique (c : Config) (r a : String) (hentry : (r, a) ∈ c.Marketplaces)
    (honly : ∀ k, (k, a) ∈ c.Marketplaces → k = r) : c.GetRepo a = r :=
  honly _ (GetRepo_of_mem c a r hentry)

/-- After AddMarketplace(r, a) on a map in which no other repo has the alias
`a`, the entries with alias `a` are those of `r`. -/
theorem AddMarketplace_only (c : Config) (r a : String) (hwf : c.WellFormed)
    (huniq : ∀ r' ∈ c.Repos, r' ≠ r → c.GetAlias r' ≠ a) :
    (r, a) ∈ (c.AddMarketplace r a).Marketplaces ∧
    ∀ k, (k, a) ∈ (c.AddMarketplace r a).Marketplaces → k = r := by
  constructor
  · exact mem_of_lookup_eq_some _ _ _ (lookup_mapAssign_self c.Marketplaces r a)
  · intro k hk
    rcases mem_mapAssign c.Marketplaces r a k a hk with ⟨h1, _⟩ | h1
    · exact h1
    · by_contra hne
      have hrepo : k ∈ c.Repos := List.mem_map.mpr ⟨(k, a), h1, rfl⟩
      apply huniq k hrepo hne
      simp [Config.GetAlias, lookup_of_mem_nodup c.Marketplaces k a hwf h1]

/-- What Load returns on a file that holds a document. -/
theorem Load_of_data {W : Type} (sys : ConfigSys W) (w : W) (path bytes : String)
    (m : List (String × String)) (hpath : path ≠ "")
    (hread : sys.readFile w path = ReadResult.data bytes)
    (hdec : sys.yamlUnmarshal bytes = .ok m) :
    Config.Load sys w path = .ok { Marketplaces := m, path := path } := by
  simp [Config.Load, hpath, hread, hdec]

/-- A successful Save has written the header followed by the document of the
map to the path of the config. -/
theorem Save_ok {W : Type} (sys : ConfigSys W) (w : W) (c : Config)
    (h : (Config.Save sys w c).val = none) :
    ∃ w1 data, sys.yamlMarshal c.Marketplaces = .ok data ∧
      sys.writeFile w1 c.path (configHeader ++ data) = ((Config.Save sys w c).world, none) := by
  unfold Config.Save at h ⊢
  rcases hmk : sys.mkdirAll w (sys.dirOf c.path) with ⟨w1, e1⟩
  cases e1 with
  | some e => simp [hmk] at h
  | none =>
    cases hyaml : sys.yamlMarshal c.Marketplaces with
    | error e => simp [hmk, hyaml] at h
    | ok data =>
      rcases hwr : sys.writeFile w1 c.path (configHeader ++ data) with ⟨w2, e2⟩
      cases e2 with
      | some e => simp [hmk, hyaml, hwr] at h
      | none =>
        refine ⟨w1, data, rfl, ?_⟩
        simp [hmk, hwr]

/-- C19 (as stated, refuted): `org/old` already has the alias `shared`; after
AddMarketplace(`org/new`, `shared`), also after save and load, GetRepo(`shared`)
is `org/old` in the iteration order in which `org/old` comes first, an order the
Go runtime is free to take. -/
theorem AddMarketplace_GetRepo_counterexample :
    (sharedAliasConfig.AddMarketplace "org/new" "shared").GetRepo "shared" = "org/old" ∧
    (Config.Save fileSys [] (sharedAliasConfig.AddMarketplace "org/new" "shared")).val = none ∧
    ∃ c2, Config.Load fileSys
        (Config.Save fileSys [] (sharedAliasConfig.AddMarketplace "org/new" "shared")).world
        "/home/u/.config/ccpm.yaml" = .ok c2 ∧
      c2.GetAlias "org/new" = "shared" ∧ c2.GetRepo "shared" = "org/old" :=
  ⟨by decide, by decide,
   { Marketplaces := [("org/old", "shared"), ("org/new", "shared")],
     path := "/home/u/.config/ccpm.yaml" }, by rfl, by decide, by decide⟩

/-- C19 (amended): let no configured repo other than r have the alias a.  After
AddMarketplace(r, a), GetRepo(a) is r; and if Save succeeds, the file system
gives back what was written and the YAML decoder gives back the mapping that the
encoder was given, then Load of the same path succeeds with a config in which
GetAlias(r) is a and GetRepo(a) is r. -/
theorem AddMarketplace_save_load_GetRepo {W : Type} (sys : ConfigSys W) (w : W) (c : Config)
    (r a : String)
    (hwf : c.WellFormed)
    (huniq : ∀ r' ∈ c.Repos, r' ≠ r → c.GetAlias r' ≠ a)
    (hpath : c.path ≠ "")
    (hsave : (Config.Save sys w (c.AddMarketplace r a)).val = none)
    (hfs : ∀ w1 data w2, sys.writeFile w1 c.path data = (w2, none) →
      sys.readFile w2 c.path = ReadResult.data data)
    (hyaml : ∀ data, sys.yamlMarshal (c.AddMarketplace r a).Marketplaces = .ok data →
      ∃ m', sys.yamlUnmarshal (configHeader ++ data) = .ok m' ∧ (m'.map Prod.fst).Nodup ∧
        ∀ k, m'.lookup k = (c.AddMarketplace r a).Marketplaces.lookup k) :
    (c.AddMarketplace r a).GetRepo a = r ∧
    ∃ c2, Config.Load sys (Config.Save sys w (c.AddMarketplace r a)).world c.path = .ok c2 ∧
      c2.GetAlias r = a ∧ c2.GetRepo a = r := by
  obtain ⟨hentry, honly⟩ := AddMarketplace_only c r a hwf huniq
  refine ⟨GetRepo_of_unique _ r a hentry honly, ?_⟩
  obtain ⟨w1, data, hmarshal, hwrite⟩ := Save_ok sys w _ hsave
  obtain ⟨m', hdec, hnd, hsame⟩ := hyaml data hmarshal
  have hread := hfs w1 _ _ hwrite
  refine ⟨{ Marketplaces := m', path := c.path },
    Load_of_data sys _ c.path _ m' hpath hread hdec, ?_, ?_⟩
  · simp [Config.GetAlias, hsame, Config.AddMarketplace, lookup_mapAssign_self]
  · apply GetRepo_of_unique
    · apply mem_of_lookup_eq_some
      rw [hsame]
      exact lookup_mapAssign_self c.Marketplaces r a
    · intro k hk
      apply honly
      apply mem_of_lookup_eq_some
      rw [← hsame]
      exact lookup_of_mem_nodup m' k a hnd hk

/-- C19 (amended) on the run of TestLoadAndSave: `test/repo` is added with the
alias `test-alias` to a config that has `org/old` under another alias, saved and
loaded again. -/
theorem AddMarketplace_save_load_GetRepo_witness :
    (sharedAliasConfig.AddMarketplace "test/repo" "test-alias").GetRepo "test-alias" =
      "test/repo" ∧
    ∃ c2, Config.Load fileSys
        (Config.Save fileSys [] (sharedAliasConfig.AddMarketplace "test/repo" "test-alias")).world
        sharedAliasConfig.path = .ok c2 ∧
      c2.GetAlias "test/repo" = "test-alias" ∧ c2.GetRepo "test-alias" = "test/repo" :=
  AddMarketplace_save_load_GetRepo fileSys [] sharedAliasConfig "test/repo" "test-alias"
    (by unfold Config.WellFormed; decide) (by decide) (by decide) (by decide)
    (by intro w1 data w2 h
        have h2 : w2 = (sharedAliasConfig.path, data) :: w1 := (congrArg Prod.fst h).symm
        subst h2
        simp [fileSys, lookup_cons_self])
    (by intro data h
        obtain rfl : sampleMarshal
            (sharedAliasConfig.AddMarketplace "test/repo" "test-alias").Marketplaces = data :=
          Except.ok.inj h
        exact ⟨[("org/old", "shared"), ("test/repo", "test-alias")], by rfl, by decide,
          fun k => rfl⟩)

/-! ## C11: the order in which the aliases are processed -/

theorem runUpdate_loop_append {W : Type} (sys : Sys W) (pluginsDir : String)
    (pre post : List String) (w : W) :
    (runUpdate.loop sys pluginsDir (pre ++ post) w).events =
      (runUpdate.loop sys pluginsDir pre w).events ++
      (runUpdate.loop sys pluginsDir post
        (runUpdate.loop sys pluginsDir pre w).world).events ∧
    (runUpdate.loop sys pluginsDir (pre ++ post) w).world =
      (runUpdate.loop sys pluginsDir post
        (runUpdate.loop sys pluginsDir pre w).world).world := by
  induction pre generalizing w with
  | nil => simp [runUpdate.loop]
  | cons a rest ih =>
    have h := ih (runUpdate.body sys pluginsDir w a).world
    rw [List.cons_append]
    simp only [runUpdate.loop, h.1, h.2, List.append_assoc, and_self]

/-- With arguments that are all configured, getTargetAliases returns their
aliases in the order of the arguments. -/
theorem getTargetAliases_resolve_eq (cfg : Config) (repos : List String)
    (h : ∀ repo ∈ repos, cfg.GetAlias repo ≠ "") :
    getTargetAliases.resolve cfg repos = .ok (repos.map cfg.GetAlias) := by
  induction repos with
  | nil => rfl
  | cons repo rest ih =>
    have h1 : cfg.GetAlias repo ≠ "" := h repo (List.mem_cons_self _ _)
    have h2 := ih (fun r hr => h r (List.mem_cons_of_mem _ hr))
    simp [getTargetAliases.resolve, h1, h2]

/-- Without arguments, on a config with at least one mapping, getTargetAliases
returns the sorted list of the non-empty aliases. -/
theorem getTargetAliases_nil_eq (cfg : Config) (hne : cfg.Marketplaces ≠ []) :
    getTargetAliases cfg [] =
      .ok (sortStrings ((cfg.Repos.map cfg.GetAlias).filter (fun a => a ≠ ""))) := by
  have hlen : ¬ cfg.Repos.length = 0 := by
    simpa [Config.Repos] using hne
  simp only [getTargetAliases, List.length_nil, gt_iff_lt, lt_self_iff_false, if_false, hlen,
    getTargetAliases_collect_eq]

/-- C11 (as stated, refuted): the repos `a/first`, `b/second` have the aliases
`zz`, `aa`; without arguments the aliases are processed in the order `aa`, `zz`,
while the aliases of the sorted repo list are `zz`, `aa`. -/
theorem getTargetAliases_order_counterexample :
    getTargetAliases crossedConfig [] = .ok ["aa", "zz"] ∧
    (sortStrings crossedConfig.Repos).map crossedConfig.GetAlias = ["zz", "aa"] ∧
    ¬ (getTargetAliases crossedConfig [] =
        .ok ((sortStrings crossedConfig.Repos).map crossedConfig.GetAlias)) := by
  refine ⟨rfl, by decide, ?_⟩
  intro h
  have h1 : getTargetAliases crossedConfig [] = .ok ["aa", "zz"] := rfl
  rw [h1] at h
  have h2 := Except.ok.inj h
  revert h2
  decide

/-- C11 (amended): when repos are given and all of them are configured, the
aliases processed are the configured aliases of the arguments, in the order of
the arguments; when no arguments are given (and the config has a mapping), they
are the non-empty configured aliases in the ascending order of the aliases
themselves.  Update and upgrade process that list from first to last: the
child processes of the aliases of any initial part of the list come before those
of the rest, which run in the world the initial part left. -/
theorem target_aliases_order {W : Type} (sys : Sys W) (g : Globals) (args : List String)
    (w : W) :
    (args ≠ [] → (∀ repo ∈ args, g.cfg.GetAlias repo ≠ "") →
      getTargetAliases g.cfg args = .ok (args.map g.cfg.GetAlias)) ∧
    (g.cfg.Marketplaces ≠ [] →
      getTargetAliases g.cfg [] =
        .ok (sortStrings ((g.cfg.Repos.map g.cfg.GetAlias).filter (fun a => a ≠ ""))) ∧
      (sortStrings ((g.cfg.Repos.map g.cfg.GetAlias).filter (fun a => a ≠ ""))).Sorted
        (fun a b => a ≤ b)) ∧
    (∀ pre post, getTargetAliases g.cfg args = .ok (pre ++ post) →
      (runUpdate sys g args w).events =
        (runUpdate.loop sys (PluginsDir sys) pre w).events ++
        (runUpdate.loop sys (PluginsDir sys) post
          (runUpdate.loop sys (PluginsDir sys) pre w).world).events ∧
      (runUpgrade sys g args w).events =
        (runUpgrade.loop sys g.dryRun (PluginsDir sys) pre w).events ++
        (runUpgrade.loop sys g.dryRun (PluginsDir sys) post
          (runUpgrade.loop sys g.dryRun (PluginsDir sys) pre w).world).events) := by
  refine ⟨?_, ?_, ?_⟩
  · intro hne hall
    have hlen : args.length > 0 := List.length_pos.mpr hne
    simp only [getTargetAliases, hlen, if_true]
    exact getTargetAliases_resolve_eq g.cfg args hall
  · intro hne
    exact ⟨getTargetAliases_nil_eq g.cfg hne, sortStrings_sorted_le _⟩
  · intro pre post h
    constructor
    · simp only [runUpdate, h]
      exact (runUpdate_loop_append sys _ pre post w).1
    · simp only [runUpgrade, h]
      exact (runUpgrade_loop_append sys _ _ pre post w).1

/-- C11 (amended) on the config with crossed orders: the arguments
`b/second`, `a/first` are processed as `aa`, `zz`, and so is the run without
arguments. -/
theorem target_aliases_order_witness :
    getTargetAliases crossedConfig ["b/second", "a/first"] = .ok ["aa", "zz"] ∧
    getTargetAliases crossedConfig ["a/first", "b/second"] = .ok ["zz", "aa"] ∧
    getTargetAliases crossedConfig [] = .ok ["aa", "zz"] ∧
    (runUpdate sampleSys { sampleGlobals false with cfg := crossedConfig } [] []).events =
      (runUpdate.loop sampleSys (PluginsDir sampleSys) ["aa"] []).events ++
      (runUpdate.loop sampleSys (PluginsDir sampleSys) ["zz"]
        (runUpdate.loop sampleSys (PluginsDir sampleSys) ["aa"] []).world).events :=
  ⟨(target_aliases_order sampleSys { sampleGlobals false with cfg := crossedConfig }
      ["b/second", "a/first"] []).1 (by decide) (by decide),
   (target_aliases_order sampleSys { sampleGlobals false with cfg := crossedConfig }
      ["a/first", "b/second"] []).1 (by decide) (by decide),
   ((target_aliases_order sampleSys { sampleGlobals false with cfg := crossedConfig }
      [] []).2.1 (by decide)).1,
   ((target_aliases_order sampleSys { sampleGlobals false with cfg := crossedConfig }
      [] []).2.2 ["aa"] ["zz"] rfl).1⟩

/-! ## C21, C22: removing a mapping; what stays unique -/

theorem lookup_isSome_iff (m : List (String × String)) (k : String) :
    (m.lookup k).isSome = true ↔ k ∈ m.map Prod.fst := by
  constructor
  · intro h
    cases hl : m.lookup k with
    | none => simp [hl] at h
    | some v => exact List.mem_map.mpr ⟨(k, v), mem_of_lookup_eq_some m k v hl, rfl⟩
  · intro h
    by_contra hn
    induction m with
    | nil => simp at h
    | cons e rest ih =>
      obtain ⟨k0, v0⟩ := e
      by_cases hk : k = k0
      · subst hk
        simp [lookup_cons_self] at hn
      · rw [lookup_cons_ne _ _ _ _ hk] at hn
        apply ih _ hn
        rcases List.mem_map.mp h with ⟨e, he, hek⟩
        rcases List.mem_cons.mp he with rfl | he'
        · exact absurd hek.symm hk
        · exact List.mem_map.mpr ⟨e, he', hek⟩

theorem mem_keys_mapDelete (m : List (String × String)) (k k' : String) :
    k' ∈ (mapDelete m k).map Prod.fst ↔ k' ∈ m.map Prod.fst ∧ k' ≠ k := by
  simp only [mapDelete, List.mem_map, List.mem_filter, decide_eq_true_eq]
  constructor
  · rintro ⟨e, ⟨he, hne⟩, rfl⟩
    exact ⟨⟨e, he, rfl⟩, hne⟩
  · rintro ⟨⟨e, he, rfl⟩, hne⟩
    exact ⟨e, ⟨he, hne⟩, rfl⟩

theorem lookup_mapDelete_self (m : List (String × String)) (k : String) :
    (mapDelete m k).lookup k = none := by
  apply lookup_eq_none_of_not_mem
  rw [mem_keys_mapDelete]
  exact fun h => h.2 rfl

theorem lookup_mapDelete_other (m : List (String × String)) (k k' : String) (hne : k' ≠ k) :
    (mapDelete m k).lookup k' = m.lookup k' := by
  unfold mapDelete
  induction m with
  | nil => rfl
  | cons e rest ih =>
    obtain ⟨k0, v0⟩ := e
    by_cases hk : k0 = k
    · subst hk
      rw [List.filter_cons_of_neg (by simp), lookup_cons_ne _ _ _ _ hne, ih]
    · rw [List.filter_cons_of_pos (by simpa using hk)]
      by_cases hk2 : k' = k0
      · subst hk2
        rw [lookup_cons_self, lookup_cons_self]
      · rw [lookup_cons_ne _ _ _ _ hk2, lookup_cons_ne _ _ _ _ hk2, ih]

theorem nodup_keys_mapDelete (m : List (String × String)) (k : String)
    (h : (m.map Prod.fst).Nodup) : ((mapDelete m k).map Prod.fst).Nodup :=
  h.sublist ((List.filter_sublist m).map Prod.fst)

theorem nodup_keys_mapAssign (m : List (String × String)) (k v : String)
    (h : (m.map Prod.fst).Nodup) : ((mapAssign m k v).map Prod.fst).Nodup := by
  unfold mapAssign
  split
  · have : (m.map (fun e => if e.1 = k then (k, v) else e)).map Prod.fst = m.map Prod.fst := by
      rw [List.map_map]
      apply List.map_congr_left
      intro e _
      by_cases he : e.1 = k
      · simp [he]
      · simp [he]
    rw [this]
    exact h
  · rename_i hnone
    rw [List.map_append]
    refine List.Nodup.append h (List.nodup_singleton _) ?_
    intro x hx hx'
    simp only [List.map_cons, List.map_nil, List.mem_singleton] at hx'
    subst hx'
    exact hnone ((lookup_isSome_iff m _).mpr hx)

theorem RemoveMarketplace_of_present (c : Config) (r : String)
    (h : (c.Marketplaces.lookup r).isSome = true) :
    c.RemoveMarketplace r = ({ c with Marketplaces := mapDelete c.Marketplaces r }, true) := by
  simp [Config.RemoveMarketplace, h]

theorem RemoveMarketplace_of_absent (c : Config) (r : String)
    (h : ¬ (c.Marketplaces.lookup r).isSome = true) :
    c.RemoveMarketplace r = (c, false) := by
  simp [Config.RemoveMarketplace, h]

/-- C21: RemoveMarketplace(r) returns true iff r was a key of the mapping;
afterwards r is absent and GetAlias(r) is the empty string, every other repo is
configured iff it was and has the alias it had, and a second
RemoveMarketplace(r) right after returns false and changes nothing. -/
theorem RemoveMarketplace_spec (c : Config) (r : String) :
    ((c.RemoveMarketplace r).2 = true ↔ r ∈ c.Repos) ∧
    r ∉ (c.RemoveMarketplace r).1.Repos ∧
    (c.RemoveMarketplace r).1.GetAlias r = "" ∧
    (∀ r', r' ≠ r →
      (c.RemoveMarketplace r).1.GetAlias r' = c.GetAlias r' ∧
      (r' ∈ (c.RemoveMarketplace r).1.Repos ↔ r' ∈ c.Repos)) ∧
    ((c.RemoveMarketplace r).1.RemoveMarketplace r).2 = false ∧
    ((c.RemoveMarketplace r).1.RemoveMarketplace r).1 = (c.RemoveMarketplace r).1 := by
  have habsent : r ∉ (c.RemoveMarketplace r).1.Repos := by
    by_cases h : (c.Marketplaces.lookup r).isSome = true
    · rw [RemoveMarketplace_of_present c r h]
      unfold Config.Repos
      rw [mem_keys_mapDelete]
      exact fun hm => hm.2 rfl
    · rw [RemoveMarketplace_of_absent c r h]
      exact fun hmem => h ((lookup_isSome_iff _ _).mpr hmem)
  have hnone : ¬ ((c.RemoveMarketplace r).1.Marketplaces.lookup r).isSome = true := by
    rw [lookup_eq_none_of_not_mem _ _ habsent]
    simp
  refine ⟨?_, habsent, ?_, ?_, ?_, ?_⟩
  · by_cases h : (c.Marketplaces.lookup r).isSome = true
    · rw [RemoveMarketplace_of_present c r h]
      simpa [Config.Repos] using (lookup_isSome_iff _ _).mp h
    · rw [RemoveMarketplace_of_absent c r h]
      simpa [Config.Repos] using fun hmem => h ((lookup_isSome_iff _ _).mpr hmem)
  · simp [Config.GetAlias, lookup_eq_none_of_not_mem _ _ habsent]
  · intro r' hne
    by_cases h : (c.Marketplaces.lookup r).isSome = true
    · rw [RemoveMarketplace_of_present c r h]
      unfold Config.Repos Config.GetAlias
      rw [lookup_mapDelete_other _ _ _ hne, mem_keys_mapDelete]
      exact ⟨rfl, ⟨fun hm => hm.1, fun hm => ⟨hm, hne⟩⟩⟩
    · rw [RemoveMarketplace_of_absent c r h]
      exact ⟨rfl, Iff.rfl⟩
  · rw [RemoveMarketplace_of_absent _ r hnone]
  · rw [RemoveMarketplace_of_absent _ r hnone]

/-- C21 on the calls of TestAddRemoveMarketplace. -/
theorem RemoveMarketplace_spec_witness :
    ((emptyConfig.AddMarketplace "org/repo" "alias").RemoveMarketplace "org/repo").2 = true ∧
    ((emptyConfig.AddMarketplace "org/repo" "alias").RemoveMarketplace "org/repo").1.GetAlias
      "org/repo" = "" ∧
    (emptyConfig.RemoveMarketplace "org/nonexistent").2 = false ∧
    (testConfig.RemoveMarketplace "org/repo1").1.GetAlias "org/repo2" =
      testConfig.GetAlias "org/repo2" :=
  ⟨by decide,
   (RemoveMarketplace_spec (emptyConfig.AddMarketplace "org/repo" "alias") "org/repo").2.2.1,
   by decide,
   ((RemoveMarketplace_spec testConfig "org/repo1").2.2.2.1 "org/repo2" (by decide)).1⟩

/-- C22 (as stated, refuted): after `ccpm add org/one shared` and
`ccpm add org/two shared`, both successful, the config is the one reached from
the empty config by the two AddMarketplace calls, and the two distinct repos
`org/one` and `org/two` both map to the alias `shared`. -/
theorem alias_not_unique_counterexample :
    addTwice.val = .ok () ∧
    addTwice.cfg =
      emptyConfig.applyOps [ConfigOp.add "org/one" "shared", ConfigOp.add "org/two" "shared"] ∧
    "org/one" ∈ addTwice.cfg.Repos ∧ "org/two" ∈ addTwice.cfg.Repos ∧
    "org/one" ≠ "org/two" ∧
    addTwice.cfg.GetAlias "org/one" = "shared" ∧
    addTwice.cfg.GetAlias "org/two" = "shared" := by
  decide

/-- Every call keeps the repos of the mapping distinct. -/
theorem applyOp_WellFormed (c : Config) (op : ConfigOp) (h : c.WellFormed) :
    (c.applyOp op).WellFormed := by
  cases op with
  | add repo aliasName => exact nodup_keys_mapAssign _ _ _ h
  | remove repo =>
    show (c.RemoveMarketplace repo).1.WellFormed
    by_cases hp : (c.Marketplaces.lookup repo).isSome = true
    · rw [RemoveMarketplace_of_present c repo hp]
      exact nodup_keys_mapDelete _ _ h
    · rw [RemoveMarketplace_of_absent c repo hp]
      exact h

/-- C22 (amended): in every config reachable from the empty config by any
sequence of AddMarketplace and RemoveMarketplace calls the repo side is unique:
no repo occurs twice, so every configured repo has exactly one alias, the one
GetAlias returns.  The alias side is not kept unique by any call. -/
theorem reachable_repos_unique (path : String) (ops : List ConfigOp) :
    (Config.applyOps { Marketplaces := [], path := path } ops).WellFormed ∧
    ∀ repo a, (repo, a) ∈ (Config.applyOps { Marketplaces := [], path := path } ops).Marketplaces →
      (Config.applyOps { Marketplaces := [], path := path } ops).GetAlias repo = a := by
  have hwf : ∀ (l : List ConfigOp) (c : Config), c.WellFormed → (c.applyOps l).WellFormed := by
    intro l
    induction l with
    | nil => exact fun c h => h
    | cons op rest ih => exact fun c h => ih _ (applyOp_WellFormed c op h)
  have h0 : (Config.applyOps { Marketplaces := [], path := path } ops).WellFormed :=
    hwf ops _ (by simp [Config.WellFormed])
  refine ⟨h0, ?_⟩
  intro repo a hmem
  simp [Config.GetAlias, lookup_of_mem_nodup _ repo a h0 hmem]

/-- C22 (amended) on two adds with the same alias followed by a remove. -/
theorem reachable_repos_unique_witness :
    (Config.applyOps { Marketplaces := [], path := "" }
      [ConfigOp.add "org/one" "shared", ConfigOp.add "org/two" "shared",
       ConfigOp.remove "org/one"]).Marketplaces = [("org/two", "shared")] ∧
    (Config.applyOps { Marketplaces := [], path := "" }
      [ConfigOp.add "org/one" "shared", ConfigOp.add "org/two" "shared",
       ConfigOp.remove "org/one"]).WellFormed ∧
    (Config.applyOps { Marketplaces := [], path := "" }
      [ConfigOp.add "org/one" "shared", ConfigOp.add "org/two" "shared",
       ConfigOp.remove "org/one"]).GetAlias "org/two" = "shared" :=
  ⟨by decide,
   (reachable_repos_unique ""
      [ConfigOp.add "org/one" "shared", ConfigOp.add "org/two" "shared",
       ConfigOp.remove "org/one"]).1,
   (reachable_repos_unique ""
      [ConfigOp.add "org/one" "shared", ConfigOp.add "org/two" "shared",
       ConfigOp.remove "org/one"]).2 "org/two" "shared" (by decide)⟩

/-! ## C23, C24: Save and Load -/

/-- C23: if c.Save() succeeds, the file system gives back what was written to
the path of c, and the YAML decoder gives back, for the header followed by the
document of c's mapping, the mapping that the encoder was given, then Load of
the same path succeeds with a config whose repo → alias mapping equals c's: the
same repos, each with the alias it has in c.  So after AddMarketplace(r, a),
save and reload, GetAlias(r) is a. -/
theorem Save_Load_round_trip {W : Type} (sys : ConfigSys W) (w : W) (c : Config)
    (hpath : c.path ≠ "")
    (hsave : (Config.Save sys w c).val = none)
    (hfs : ∀ w1 data w2, sys.writeFile w1 c.path data = (w2, none) →
      sys.readFile w2 c.path = ReadResult.data data)
    (hyaml : ∀ data, sys.yamlMarshal c.Marketplaces = .ok data →
      ∃ m', sys.yamlUnmarshal (configHeader ++ data) = .ok m' ∧ (m'.map Prod.fst).Nodup ∧
        ∀ k, m'.lookup k = c.Marketplaces.lookup k) :
    ∃ c2, Config.Load sys (Config.Save sys w c).world c.path = .ok c2 ∧
      c2.path = c.path ∧
      c2.WellFormed ∧
      (∀ repo, c2.Marketplaces.lookup repo = c.Marketplaces.lookup repo) ∧
      (∀ repo, c2.GetAlias repo = c.GetAlias repo) ∧
      (∀ repo, repo ∈ c2.Repos ↔ repo ∈ c.Repos) ∧
      (∀ (c0 : Config) (r a : String), c = c0.AddMarketplace r a → c2.GetAlias r = a) := by
  obtain ⟨w1, data, hmarshal, hwrite⟩ := Save_ok sys w c hsave
  obtain ⟨m', hdec, hnd, hsame⟩ := hyaml data hmarshal
  have hread := hfs w1 _ _ hwrite
  refine ⟨{ Marketplaces := m', path := c.path },
    Load_of_data sys _ c.path _ m' hpath hread hdec, rfl, hnd, hsame, ?_, ?_, ?_⟩
  · intro repo
    simp [Config.GetAlias, hsame]
  · intro repo
    unfold Config.Repos
    rw [← lookup_isSome_iff, ← lookup_isSome_iff]
    simp [hsame]
  · intro c0 r a hc
    subst hc
    simp [Config.GetAlias, hsame, Config.AddMarketplace, lookup_mapAssign_self]

/-- C23 on the run of TestLoadAndSave: `test/repo` is added with the alias
`test-alias` to the empty config, which is saved and loaded again. -/
theorem Save_Load_round_trip_witness :
    (Config.Save fileSys [] (emptyConfig.AddMarketplace "test/repo" "test-alias")).val = none ∧
    ∃ c2, Config.Load fileSys
        (Config.Save fileSys [] (emptyConfig.AddMarketplace "test/repo" "test-alias")).world
        (emptyConfig.AddMarketplace "test/repo" "test-alias").path = .ok c2 ∧
      c2.path = (emptyConfig.AddMarketplace "test/repo" "test-alias").path ∧
      c2.WellFormed ∧
      (∀ repo, c2.Marketplaces.lookup repo =
        (emptyConfig.AddMarketplace "test/repo" "test-alias").Marketplaces.lookup repo) ∧
      (∀ repo, c2.GetAlias repo =
        (emptyConfig.AddMarketplace "test/repo" "test-alias").GetAlias repo) ∧
      (∀ repo, repo ∈ c2.Repos ↔
        repo ∈ (emptyConfig.AddMarketplace "test/repo" "test-alias").Repos) ∧
      (∀ (c0 : Config) (r a : String),
        emptyConfig.AddMarketplace "test/repo" "test-alias" = c0.AddMarketplace r a →
        c2.GetAlias r = a) :=
  ⟨by decide,
   Save_Load_round_trip fileSys [] (emptyConfig.AddMarketplace "test/repo" "test-alias")
    (by decide) (by decide)
    (by intro w1 data w2 h
        have h2 : w2 = ((emptyConfig.AddMarketplace "test/repo" "test-alias").path, data) :: w1 :=
          (congrArg Prod.fst h).symm
        subst h2
        simp [fileSys, lookup_cons_self])
    (by intro data h
        obtain rfl : sampleMarshal
            (emptyConfig.AddMarketplace "test/repo" "test-alias").Marketplaces = data :=
          Except.ok.inj h
        exact ⟨[("test/repo", "test-alias")], by rfl, by decide, fun k => rfl⟩)⟩

/-- C24: Load of a path whose file does not exist returns, without error, a
config with zero mappings (for the path given, or the default path when the
empty path is given); a read that fails in another way and a document that
does not parse are returned as errors; and a config is returned only in the
first case or when the file was read and parsed. -/
theorem Load_results {W : Type} (sys : ConfigSys W) (w : W) (path : String) :
    (sys.readFile w (if path = "" then DefaultConfigPath sys else path) = ReadResult.notExist →
      Config.Load sys w path =
        .ok { Marketplaces := [], path := if path = "" then DefaultConfigPath sys else path }) ∧
    (∀ msg,
      sys.readFile w (if path = "" then DefaultConfigPath sys else path) =
        ReadResult.otherError msg →
      Config.Load sys w path = .error ("reading config: " ++ msg)) ∧
    (∀ bytes msg,
      sys.readFile w (if path = "" then DefaultConfigPath sys else path) =
        ReadResult.data bytes →
      sys.yamlUnmarshal bytes = .error msg →
      Config.Load sys w path = .error ("parsing config: " ++ msg)) ∧
    (∀ c, Config.Load sys w path = .ok c →
      (sys.readFile w (if path = "" then DefaultConfigPath sys else path) = ReadResult.notExist ∧
        c.Marketplaces = []) ∨
      ∃ bytes,
        sys.readFile w (if path = "" then DefaultConfigPath sys else path) =
          ReadResult.data bytes ∧
        sys.yamlUnmarshal bytes = .ok c.Marketplaces) := by
  refine ⟨?_, ?_, ?_, ?_⟩
  · intro h
    simp only [Config.Load, h]
  · intro msg h
    simp only [Config.Load, h]
  · intro bytes msg h h2
    simp only [Config.Load, h, h2]
  · intro c h
    unfold Config.Load at h
    cases hr : sys.readFile w (if path = "" then DefaultConfigPath sys else path) with
    | notExist =>
      simp only [hr] at h
      have := Except.ok.inj h
      subst this
      exact Or.inl ⟨rfl, rfl⟩
    | otherError msg =>
      simp only [hr] at h
      cases h
    | data bytes =>
      simp only [hr] at h
      cases hd : sys.yamlUnmarshal bytes with
      | error msg =>
        simp only [hd] at h
        cases h
      | ok m =>
        simp only [hd] at h
        have := Except.ok.inj h
        subst this
        exact Or.inr ⟨bytes, rfl, hd⟩

/-- C24 on the sample system without any file (TestLoadNonExistent), on an
unreadable file and on a file that does not parse. -/
theorem Load_results_witness :
    Config.Load fileSys [] "/nonexistent/path/config.yaml" =
      .ok { Marketplaces := [], path := "/nonexistent/path/config.yaml" } ∧
    Config.Load fileSys [] "" =
      .ok { Marketplaces := [], path := "/home/u/.config/ccpm.yaml" } ∧
    Config.Load { fileSys with readFile := fun _ _ => ReadResult.otherError "permission denied" }
        [] "/etc/ccpm.yaml" = .error ("reading config: " ++ "permission denied") ∧
    Config.Load { fileSys with readFile := fun _ _ => ReadResult.data "marketplaces: [",
                               yamlUnmarshal := fun _ => .error "yaml: line 1" }
        [] "/etc/ccpm.yaml" = .error ("parsing config: " ++ "yaml: line 1") :=
  ⟨(Load_results fileSys [] "/nonexistent/path/config.yaml").1 rfl,
   (Load_results fileSys [] "").1 rfl,
   (Load_results
      { fileSys with readFile := fun _ _ => ReadResult.otherError "permission denied" }
      [] "/etc/ccpm.yaml").2.1 "permission denied" rfl,
   (Load_results
      { fileSys with readFile := fun _ _ => ReadResult.data "marketplaces: [",
                     yamlUnmarshal := fun _ => .error "yaml: line 1" }
      [] "/etc/ccpm.yaml").2.2.1 "marketplaces: [" "yaml: line 1" rfl rfl⟩

/-! ## C25, C26, C27: the inventory -/

theorem assoc_lookup_cons_self {β : Type} (k : String) (v : β) (rest : List (String × β)) :
    ((k, v) :: rest).lookup k = some v := by
  rw [List.lookup_cons]
  simp

theorem assoc_lookup_cons_ne {β : Type} (k k0 : String) (v0 : β) (rest : List (String × β))
    (h : k ≠ k0) : ((k0, v0) :: rest).lookup k = rest.lookup k := by
  rw [List.lookup_cons]
  have hb : (k == k0) = false := by simpa using h
  simp [hb]

theorem assoc_mem_of_lookup {β : Type} (m : List (String × β)) (k : String) (v : β)
    (h : m.lookup k = some v) : (k, v) ∈ m := by
  induction m with
  | nil => cases h
  | cons e rest ih =>
    obtain ⟨k0, v0⟩ := e
    by_cases hk : k = k0
    · subst hk
      rw [assoc_lookup_cons_self] at h
      cases h
      exact List.mem_cons_self _ _
    · rw [assoc_lookup_cons_ne _ _ _ _ hk] at h
      exact List.mem_cons_of_mem _ (ih h)

theorem assoc_lookup_none_iff {β : Type} (m : List (String × β)) (k : String) :
    m.lookup k = none ↔ k ∉ m.map Prod.fst := by
  induction m with
  | nil => simp
  | cons e rest ih =>
    obtain ⟨k0, v0⟩ := e
    by_cases hk : k = k0
    · subst hk
      rw [assoc_lookup_cons_self]
      simp
    · rw [assoc_lookup_cons_ne _ _ _ _ hk, ih]
      simp [hk]

theorem assoc_lookup_of_mem_nodup {β : Type} (m : List (String × β)) (k : String) (v : β)
    (hnd : (m.map Prod.fst).Nodup) (hmem : (k, v) ∈ m) : m.lookup k = some v := by
  induction m with
  | nil => cases hmem
  | cons e rest ih =>
    obtain ⟨k0, v0⟩ := e
    rw [List.map_cons, List.nodup_cons] at hnd
    rcases List.mem_cons.mp hmem with h | h
    · cases h
      exact assoc_lookup_cons_self _ _ _
    · have hk : k ≠ k0 := by
        intro e
        subst e
        exact hnd.1 (List.mem_map.mpr ⟨(k, v), h, rfl⟩)
      rw [assoc_lookup_cons_ne _ _ _ _ hk]
      exact ih hnd.2 h

theorem All_eq_keys (ip : InstalledPlugins) : ip.All = ip.Plugins.map Prod.fst := by
  have key : ∀ (l : List (String × List PluginInstall)) (acc : List String),
      l.foldl (fun ids entry => ids ++ [entry.1]) acc = acc ++ l.map Prod.fst := by
    intro l
    induction l with
    | nil => intro acc; simp
    | cons e rest ih =>
      intro acc
      rw [List.foldl_cons, ih]
      simp
  unfold InstalledPlugins.All
  rw [key]
  simp

/-- C25: for an inventory (a map: its keys are distinct) and an id, GetPlugin
reports present exactly when id is a key whose install list is non-empty; then
the record returned is the first element of that list; otherwise the zero
record and false are returned. -/
theorem GetPlugin_spec (ip : InstalledPlugins) (id : String) (hwf : ip.WellFormed) :
    ((ip.GetPlugin id).2 = true ↔ ∃ installs, (id, installs) ∈ ip.Plugins ∧ installs ≠ []) ∧
    (∀ first rest, (id, first :: rest) ∈ ip.Plugins → ip.GetPlugin id = (first, true)) ∧
    ((¬ ∃ installs, (id, installs) ∈ ip.Plugins ∧ installs ≠ []) →
      ip.GetPlugin id = (PluginInstall.zero, false)) := by
  have hpresent : ∀ first rest, (id, first :: rest) ∈ ip.Plugins →
      ip.GetPlugin id = (first, true) := by
    intro first rest hmem
    unfold InstalledPlugins.GetPlugin
    rw [assoc_lookup_of_mem_nodup _ _ _ hwf hmem]
  have habsent : (¬ ∃ installs, (id, installs) ∈ ip.Plugins ∧ installs ≠ []) →
      ip.GetPlugin id = (PluginInstall.zero, false) := by
    intro hno
    unfold InstalledPlugins.GetPlugin
    cases hl : ip.Plugins.lookup id with
    | none => rfl
    | some installs =>
      cases installs with
      | nil => rfl
      | cons first rest =>
        exact absurd ⟨first :: rest, assoc_mem_of_lookup _ _ _ hl, List.cons_ne_nil _ _⟩ hno
  refine ⟨⟨?_, ?_⟩, hpresent, habsent⟩
  · intro h
    by_contra hno
    rw [habsent hno] at h
    cases h
  · rintro ⟨installs, hmem, hne⟩
    cases installs with
    | nil => exact absurd rfl hne
    | cons first rest => rw [hpresent first rest hmem]

/-- C25 on the inventory of TestLoadInstalledValid: `trivy@plinde-plugins` is
present with version 1.0.0, an unknown id is absent. -/
theorem GetPlugin_spec_witness :
    validInventory.WellFormed ∧
    (validInventory.GetPlugin "trivy@plinde-plugins").2 = true ∧
    (validInventory.GetPlugin "trivy@plinde-plugins").1.Version = "1.0.0" ∧
    validInventory.GetPlugin "trivy@other" = (PluginInstall.zero, false) :=
  ⟨by unfold InstalledPlugins.WellFormed; decide,
   congrArg Prod.snd
     ((GetPlugin_spec validInventory "trivy@plinde-plugins" (by unfold InstalledPlugins.WellFormed; decide)).2.1 _ []
       (List.mem_cons_self _ _)),
   congrArg (fun r => r.1.Version)
     ((GetPlugin_spec validInventory "trivy@plinde-plugins" (by unfold InstalledPlugins.WellFormed; decide)).2.1 _ []
       (List.mem_cons_self _ _)),
   (GetPlugin_spec validInventory "trivy@other" (by unfold InstalledPlugins.WellFormed; decide)).2.2 (by
     rintro ⟨installs, hmem, _⟩
     simp [validInventory] at hmem)⟩

/-- C27: All() is the list of the keys of the plugin map, so its length is
Count(), the number of keys; every id occurs in it as often as among the keys,
which for a map (distinct keys) is exactly once for each key and never for
another id. -/
theorem All_spec (ip : InstalledPlugins) (hwf : ip.WellFormed) :
    ip.All = ip.Plugins.map Prod.fst ∧
    ip.All.length = ip.Count ∧
    ip.Count = (ip.Plugins.map Prod.fst).length ∧
    ip.All.Nodup ∧
    (∀ id, id ∈ ip.Plugins.map Prod.fst → ip.All.count id = 1) ∧
    (∀ id, id ∉ ip.Plugins.map Prod.fst → ip.All.count id = 0) := by
  rw [All_eq_keys]
  refine ⟨rfl, ?_, ?_, hwf, ?_, ?_⟩
  · simp [InstalledPlugins.Count]
  · simp [InstalledPlugins.Count]
  · intro id hmem
    exact List.count_eq_one_of_mem hwf hmem
  · intro id hmem
    exact List.count_eq_zero_of_not_mem hmem

/-- C27 on the inventory of TestInstalledPluginsAll: three keys, three ids. -/
theorem All_spec_witness :
    allInventory.WellFormed ∧
    allInventory.All = ["a@mp1", "b@mp2", "c@mp1"] ∧
    allInventory.All.length = 3 ∧
    allInventory.Count = 3 :=
  ⟨by unfold InstalledPlugins.WellFormed; decide,
   (All_spec allInventory (by unfold InstalledPlugins.WellFormed; decide)).1,
   ((All_spec allInventory (by unfold InstalledPlugins.WellFormed; decide)).2.1).trans (by decide),
   ((All_spec allInventory (by unfold InstalledPlugins.WellFormed; decide)).2.2.1).trans (by decide)⟩

theorem assoc_lookup_map_replace_self {β : Type} (m : List (String × β)) (k : String) (v : β)
    (h : k ∈ m.map Prod.fst) :
    (m.map (fun e => if e.1 = k then (k, v) else e)).lookup k = some v := by
  induction m with
  | nil => simp at h
  | cons e rest ih =>
    obtain ⟨k0, v0⟩ := e
    rw [List.map_cons]
    by_cases hk : k0 = k
    · subst hk
      rw [if_pos rfl]
      exact assoc_lookup_cons_self _ _ _
    · rw [if_neg hk, assoc_lookup_cons_ne _ _ _ _ (fun e => hk e.symm)]
      apply ih
      rcases List.mem_map.mp h with ⟨e, he, hek⟩
      rcases List.mem_cons.mp he with h1 | h1
      · subst h1
        exact absurd hek hk
      · exact List.mem_map.mpr ⟨e, h1, hek⟩

theorem assoc_lookup_map_replace_other {β : Type} (m : List (String × β)) (k : String) (v : β)
    (k' : String) (hne : k' ≠ k) :
    (m.map (fun e => if e.1 = k then (k, v) else e)).lookup k' = m.lookup k' := by
  induction m with
  | nil => rfl
  | cons e rest ih =>
    obtain ⟨k0, v0⟩ := e
    rw [List.map_cons]
    by_cases hk : k0 = k
    · subst hk
      rw [if_pos rfl, assoc_lookup_cons_ne _ _ _ _ hne, assoc_lookup_cons_ne _ _ _ _ hne, ih]
    · rw [if_neg hk]
      by_cases hk2 : k' = k0
      · subst hk2
        rw [assoc_lookup_cons_self, assoc_lookup_cons_self]
      · rw [assoc_lookup_cons_ne _ _ _ _ hk2, assoc_lookup_cons_ne _ _ _ _ hk2, ih]

theorem assoc_lookup_append_singleton {β : Type} (m : List (String × β)) (k : String) (v : β)
    (k' : String) :
    (m ++ [(k, v)]).lookup k' =
      match m.lookup k' with
      | some x => some x
      | none => if k' = k then some v else none := by
  induction m with
  | nil =>
    by_cases h : k' = k
    · subst h
      rw [List.nil_append, assoc_lookup_cons_self]
      simp
    · rw [List.nil_append, assoc_lookup_cons_ne _ _ _ _ h]
      simp [h]
  | cons e rest ih =>
    obtain ⟨k0, v0⟩ := e
    rw [List.cons_append]
    by_cases hk : k' = k0
    · subst hk
      rw [assoc_lookup_cons_self, assoc_lookup_cons_self]
    · rw [assoc_lookup_cons_ne _ _ _ _ hk, assoc_lookup_cons_ne _ _ _ _ hk, ih]

theorem lookup_mapAppend_self (m : List (String × List String)) (k v : String) :
    (mapAppend m k v).lookup k = some ((m.lookup k).getD [] ++ [v]) := by
  unfold mapAppend
  cases hl : m.lookup k with
  | none =>
    simp only [Option.getD_none, List.nil_append]
    rw [assoc_lookup_append_singleton, hl]
    simp
  | some vs =>
    simp only [Option.getD_some]
    exact assoc_lookup_map_replace_self m k _
      (List.mem_map.mpr ⟨(k, vs), assoc_mem_of_lookup m k vs hl, rfl⟩)

theorem lookup_mapAppend_other (m : List (String × List String)) (k v k' : String)
    (hne : k' ≠ k) : (mapAppend m k v).lookup k' = m.lookup k' := by
  unfold mapAppend
  cases hl : m.lookup k with
  | none =>
    simp only
    rw [assoc_lookup_append_singleton]
    cases m.lookup k' with
    | none => simp [hne]
    | some x => rfl
  | some vs => exact assoc_lookup_map_replace_other m k _ k' hne

theorem keys_mapAppend (m : List (String × List String)) (k v : String) :
    (mapAppend m k v).map Prod.fst =
      if k ∈ m.map Prod.fst then m.map Prod.fst else m.map Prod.fst ++ [k] := by
  unfold mapAppend
  cases hl : m.lookup k with
  | none =>
    rw [if_neg ((assoc_lookup_none_iff m k).mp hl)]
    simp
  | some vs =>
    rw [if_pos (List.mem_map.mpr ⟨(k, vs), assoc_mem_of_lookup m k vs hl, rfl⟩)]
    simp only [List.map_map]
    apply List.map_congr_left
    intro e _
    by_cases he : e.1 = k
    · simp [he]
    · simp [he]

theorem nodup_keys_mapAppend (m : List (String × List String)) (k v : String)
    (h : (m.map Prod.fst).Nodup) : ((mapAppend m k v).map Prod.fst).Nodup := by
  rw [keys_mapAppend]
  split
  · exact h
  · rename_i hk
    rw [List.nodup_append]
    refine ⟨h, List.nodup_singleton k, ?_⟩
    intro a ha hb
    rw [List.mem_singleton] at hb
    subst hb
    exact hk ha

theorem foldl_filter_skip {α β : Type} (f : β → α → β) (p : α → Bool)
    (hskip : ∀ acc e, p e = false → f acc e = acc) (l : List α) (acc : β) :
    (l.filter p).foldl f acc = l.foldl f acc := by
  induction l generalizing acc with
  | nil => rfl
  | cons e rest ih =>
    cases hp : p e with
    | true => rw [List.filter_cons_of_pos (by simpa using hp), List.foldl_cons, List.foldl_cons, ih]
    | false =>
      rw [List.filter_cons_of_neg (by simp [hp]), List.foldl_cons, hskip acc e hp, ih]

theorem ParsePluginID_error_of_no_at (id : String) (h : stringsContains id '@' = false) :
    ParsePluginID id =
      .error ("invalid plugin ID format: " ++ id ++ " (expected name@marketplace)") := by
  apply ParsePluginID_of_not_mem
  intro hmem
  rw [(stringsContains_iff id '@').mpr hmem] at h
  cases h

/-- The slice that ByMarketplace holds for a marketplace is the list that
PluginsForMarketplace returns for it. -/
theorem ByMarketplace_lookup (ip : InstalledPlugins) (mp : String) :
    (ip.ByMarketplace.lookup mp).getD [] = ip.PluginsForMarketplace mp := by
  have key : ∀ (l : List (String × List PluginInstall)) (acc : List (String × List String)),
      ((l.foldl (fun result entry =>
          match ParsePluginID entry.1 with
          | .error _ => result
          | .ok parsed => mapAppend result parsed.Marketplace parsed.Name) acc).lookup mp).getD [] =
        (acc.lookup mp).getD [] ++ l.filterMap (fun entry =>
          match ParsePluginID entry.1 with
          | .error _ => none
          | .ok parsed => if parsed.Marketplace = mp then some parsed.Name else none) := by
    intro l
    induction l with
    | nil => intro acc; simp
    | cons e rest ih =>
      intro acc
      rw [List.foldl_cons, ih, List.filterMap_cons]
      cases hp : ParsePluginID e.1 with
      | error msg => simp only
      | ok parsed =>
        simp only
        by_cases hm : parsed.Marketplace = mp
        · subst hm
          rw [if_pos rfl, lookup_mapAppend_self]
          simp
        · rw [if_neg hm, lookup_mapAppend_other _ _ _ _ (fun e => hm e.symm)]
  unfold InstalledPlugins.ByMarketplace InstalledPlugins.PluginsForMarketplace
  rw [key]
  simp

/-- C26 (as stated, refuted): All() does not parse the keys; the key `broken` of
the sample inventory has no `@`, fails to parse, and is an element of All(). -/
theorem All_keeps_unparsable_counterexample :
    "broken" ∈ sampleInventory.Plugins.map Prod.fst ∧
    stringsContains "broken" '@' = false ∧
    ParsePluginID "broken" =
      .error "invalid plugin ID format: broken (expected name@marketplace)" ∧
    "broken" ∈ sampleInventory.All ∧
    sampleInventory.All = ["trivy@mp1", "snyk@mp1", "trivy@mp2", "broken"] :=
  ⟨by decide, by decide, rfl, by decide, by decide⟩

/-- C26 (amended): PluginsForMarketplace and ByMarketplace skip the IDs that
fail to parse as name@alias: their results are those for the inventory without
the keys that have no `@`, every name listed for a marketplace comes from the
key `name@marketplace`, and ByMarketplace holds for each marketplace the list
of PluginsForMarketplace.  All() skips nothing: it returns every key, also
those without an `@`. -/
theorem listings_skip_unparsable (ip : InstalledPlugins) (mp : String) :
    ip.PluginsForMarketplace mp =
      InstalledPlugins.PluginsForMarketplace
        { ip with Plugins := ip.Plugins.filter (fun e => stringsContains e.1 '@') } mp ∧
    ip.ByMarketplace =
      InstalledPlugins.ByMarketplace
        { ip with Plugins := ip.Plugins.filter (fun e => stringsContains e.1 '@') } ∧
    (∀ n, n ∈ ip.PluginsForMarketplace mp →
      n ++ "@" ++ mp ∈ ip.Plugins.map Prod.fst ∧ stringsContains (n ++ "@" ++ mp) '@' = true) ∧
    (∀ names n, ip.ByMarketplace.lookup mp = some names → n ∈ names →
      n ++ "@" ++ mp ∈ ip.Plugins.map Prod.fst ∧ stringsContains (n ++ "@" ++ mp) '@' = true) ∧
    (ip.ByMarketplace.lookup mp).getD [] = ip.PluginsForMarketplace mp ∧
    ip.All = ip.Plugins.map Prod.fst := by
  have hmem : ∀ n, n ∈ ip.PluginsForMarketplace mp →
      n ++ "@" ++ mp ∈ ip.Plugins.map Prod.fst ∧
        stringsContains (n ++ "@" ++ mp) '@' = true := by
    intro n hn
    unfold InstalledPlugins.PluginsForMarketplace at hn
    obtain ⟨e, he, hval⟩ := List.mem_filterMap.mp hn
    cases hp : ParsePluginID e.1 with
    | error msg => simp [hp] at hval
    | ok parsed =>
      simp only [hp] at hval
      by_cases hm : parsed.Marketplace = mp
      · rw [if_pos hm] at hval
        have hname : parsed.Name = n := Option.some.inj hval
        have hat : '@' ∈ e.1.data := by
          by_contra hno
          rw [ParsePluginID_of_not_mem e.1 hno] at hp
          cases hp
        obtain ⟨p, hp2, _, _, hfull, _, _⟩ := ParsePluginID_ok_of_mem e.1 hat
        rw [hp] at hp2
        have hpp : parsed = p := Except.ok.inj hp2
        subst hpp
        rw [hname, hm] at hfull
        rw [hfull]
        exact ⟨List.mem_map.mpr ⟨e, he, rfl⟩, (stringsContains_iff e.1 '@').mpr hat⟩
      · rw [if_neg hm] at hval
        cases hval
  refine ⟨?_, ?_, hmem, ?_, ByMarketplace_lookup ip mp, All_eq_keys ip⟩
  · unfold InstalledPlugins.PluginsForMarketplace
    simp only
    rw [List.filterMap_filter]
    apply List.filterMap_congr
    intro e _
    cases hc : stringsContains e.1 '@' with
    | true => simp
    | false => simp [ParsePluginID_error_of_no_at e.1 hc]
  · unfold InstalledPlugins.ByMarketplace
    simp only
    rw [foldl_filter_skip]
    intro acc e hc
    simp only [ParsePluginID_error_of_no_at e.1 hc]
  · intro names n hl hn
    apply hmem
    rw [← ByMarketplace_lookup, hl]
    exact hn

/-- C26 (amended) on the sample inventory: the key `broken` contributes to no
listing by marketplace, and is an element of All(). -/
theorem listings_skip_unparsable_witness :
    sampleInventory.PluginsForMarketplace "mp1" = ["trivy", "snyk"] ∧
    sampleInventory.ByMarketplace = [("mp1", ["trivy", "snyk"]), ("mp2", ["trivy"])] ∧
    sampleInventory.All = ["trivy@mp1", "snyk@mp1", "trivy@mp2", "broken"] :=
  ⟨(listings_skip_unparsable sampleInventory "mp1").1.trans (by decide),
   (listings_skip_unparsable sampleInventory "mp1").2.1.trans (by decide),
   (listings_skip_unparsable sampleInventory "mp1").2.2.2.2.2⟩

/-! ## C30: reinstall --all -/

/-- The names of PluginsForMarketplace, formatted as `name@alias`, are the
inventory keys that parse with that marketplace, in the same order. -/
theorem PluginsForMarketplace_format (ip : InstalledPlugins) (aliasName : String) :
    (ip.PluginsForMarketplace aliasName).map (fun p => p ++ "@" ++ aliasName) =
      keysOfMarketplace ip aliasName := by
  unfold InstalledPlugins.PluginsForMarketplace keysOfMarketplace
  induction ip.Plugins with
  | nil => rfl
  | cons e rest ih =>
    rw [List.filterMap_cons, List.map_cons, List.filter_cons]
    by_cases hat : '@' ∈ e.1.data
    · obtain ⟨p, hp, _, _, hcat, _, _⟩ := ParsePluginID_ok_of_mem e.1 hat
      by_cases hm : p.Marketplace = aliasName
      · have hpw : parsesWithMarketplace aliasName e.1 = true := by
          simp [parsesWithMarketplace, hp, hm]
        rw [hpw, if_pos rfl]
        simp only [hp, if_pos hm, List.map_cons, ih]
        rw [← hm, hcat]
      · have hpw : parsesWithMarketplace aliasName e.1 = false := by
          simp [parsesWithMarketplace, hp, hm]
        rw [hpw]
        simp only [hp, if_neg hm, ih]
        simp
    · have hpw : parsesWithMarketplace aliasName e.1 = false := by
        simp [parsesWithMarketplace, ParsePluginID_of_not_mem e.1 hat]
      rw [hpw]
      simp only [ParsePluginID_of_not_mem e.1 hat, ih]
      simp

theorem mem_keysOfMarketplace (ip : InstalledPlugins) (aliasName id : String)
    (h : id ∈ keysOfMarketplace ip aliasName) :
    id ∈ ip.Plugins.map Prod.fst ∧ '@' ∈ id.data ∧
    ∃ p, ParsePluginID id = .ok p ∧ p.Marketplace = aliasName ∧
      p.Name ++ "@" ++ aliasName = id := by
  unfold keysOfMarketplace at h
  obtain ⟨hkey, hpw⟩ := List.mem_filter.mp h
  have hat : '@' ∈ id.data := by
    by_contra hno
    simp [parsesWithMarketplace, ParsePluginID_of_not_mem id hno] at hpw
  obtain ⟨p, hp, _, _, hcat, _, _⟩ := ParsePluginID_ok_of_mem id hat
  have hm : p.Marketplace = aliasName := by
    simpa [parsesWithMarketplace, hp] using hpw
  exact ⟨hkey, hat, p, hp, hm, by rw [← hm, hcat]⟩

/-- A spec that contains `@` is resolved to the pair of its parse, whatever the
inventory pointer. -/
theorem parsePluginSpec_of_ParsePluginID (spec : String) (p : PluginID)
    (installed : Option InstalledPlugins) (hp : ParsePluginID spec = .ok p) :
    parsePluginSpec spec installed = .ok (p.Name, p.Marketplace) := by
  have hat : '@' ∈ spec.data := by
    by_contra hno
    rw [ParsePluginID_of_not_mem spec hno] at hp
    cases hp
  obtain ⟨a, b, hsplit, _, _⟩ := stringsSplitN2_of_mem spec '@' hat
  have hp2 : ParsePluginID spec =
      .ok { Name := String.mk a, Marketplace := String.mk b, Full := spec } := by
    simp [ParsePluginID, hsplit]
  rw [hp] at hp2
  have := Except.ok.inj hp2
  subst this
  unfold parsePluginSpec
  rw [(stringsContains_iff spec '@').mpr hat]
  simp [hsplit]

/-- Outside dry-run the loop of runReinstall over specs that all contain `@`
runs one uninstall and one install per spec, on the spec itself, in order. -/
theorem runReinstall_loop_calls {W : Type} (sys : Sys W)
    (installed : Option InstalledPlugins) (specs : List String) (t : Tally W)
    (hat : ∀ spec ∈ specs, '@' ∈ spec.data) :
    claudeCalls (runReinstall.loop sys false installed specs t).events =
      claudeCalls t.events ++
        specs.flatMap (fun id => [["plugin", "uninstall", id], ["plugin", "install", id]]) ∧
    (runReinstall.loop sys false installed specs t).panicked = t.panicked := by
  induction specs generalizing t with
  | nil => simp [runReinstall.loop]
  | cons spec rest ih =>
    have hspec : '@' ∈ spec.data := hat spec (List.mem_cons_self _ _)
    have hrest : ∀ s ∈ rest, '@' ∈ s.data := fun s hs => hat s (List.mem_cons_of_mem _ hs)
    obtain ⟨p, hp, _, _, hcat, _, _⟩ := ParsePluginID_ok_of_mem spec hspec
    have hparse := parsePluginSpec_of_ParsePluginID spec p installed hp
    unfold runReinstall.loop
    rw [hparse]
    simp only [hcat, Bool.false_eq_true, if_false]
    cases (PluginReinstall sys t.world spec).val with
    | none =>
      simp only
      obtain ⟨h1, h2⟩ := ih { t with world := (PluginReinstall sys t.world spec).world,
                                     events := t.events ++ (PluginReinstall sys t.world spec).events }
        hrest
      rw [h1, h2, claudeCalls_append, claudeCalls_PluginReinstall]
      simp [List.flatMap_cons]
    | some e =>
      simp only
      obtain ⟨h1, h2⟩ := ih { t with world := (PluginReinstall sys t.world spec).world,
                                     events := t.events ++ (PluginReinstall sys t.world spec).events,
                                     failed := t.failed + 1 }
        hrest
      rw [h1, h2, claudeCalls_append, claudeCalls_PluginReinstall]
      simp [List.flatMap_cons]

/-- C30: for an inventory that loads and a non-empty alias A, the specs that
`reinstall --all A` builds from PluginsForMarketplace(A) are the inventory keys
that parse with marketplace A, one per key and in their order; parsePluginSpec
resolves each to a name and A whose `name@A` is the key again; and outside
dry-run the host commands are one uninstall and one install for each of these
keys and for nothing else.  When no key parses with A nothing is run. -/
theorem reinstall_all_acts_on_keys {W : Type} (sys : Sys W) (g : Globals) (A : String)
    (args : List String) (w : W) (inv : InstalledPlugins)
    (hA : A ≠ "") (hload : LoadInstalled sys w = .ok inv) :
    (inv.PluginsForMarketplace A).map (fun p => p ++ "@" ++ A) = keysOfMarketplace inv A ∧
    (keysOfMarketplace inv A ≠ [] →
      runReinstall.specs sys A args w = .ok (keysOfMarketplace inv A)) ∧
    (∀ id ∈ keysOfMarketplace inv A,
      id ∈ inv.Plugins.map Prod.fst ∧
      ∃ name, parsePluginSpec id (loadInstalledOrNil sys w) = .ok (name, A) ∧
        name ++ "@" ++ A = id) ∧
    (g.dryRun = false →
      claudeCalls (runReinstall sys g A args w).events =
        (keysOfMarketplace inv A).flatMap
          (fun id => [["plugin", "uninstall", id], ["plugin", "install", id]])) ∧
    (keysOfMarketplace inv A = [] →
      (runReinstall sys g A args w).events = [] ∧
      (runReinstall sys g A args w).val = .ok ()) := by
  have hfmt := PluginsForMarketplace_format inv A
  have hlen : (inv.PluginsForMarketplace A).length = (keysOfMarketplace inv A).length := by
    rw [← hfmt, List.length_map]
  have hspecs : keysOfMarketplace inv A ≠ [] →
      runReinstall.specs sys A args w = .ok (keysOfMarketplace inv A) := by
    intro hne
    unfold runReinstall.specs
    rw [if_pos hA, hload]
    simp only
    rw [if_neg, hfmt]
    rw [hlen]
    exact fun h => hne (List.length_eq_zero.mp h)
  have hempty : keysOfMarketplace inv A = [] →
      runReinstall.specs sys A args w = .error (.ok ()) := by
    intro he
    unfold runReinstall.specs
    rw [if_pos hA, hload]
    simp only
    rw [if_pos]
    rw [hlen, he]
    rfl
  refine ⟨hfmt, hspecs, ?_, ?_, ?_⟩
  · intro id hid
    obtain ⟨hkey, _, p, hp, hm, hcat⟩ := mem_keysOfMarketplace inv A id hid
    refine ⟨hkey, p.Name, ?_, hcat⟩
    rw [parsePluginSpec_of_ParsePluginID id p _ hp, hm]
  · intro hdry
    by_cases he : keysOfMarketplace inv A = []
    · unfold runReinstall
      rw [hempty he, he]
      rfl
    · rw [(runReinstall_events_world sys g A args w _ (hspecs he)).1, hdry]
      rw [(runReinstall_loop_calls sys _ _ _
        (fun spec hs => (mem_keysOfMarketplace inv A spec hs).2.1)).1]
      simp [claudeCalls_nil]
  · intro he
    unfold runReinstall
    rw [hempty he]
    exact ⟨rfl, rfl⟩

/-- C30 on the sample system: `reinstall --all mp1` acts on `trivy@mp1` and
`snyk@mp1`, the two keys of the sample inventory that parse with `mp1`. -/
theorem reinstall_all_acts_on_keys_witness :
    LoadInstalled sampleSys [] = .ok sampleInventory ∧
    keysOfMarketplace sampleInventory "mp1" = ["trivy@mp1", "snyk@mp1"] ∧
    runReinstall.specs sampleSys "mp1" [] [] = .ok ["trivy@mp1", "snyk@mp1"] ∧
    claudeCalls (runReinstall sampleSys (sampleGlobals false) "mp1" [] []).events =
      [["plugin", "uninstall", "trivy@mp1"], ["plugin", "install", "trivy@mp1"],
       ["plugin", "uninstall", "snyk@mp1"], ["plugin", "install", "snyk@mp1"]] :=
  ⟨rfl, by decide,
   (reinstall_all_acts_on_keys sampleSys (sampleGlobals false) "mp1" [] [] sampleInventory
      (by decide) rfl).2.1 (by decide),
   (reinstall_all_acts_on_keys sampleSys (sampleGlobals false) "mp1" [] [] sampleInventory
      (by decide) rfl).2.2.2.1 rfl⟩

/-! ## C28: check-conflicts -/

theorem hasBareName_iff_bareNameOf (name id : String) :
    hasBareName name id = true ↔ bareNameOf id = some name := by
  unfold hasBareName bareNameOf
  cases ParsePluginID id with
  | error e => simp
  | ok p => simp

/-- The map `pluginsByName` has distinct keys and holds for each name the IDs
with that bare name, in iteration order. -/
theorem pluginsByName_fold (l : List String) (acc : List (String × List String))
    (hnd : (acc.map Prod.fst).Nodup) :
    ((l.foldl (fun m id =>
        match ParsePluginID id with
        | .error _ => m
        | .ok parsed => mapAppend m parsed.Name id) acc).map Prod.fst).Nodup ∧
    ∀ name, ((l.foldl (fun m id =>
        match ParsePluginID id with
        | .error _ => m
        | .ok parsed => mapAppend m parsed.Name id) acc).lookup name).getD [] =
      (acc.lookup name).getD [] ++ l.filter (hasBareName name) := by
  induction l generalizing acc with
  | nil => exact ⟨hnd, fun name => by simp⟩
  | cons id rest ih =>
    rw [List.foldl_cons]
    cases hp : ParsePluginID id with
    | error e =>
      simp only
      refine ⟨(ih acc hnd).1, fun name => ?_⟩
      rw [(ih acc hnd).2 name, List.filter_cons_of_neg]
      simp [hasBareName, hp]
    | ok p =>
      simp only
      have hnd2 := nodup_keys_mapAppend acc p.Name id hnd
      refine ⟨(ih _ hnd2).1, fun name => ?_⟩
      rw [(ih _ hnd2).2 name]
      by_cases hn : p.Name = name
      · subst hn
        rw [lookup_mapAppend_self, List.filter_cons_of_pos (by simp [hasBareName, hp])]
        simp
      · rw [lookup_mapAppend_other _ _ _ _ (fun e => hn e.symm),
          List.filter_cons_of_neg (by simp [hasBareName, hp, hn])]

theorem pluginsByName_lookup (installed : InstalledPlugins) (name : String) :
    ((runCheckConflicts.pluginsByName installed).lookup name).getD [] =
      matchingIDs name installed := by
  unfold runCheckConflicts.pluginsByName matchingIDs
  rw [(pluginsByName_fold installed.All [] List.nodup_nil).2 name, All_eq_keys]
  simp

theorem pluginsByName_nodup (installed : InstalledPlugins) :
    ((runCheckConflicts.pluginsByName installed).map Prod.fst).Nodup :=
  (pluginsByName_fold installed.All [] List.nodup_nil).1

theorem mem_duplicates_unsorted (installed : InstalledPlugins) (name : String) :
    name ∈ ((runCheckConflicts.pluginsByName installed).filter
        (fun e => e.2.length > 1)).map Prod.fst ↔
      2 ≤ (matchingIDs name installed).length := by
  rw [← pluginsByName_lookup]
  constructor
  · intro h
    obtain ⟨e, he, hname⟩ := List.mem_map.mp h
    obtain ⟨hmem, hlen⟩ := List.mem_filter.mp he
    obtain ⟨k, vs⟩ := e
    simp only at hname
    subst hname
    rw [assoc_lookup_of_mem_nodup _ _ _ (pluginsByName_nodup installed) hmem]
    simpa using hlen
  · intro h
    cases hl : (runCheckConflicts.pluginsByName installed).lookup name with
    | none => simp [hl] at h
    | some vs =>
      rw [hl] at h
      exact List.mem_map.mpr ⟨(name, vs),
        List.mem_filter.mpr ⟨assoc_mem_of_lookup _ _ _ hl, by simpa using h⟩, rfl⟩

theorem mem_duplicatedNames (installed : InstalledPlugins) (name : String) :
    name ∈ duplicatedNames installed ↔ 2 ≤ (matchingIDs name installed).length := by
  unfold duplicatedNames
  rw [List.mem_filter, List.mem_dedup]
  constructor
  · intro h
    simpa using h.2
  · intro h
    refine ⟨?_, by simpa using h⟩
    have hne : matchingIDs name installed ≠ [] := by
      intro he
      rw [he] at h
      simp at h
    obtain ⟨id, hid⟩ := List.exists_mem_of_ne_nil _ hne
    unfold matchingIDs at hid
    obtain ⟨hkey, hb⟩ := List.mem_filter.mp hid
    exact List.mem_filterMap.mpr ⟨id, hkey, (hasBareName_iff_bareNameOf name id).mp hb⟩

theorem duplicates_length (installed : InstalledPlugins) :
    (runCheckConflicts.duplicates installed).length = (duplicatedNames installed).length := by
  unfold runCheckConflicts.duplicates
  rw [(sortStrings_perm _).length_eq]
  apply List.Perm.length_eq
  rw [List.perm_ext_iff_of_nodup]
  · intro name
    rw [mem_duplicates_unsorted, mem_duplicatedNames]
  · exact (pluginsByName_nodup installed).sublist ((List.filter_sublist _).map Prod.fst)
  · unfold duplicatedNames
    exact (List.nodup_dedup _).filter _

theorem matching_nonempty_iff (EqualFold : String → String → Bool)
    (installed : InstalledPlugins) (aliasName : String) :
    0 < (runCheckConflicts.matching EqualFold installed aliasName).length ↔
      aliasMatchesPlugin EqualFold installed aliasName = true := by
  unfold runCheckConflicts.matching aliasMatchesPlugin
  induction installed.Plugins with
  | nil => simp
  | cons e rest ih =>
    rw [List.filterMap_cons, List.map_cons, List.any_cons]
    cases hp : ParsePluginID e.1 with
    | error msg =>
      simp only [Bool.false_or]
      exact ih
    | ok p =>
      simp only
      cases hf : EqualFold p.Name aliasName with
      | true => simp
      | false =>
        simp only [Bool.false_eq_true, if_false, Bool.false_or]
        exact ih

theorem count_duplicates_loop (l : List String) (st : ConflictCounters) :
    l.foldl (fun st _ => { st with conflictsFound := st.conflictsFound + 1 }) st =
      { st with conflictsFound := st.conflictsFound + l.length } := by
  induction l generalizing st with
  | nil => rfl
  | cons x rest ih =>
    rw [List.foldl_cons, ih]
    simp only [List.length_cons]
    congr 1
    omega

theorem count_alias_loop (p : String → Bool) (l : List String) (st : ConflictCounters) :
    (l.foldl (fun st repo =>
        if p repo = true then
          { aliasConflicts := st.aliasConflicts + 1, conflictsFound := st.conflictsFound + 1 }
        else st) st).conflictsFound = st.conflictsFound + (l.filter p).length := by
  induction l generalizing st with
  | nil => simp
  | cons x rest ih =>
    rw [List.foldl_cons, ih]
    cases hp : p x with
    | true =>
      simp only [if_true, List.filter_cons_of_pos hp, List.length_cons]
      omega
    | false =>
      rw [List.filter_cons_of_neg (by simp [hp])]
      simp

/-- The counter `conflictsFound` at the end of runCheckConflicts. -/
theorem count_conflictsFound (EqualFold : String → String → Bool) (cfg : Config)
    (installed : InstalledPlugins) :
    (runCheckConflicts.count EqualFold cfg installed).conflictsFound =
      (duplicatedNames installed).length +
        (conflictingRepos EqualFold cfg installed).length := by
  unfold runCheckConflicts.count
  simp only
  have hfun : (fun (st : ConflictCounters) (repo : String) =>
        if (runCheckConflicts.matching EqualFold installed (cfg.GetAlias repo)).length > 0 then
          ({ aliasConflicts := st.aliasConflicts + 1,
             conflictsFound := st.conflictsFound + 1 } : ConflictCounters)
        else st) =
      (fun st repo =>
        if (fun repo => aliasMatchesPlugin EqualFold installed (cfg.GetAlias repo)) repo = true
        then { aliasConflicts := st.aliasConflicts + 1, conflictsFound := st.conflictsFound + 1 }
        else st) := by
    funext st repo
    by_cases h : aliasMatchesPlugin EqualFold installed (cfg.GetAlias repo) = true
    · rw [if_pos ((matching_nonempty_iff EqualFold installed _).mpr h), if_pos h]
    · rw [if_neg (fun hh => h ((matching_nonempty_iff EqualFold installed _).mp hh)), if_neg h]
  rw [hfun, count_alias_loop, count_duplicates_loop, duplicates_length]
  simp only [Nat.zero_add]
  unfold conflictingRepos
  rw [((sortStrings_perm cfg.Repos).filter _).length_eq]

theorem two_le_length_iff_of_nodup (l : List String) (hnd : l.Nodup) :
    2 ≤ l.length ↔ ∃ a b, a ∈ l ∧ b ∈ l ∧ a ≠ b := by
  constructor
  · intro h
    match l, hnd, h with
    | a :: b :: rest, hnd, _ =>
      refine ⟨a, b, by simp, by simp, ?_⟩
      intro e
      subst e
      simp at hnd
  · rintro ⟨a, b, ha, hb, hne⟩
    match l, ha, hb with
    | [x], ha, hb =>
      simp at ha hb
      exact absurd (ha.trans hb.symm) hne
    | x :: y :: rest, _, _ => simp

/-- The result of runCheckConflicts on an inventory that loaded: the error
`<n> conflict(s) found` for the number n of duplicated names and of configured
repos whose alias matches a plugin name, nil when n is 0. -/
theorem runCheckConflicts_of_loaded {W : Type} (sys : Sys W) (EqualFold : String → String → Bool)
    (cfg : Config) (w : W) (installed : InstalledPlugins)
    (hload : LoadInstalled sys w = .ok installed) (hwf : installed.WellFormed) :
    (runCheckConflicts sys EqualFold cfg w =
      if (duplicatedNames installed).length +
          (conflictingRepos EqualFold cfg installed).length = 0 then .ok ()
      else .err (toString ((duplicatedNames installed).length +
          (conflictingRepos EqualFold cfg installed).length) ++ " conflict(s) found")) ∧
    ((∃ msg, runCheckConflicts sys EqualFold cfg w = .err msg) ↔
      (∃ name id1 id2, id1 ∈ installed.Plugins.map Prod.fst ∧
        id2 ∈ installed.Plugins.map Prod.fst ∧ id1 ≠ id2 ∧
        hasBareName name id1 = true ∧ hasBareName name id2 = true) ∨
      (∃ repo ∈ cfg.Repos, ∃ id ∈ installed.Plugins.map Prod.fst, ∃ name,
        hasBareName name id = true ∧ EqualFold name (cfg.GetAlias repo) = true)) ∧
    (duplicatedNames installed).Nodup ∧
    (∀ name, name ∈ duplicatedNames installed ↔
      ∃ id1 id2, id1 ∈ installed.Plugins.map Prod.fst ∧
        id2 ∈ installed.Plugins.map Prod.fst ∧ id1 ≠ id2 ∧
        hasBareName name id1 = true ∧ hasBareName name id2 = true) ∧
    (∀ repo, repo ∈ conflictingRepos EqualFold cfg installed ↔
      repo ∈ cfg.Repos ∧ ∃ id ∈ installed.Plugins.map Prod.fst, ∃ name,
        hasBareName name id = true ∧ EqualFold name (cfg.GetAlias repo) = true) := by
  have hval : runCheckConflicts sys EqualFold cfg w =
      if (duplicatedNames installed).length +
          (conflictingRepos EqualFold cfg installed).length = 0 then .ok ()
      else .err (toString ((duplicatedNames installed).length +
          (conflictingRepos EqualFold cfg installed).length) ++ " conflict(s) found") := by
    unfold runCheckConflicts
    rw [hload]
    simp only [count_conflictsFound]
  have hdup : ∀ name, name ∈ duplicatedNames installed ↔
      ∃ id1 id2, id1 ∈ installed.Plugins.map Prod.fst ∧
        id2 ∈ installed.Plugins.map Prod.fst ∧ id1 ≠ id2 ∧
        hasBareName name id1 = true ∧ hasBareName name id2 = true := by
    intro name
    rw [mem_duplicatedNames]
    unfold matchingIDs
    rw [two_le_length_iff_of_nodup _ (List.Nodup.filter _ hwf)]
    constructor
    · rintro ⟨a, b, ha, hb, hne⟩
      obtain ⟨ha1, ha2⟩ := List.mem_filter.mp ha
      obtain ⟨hb1, hb2⟩ := List.mem_filter.mp hb
      exact ⟨a, b, ha1, hb1, hne, ha2, hb2⟩
    · rintro ⟨a, b, ha1, hb1, hne, ha2, hb2⟩
      exact ⟨a, b, List.mem_filter.mpr ⟨ha1, ha2⟩, List.mem_filter.mpr ⟨hb1, hb2⟩, hne⟩
  have hrepo : ∀ repo, repo ∈ conflictingRepos EqualFold cfg installed ↔
      repo ∈ cfg.Repos ∧ ∃ id ∈ installed.Plugins.map Prod.fst, ∃ name,
        hasBareName name id = true ∧ EqualFold name (cfg.GetAlias repo) = true := by
    intro repo
    unfold conflictingRepos aliasMatchesPlugin
    rw [List.mem_filter, List.any_eq_true]
    apply and_congr_right
    intro _
    constructor
    · rintro ⟨id, hid, h⟩
      cases hp : ParsePluginID id with
      | error e => simp [hp] at h
      | ok p =>
        simp only [hp] at h
        exact ⟨id, hid, p.Name, by simp [hasBareName, hp], h⟩
    · rintro ⟨id, hid, name, hb, hf⟩
      refine ⟨id, hid, ?_⟩
      cases hp : ParsePluginID id with
      | error e => simp [hasBareName, hp] at hb
      | ok p =>
        simp only [hasBareName, hp, decide_eq_true_eq] at hb
        simp only
        rw [hb]
        exact hf
  refine ⟨hval, ?_, ?_, hdup, hrepo⟩
  · rw [hval]
    constructor
    · rintro ⟨msg, hmsg⟩
      by_cases h0 : (duplicatedNames installed).length +
          (conflictingRepos EqualFold cfg installed).length = 0
      · rw [if_pos h0] at hmsg
        cases hmsg
      · by_cases hd : duplicatedNames installed = []
        · right
          have hc : conflictingRepos EqualFold cfg installed ≠ [] := by
            intro hc
            rw [hd, hc] at h0
            exact h0 rfl
          obtain ⟨repo, hr⟩ := List.exists_mem_of_ne_nil _ hc
          exact ⟨repo, ((hrepo repo).mp hr).1, ((hrepo repo).mp hr).2⟩
        · left
          obtain ⟨name, hn⟩ := List.exists_mem_of_ne_nil _ hd
          exact ⟨name, (hdup name).mp hn⟩
    · intro h
      have hpos : (duplicatedNames installed).length +
          (conflictingRepos EqualFold cfg installed).length ≠ 0 := by
        rcases h with ⟨name, hn⟩ | ⟨repo, hr, hx⟩
        · have := List.length_pos_of_mem ((hdup name).mpr hn)
          omega
        · have := List.length_pos_of_mem ((hrepo repo).mpr ⟨hr, hx⟩)
          omega
      rw [if_neg hpos]
      exact ⟨_, rfl⟩
  · unfold duplicatedNames
    exact (List.nodup_dedup _).filter _

/-- C28 (as stated, refuted): with an inventory file that does not parse and an
empty config there is no installed ID and no configured alias, hence no
conflict, and check-conflicts returns an error; the error is not a count of
conflicts. -/
theorem runCheckConflicts_load_failure_counterexample :
    LoadInstalled
        { sampleSys with unmarshalInstalled := fun _ => .error "unexpected end of JSON input" }
        [] = .error "parsing installed plugins: unexpected end of JSON input" ∧
    emptyConfig.Repos = [] ∧
    runCheckConflicts
        { sampleSys with unmarshalInstalled := fun _ => .error "unexpected end of JSON input" }
        sampleEqualFold emptyConfig [] =
      .err "loading installed plugins: parsing installed plugins: unexpected end of JSON input" :=
  ⟨rfl, rfl, rfl⟩

/-- C28 (amended): when the inventory loads, check-conflicts returns an error
exactly when a conflict exists, that is when some bare name is the name of two
different installed IDs or the alias of some configured repo equals, ignoring
case (EqualFold), the bare name of an installed ID; the error is
`<n> conflict(s) found` with n the number of duplicated names plus the number
of configured repos with such an alias, and nil is returned when n is 0.  When
the inventory does not load, the error of the load is returned, whatever the
conflicts. -/
theorem runCheckConflicts_spec {W : Type} (sys : Sys W) (EqualFold : String → String → Bool)
    (cfg : Config) (w : W) :
    (∀ installed, LoadInstalled sys w = .ok installed → installed.WellFormed →
      (runCheckConflicts sys EqualFold cfg w =
        if (duplicatedNames installed).length +
            (conflictingRepos EqualFold cfg installed).length = 0 then .ok ()
        else .err (toString ((duplicatedNames installed).length +
            (conflictingRepos EqualFold cfg installed).length) ++ " conflict(s) found")) ∧
      ((∃ msg, runCheckConflicts sys EqualFold cfg w = .err msg) ↔
        (∃ name id1 id2, id1 ∈ installed.Plugins.map Prod.fst ∧
          id2 ∈ installed.Plugins.map Prod.fst ∧ id1 ≠ id2 ∧
          hasBareName name id1 = true ∧ hasBareName name id2 = true) ∨
        (∃ repo ∈ cfg.Repos, ∃ id ∈ installed.Plugins.map Prod.fst, ∃ name,
          hasBareName name id = true ∧ EqualFold name (cfg.GetAlias repo) = true)) ∧
      (duplicatedNames installed).Nodup ∧
      (∀ name, name ∈ duplicatedNames installed ↔
        ∃ id1 id2, id1 ∈ installed.Plugins.map Prod.fst ∧
          id2 ∈ installed.Plugins.map Prod.fst ∧ id1 ≠ id2 ∧
          hasBareName name id1 = true ∧ hasBareName name id2 = true) ∧
      (∀ repo, repo ∈ conflictingRepos EqualFold cfg installed ↔
        repo ∈ cfg.Repos ∧ ∃ id ∈ installed.Plugins.map Prod.fst, ∃ name,
          hasBareName name id = true ∧ EqualFold name (cfg.GetAlias repo) = true)) ∧
    (∀ e, LoadInstalled sys w = .error e →
      runCheckConflicts sys EqualFold cfg w = .err ("loading installed plugins: " ++ e)) := by
  refine ⟨fun installed hload hwf =>
    runCheckConflicts_of_loaded sys EqualFold cfg w installed hload hwf, ?_⟩
  intro e he
  unfold runCheckConflicts
  rw [he]

/-- C28 (amended) on the sample inventory (`trivy` installed from `mp1` and
`mp2`) with a config whose alias `Snyk` matches the plugin `snyk`: two
conflicts, one of each kind. -/
theorem runCheckConflicts_spec_witness :
    LoadInstalled sampleSys [] = .ok sampleInventory ∧
    sampleInventory.WellFormed ∧
    duplicatedNames sampleInventory = ["trivy"] ∧
    conflictingRepos sampleEqualFold snykConfig sampleInventory = ["org/snyk-tools"] ∧
    runCheckConflicts sampleSys sampleEqualFold snykConfig [] = .err "2 conflict(s) found" :=
  ⟨rfl, by unfold InstalledPlugins.WellFormed; decide, by decide, by decide,
   ((runCheckConflicts_spec sampleSys sampleEqualFold snykConfig []).1 sampleInventory rfl
      (by unfold InstalledPlugins.WellFormed; decide)).1.trans (by decide)⟩

/-! ## C29: discover -/

theorem GetAlias_AddMarketplace_self (c : Config) (repo aliasName : String) :
    (c.AddMarketplace repo aliasName).GetAlias repo = aliasName := by
  simp [Config.GetAlias, Config.AddMarketplace, lookup_mapAssign_self]

theorem GetAlias_AddMarketplace_other (c : Config) (repo aliasName repo' : String)
    (hne : repo' ≠ repo) :
    (c.AddMarketplace repo aliasName).GetAlias repo' = c.GetAlias repo' := by
  simp [Config.GetAlias, Config.AddMarketplace, lookup_mapAssign_other _ _ _ _ hne]

/-- One round of the loop of runDiscover: the entry is imported exactly when it
derives a repo for which the config of that moment returns no alias. -/
theorem runDiscover_loop_cons {W : Type} (sys : Sys W) (w : W) (pluginsDir : String)
    (entry : DirEntry) (rest : List DirEntry) (st : DiscoverState) :
    ∃ st', runDiscover.loop sys w pluginsDir (entry :: rest) st =
        runDiscover.loop sys w pluginsDir rest st' ∧
      ((importable sys w pluginsDir st.cfg entry = true ∧
          ∃ repo, derivedRepo sys w pluginsDir entry = some repo ∧ st.cfg.GetAlias repo = "" ∧
            st'.cfg = st.cfg.AddMarketplace repo entry.Name ∧
            st'.imported = st.imported + 1) ∨
       (importable sys w pluginsDir st.cfg entry = false ∧ st'.cfg = st.cfg ∧
          st'.imported = st.imported)) := by
  rw [runDiscover.loop]
  unfold importable derivedRepo
  cases hd : entry.IsDir with
  | false => exact ⟨st, by simp, Or.inr ⟨by simp, rfl, rfl⟩⟩
  | true =>
    simp only [Bool.not_true, Bool.false_eq_true, if_false, if_true]
    cases hg : sys.git w ["-C", sys.join [pluginsDir, entry.Name], "remote", "get-url", "origin"] with
    | none => exact ⟨_, rfl, Or.inr ⟨rfl, rfl, rfl⟩⟩
    | some out =>
      simp only
      by_cases hr : GetRepoFromRemote (stringsTrimSpace out) = ""
      · rw [if_pos hr]
        exact ⟨_, rfl, Or.inr ⟨by simp [hr], rfl, rfl⟩⟩
      · rw [if_neg hr]
        by_cases ha : st.cfg.GetAlias (GetRepoFromRemote (stringsTrimSpace out)) = ""
        · rw [if_neg (not_not.mpr ha)]
          exact ⟨_, rfl, Or.inl ⟨by simp [hr, ha], _, by simp [hr], ha, rfl, rfl⟩⟩
        · rw [if_pos ha]
          exact ⟨_, rfl, Or.inr ⟨by simp [hr, ha], rfl, rfl⟩⟩

/-- What the loop of runDiscover does to the config and to the counter
`imported`. -/
theorem runDiscover_loop_spec {W : Type} (sys : Sys W) (w : W) (pluginsDir : String)
    (entries : List DirEntry) (st : DiscoverState) :
    st.imported ≤ (runDiscover.loop sys w pluginsDir entries st).imported ∧
    (st.imported < (runDiscover.loop sys w pluginsDir entries st).imported ↔
      ∃ e ∈ entries, importable sys w pluginsDir st.cfg e = true) ∧
    ((runDiscover.loop sys w pluginsDir entries st).imported = st.imported →
      (runDiscover.loop sys w pluginsDir entries st).cfg = st.cfg) ∧
    (∀ repo, st.cfg.GetAlias repo ≠ "" →
      (runDiscover.loop sys w pluginsDir entries st).cfg.GetAlias repo = st.cfg.GetAlias repo) ∧
    (∀ repo,
      (runDiscover.loop sys w pluginsDir entries st).cfg.GetAlias repo ≠ st.cfg.GetAlias repo →
      ∃ e ∈ entries, derivedRepo sys w pluginsDir e = some repo ∧
        (runDiscover.loop sys w pluginsDir entries st).cfg.GetAlias repo = e.Name) := by
  induction entries generalizing st with
  | nil =>
    refine ⟨le_refl _, ?_, fun _ => rfl, fun _ _ => rfl, fun repo h => absurd rfl h⟩
    simp [runDiscover.loop]
  | cons entry rest ih =>
    obtain ⟨st', hstep, hcase⟩ := runDiscover_loop_cons sys w pluginsDir entry rest st
    rw [hstep]
    obtain ⟨iha, ihb, ihc, ihd, ihe⟩ := ih st'
    rcases hcase with ⟨himp, repo', hder, hempty, hcfg, hcount⟩ | ⟨hnot, hcfg, hcount⟩
    · refine ⟨by omega, ?_, ?_, ?_, ?_⟩
      · constructor
        · intro _
          exact ⟨entry, List.mem_cons_self _ _, himp⟩
        · intro _
          omega
      · intro h
        omega
      · intro repo hrepo
        have hne : repo ≠ repo' := by
          intro e
          subst e
          exact hrepo hempty
        have hsame : st'.cfg.GetAlias repo = st.cfg.GetAlias repo := by
          rw [hcfg]
          exact GetAlias_AddMarketplace_other _ _ _ _ hne
        rw [ihd repo (by rw [hsame]; exact hrepo), hsame]
      · intro repo hrepo
        by_cases hfin : (runDiscover.loop sys w pluginsDir rest st').cfg.GetAlias repo =
            st'.cfg.GetAlias repo
        · have hrr : repo = repo' := by
            by_contra hne
            apply hrepo
            rw [hfin, hcfg]
            exact GetAlias_AddMarketplace_other _ _ _ _ hne
          subst hrr
          refine ⟨entry, List.mem_cons_self _ _, hder, ?_⟩
          rw [hfin, hcfg]
          exact GetAlias_AddMarketplace_self _ _ _
        · obtain ⟨e, he, hx⟩ := ihe repo hfin
          exact ⟨e, List.mem_cons_of_mem _ he, hx⟩
    · rw [hcfg] at ihb ihc ihd ihe
      rw [hcount] at iha ihb ihc
      refine ⟨iha, ?_, ihc, ihd, ?_⟩
      · rw [ihb]
        constructor
        · rintro ⟨e, he, hx⟩
          exact ⟨e, List.mem_cons_of_mem _ he, hx⟩
        · rintro ⟨e, he, hx⟩
          rcases List.mem_cons.mp he with h | h
          · subst h
            rw [hnot] at hx
            cases hx
          · exact ⟨e, h, hx⟩
      · intro repo hrepo
        obtain ⟨e, he, hx⟩ := ihe repo hrepo
        exact ⟨e, List.mem_cons_of_mem _ he, hx⟩

/-- Past the two early returns, runDiscover in terms of its loop. -/
theorem runDiscover_of_entries {W : Type} (sys : ConfigSys W)
    (readDir : W → String → Except String (List DirEntry)) (cfg : Config) (w : W)
    (entries : List DirEntry)
    (hstat : sys.stat w (PluginsDir sys.toSys) ≠ StatResult.notExist)
    (hread : readDir w (PluginsDir sys.toSys) = .ok entries) :
    (runDiscover sys readDir cfg w).cfg =
      (runDiscover.loop sys.toSys w (PluginsDir sys.toSys) entries
        { cfg := cfg, imported := 0, events := [] }).cfg ∧
    (0 < (runDiscover.loop sys.toSys w (PluginsDir sys.toSys) entries
        { cfg := cfg, imported := 0, events := [] }).imported →
      (runDiscover sys readDir cfg w).world =
        (Config.Save sys w (runDiscover sys readDir cfg w).cfg).world ∧
      (runDiscover sys readDir cfg w).val =
        match (Config.Save sys w (runDiscover sys readDir cfg w).cfg).val with
        | some e => .err ("saving config: " ++ e)
        | none => .ok ()) ∧
    ((runDiscover.loop sys.toSys w (PluginsDir sys.toSys) entries
        { cfg := cfg, imported := 0, events := [] }).imported = 0 →
      (runDiscover sys readDir cfg w).world = w ∧
      (runDiscover sys readDir cfg w).val = .ok ()) := by
  unfold runDiscover
  simp only [if_neg hstat, hread]
  by_cases hpos : 0 < (runDiscover.loop sys.toSys w (PluginsDir sys.toSys) entries
        { cfg := cfg, imported := 0, events := [] }).imported
  · simp only [gt_iff_lt, if_pos hpos]
    cases hs : (Config.Save sys w (runDiscover.loop sys.toSys w (PluginsDir sys.toSys) entries
        { cfg := cfg, imported := 0, events := [] }).cfg).val with
    | none =>
      refine ⟨rfl, fun _ => ⟨rfl, ?_⟩, fun h => absurd h (by omega)⟩
      simp only [hs]
    | some e =>
      refine ⟨rfl, fun _ => ⟨rfl, ?_⟩, fun h => absurd h (by omega)⟩
      simp only [hs]
  · simp only [gt_iff_lt, if_neg hpos]
    refine ⟨?_, fun h => absurd h hpos, fun _ => ⟨?_, ?_⟩⟩ <;> trivial

/-- C29 (as stated, refuted): `org/tools` is contained in the config, with the
empty alias (as `ccpm add org/tools ""` leaves it); the directory `tools` has
the origin remote of `org/tools`; discover imports it, and the alias of
`org/tools` is `tools` after the run. -/
theorem discover_overwrites_empty_alias_counterexample :
    "org/tools" ∈ emptyAliasConfig.Repos ∧
    emptyAliasConfig.GetAlias "org/tools" = "" ∧
    derivedRepo discoverSys.toSys [] (PluginsDir discoverSys.toSys)
      { Name := "tools", IsDir := true } = some "org/tools" ∧
    (runDiscover discoverSys sampleReadDir emptyAliasConfig []).val = .ok () ∧
    (runDiscover discoverSys sampleReadDir emptyAliasConfig []).cfg.Marketplaces =
      [("org/tools", "tools"), ("org/mp", "mp")] ∧
    (runDiscover discoverSys sampleReadDir emptyAliasConfig []).cfg.GetAlias "org/tools" =
      "tools" := by
  decide

/-- C29 (amended): discover imports a directory (adds derived-repo →
directory-name) only when GetAlias of the derived org/name is empty, that is
when the repo is not in the config or is configured with the empty alias; so
the alias of every repo configured with a non-empty alias before the run is
unchanged after it, and a repo whose alias changed had none and now has the
name of a directory that derives it.  The config is saved iff at least
one import occurred: when some entry derives a repo without alias the world and
the result are those of Save on the final config, otherwise the config and the
world are as before.  The two early returns leave both as they were. -/
theorem runDiscover_spec {W : Type} (sys : ConfigSys W)
    (readDir : W → String → Except String (List DirEntry)) (cfg : Config) (w : W) :
    (∀ repo, cfg.GetAlias repo ≠ "" →
      (runDiscover sys readDir cfg w).cfg.GetAlias repo = cfg.GetAlias repo) ∧
    (∀ entries, sys.stat w (PluginsDir sys.toSys) ≠ StatResult.notExist →
      readDir w (PluginsDir sys.toSys) = .ok entries →
      (∀ repo, (runDiscover sys readDir cfg w).cfg.GetAlias repo ≠ cfg.GetAlias repo →
        cfg.GetAlias repo = "" ∧
        ∃ e ∈ entries, derivedRepo sys.toSys w (PluginsDir sys.toSys) e = some repo ∧
          (runDiscover sys readDir cfg w).cfg.GetAlias repo = e.Name) ∧
      (0 < (runDiscover.loop sys.toSys w (PluginsDir sys.toSys) entries
          { cfg := cfg, imported := 0, events := [] }).imported ↔
        ∃ e ∈ entries, importable sys.toSys w (PluginsDir sys.toSys) cfg e = true) ∧
      ((∃ e ∈ entries, importable sys.toSys w (PluginsDir sys.toSys) cfg e = true) →
        (runDiscover sys readDir cfg w).world =
          (Config.Save sys w (runDiscover sys readDir cfg w).cfg).world ∧
        (runDiscover sys readDir cfg w).val =
          match (Config.Save sys w (runDiscover sys readDir cfg w).cfg).val with
          | some e => .err ("saving config: " ++ e)
          | none => .ok ()) ∧
      ((¬ ∃ e ∈ entries, importable sys.toSys w (PluginsDir sys.toSys) cfg e = true) →
        (runDiscover sys readDir cfg w).cfg = cfg ∧
        (runDiscover sys readDir cfg w).world = w ∧
        (runDiscover sys readDir cfg w).val = .ok ())) ∧
    ((sys.stat w (PluginsDir sys.toSys) = StatResult.notExist ∨
        ∃ e, readDir w (PluginsDir sys.toSys) = .error e) →
      (runDiscover sys readDir cfg w).cfg = cfg ∧
      (runDiscover sys readDir cfg w).world = w ∧
      ∃ msg, (runDiscover sys readDir cfg w).val = .err msg) := by
  have hearly : (sys.stat w (PluginsDir sys.toSys) = StatResult.notExist ∨
        ∃ e, readDir w (PluginsDir sys.toSys) = .error e) →
      (runDiscover sys readDir cfg w).cfg = cfg ∧
      (runDiscover sys readDir cfg w).world = w ∧
      ∃ msg, (runDiscover sys readDir cfg w).val = .err msg := by
    intro h
    unfold runDiscover
    by_cases hstat : sys.stat w (PluginsDir sys.toSys) = StatResult.notExist
    · simp only [if_pos hstat]
      exact ⟨trivial, trivial, _, rfl⟩
    · rcases h with h | ⟨e, he⟩
      · exact absurd h hstat
      · simp only [if_neg hstat, he]
        exact ⟨trivial, trivial, _, rfl⟩
  have hmain : ∀ entries, sys.stat w (PluginsDir sys.toSys) ≠ StatResult.notExist →
      readDir w (PluginsDir sys.toSys) = .ok entries →
      (∀ repo, cfg.GetAlias repo ≠ "" →
        (runDiscover sys readDir cfg w).cfg.GetAlias repo = cfg.GetAlias repo) ∧
      (∀ repo, (runDiscover sys readDir cfg w).cfg.GetAlias repo ≠ cfg.GetAlias repo →
        cfg.GetAlias repo = "" ∧
        ∃ e ∈ entries, derivedRepo sys.toSys w (PluginsDir sys.toSys) e = some repo ∧
          (runDiscover sys readDir cfg w).cfg.GetAlias repo = e.Name) ∧
      (0 < (runDiscover.loop sys.toSys w (PluginsDir sys.toSys) entries
          { cfg := cfg, imported := 0, events := [] }).imported ↔
        ∃ e ∈ entries, importable sys.toSys w (PluginsDir sys.toSys) cfg e = true) ∧
      ((∃ e ∈ entries, importable sys.toSys w (PluginsDir sys.toSys) cfg e = true) →
        (runDiscover sys readDir cfg w).world =
          (Config.Save sys w (runDiscover sys readDir cfg w).cfg).world ∧
        (runDiscover sys readDir cfg w).val =
          match (Config.Save sys w (runDiscover sys readDir cfg w).cfg).val with
          | some e => .err ("saving config: " ++ e)
          | none => .ok ()) ∧
      ((¬ ∃ e ∈ entries, importable sys.toSys w (PluginsDir sys.toSys) cfg e = true) →
        (runDiscover sys readDir cfg w).cfg = cfg ∧
        (runDiscover sys readDir cfg w).world = w ∧
        (runDiscover sys readDir cfg w).val = .ok ()) := by
    intro entries hstat hread
    obtain ⟨hcfg, hsaved, hnot⟩ := runDiscover_of_entries sys readDir cfg w entries hstat hread
    obtain ⟨_, hb, hc, hd, he⟩ := runDiscover_loop_spec sys.toSys w (PluginsDir sys.toSys)
      entries { cfg := cfg, imported := 0, events := [] }
    refine ⟨?_, ?_, hb, ?_, ?_⟩
    · intro repo hrepo
      rw [hcfg]
      exact hd repo hrepo
    · intro repo hrepo
      rw [hcfg] at hrepo ⊢
      refine ⟨?_, he repo hrepo⟩
      by_contra hne
      exact hrepo (hd repo hne)
    · intro hex
      exact hsaved (hb.mpr hex)
    · intro hno
      have h0 : (runDiscover.loop sys.toSys w (PluginsDir sys.toSys) entries
          { cfg := cfg, imported := 0, events := [] }).imported = 0 := by
        by_contra hne
        exact hno (hb.mp (Nat.pos_of_ne_zero hne))
      exact ⟨hcfg.trans (hc h0), hnot h0⟩
  refine ⟨?_, fun entries hstat hread => (hmain entries hstat hread).2, hearly⟩
  intro repo hrepo
  by_cases hstat : sys.stat w (PluginsDir sys.toSys) = StatResult.notExist
  · rw [(hearly (Or.inl hstat)).1]
  · cases hread : readDir w (PluginsDir sys.toSys) with
    | error e => rw [(hearly (Or.inr ⟨e, hread⟩)).1]
    | ok entries => exact (hmain entries hstat hread).1 repo hrepo

/-- C29 (amended) on the sample system: `org/mp` keeps its alias, the directory
`fresh` is imported and the config is saved; with the config that already has
both repos nothing is imported and nothing is written. -/
theorem runDiscover_spec_witness :
    (sampleGlobals false).cfg.GetAlias "org/mp" ≠ "" ∧
    (runDiscover discoverSys freshReadDir (sampleGlobals false).cfg []).cfg.GetAlias "org/mp" =
      "mp" ∧
    (runDiscover discoverSys freshReadDir (sampleGlobals false).cfg []).cfg.Marketplaces =
      [("org/mp", "mp"), ("org/fresh", "fresh")] ∧
    (runDiscover discoverSys freshReadDir (sampleGlobals false).cfg []).world =
      (Config.Save discoverSys []
        (runDiscover discoverSys freshReadDir (sampleGlobals false).cfg []).cfg).world ∧
    (runDiscover discoverSys freshReadDir (sampleGlobals false).cfg []).world ≠ [] ∧
    (runDiscover discoverSys sampleReadDir testDiscovered []).world = [] :=
  ⟨by decide,
   (runDiscover_spec discoverSys freshReadDir (sampleGlobals false).cfg []).1 "org/mp"
     (by decide),
   by decide,
   (((runDiscover_spec discoverSys freshReadDir (sampleGlobals false).cfg []).2.1
      [{ Name := "mp", IsDir := true }, { Name := "fresh", IsDir := true },
       { Name := "local", IsDir := true }] (by decide) rfl).2.2.1
      ⟨{ Name := "fresh", IsDir := true }, by decide, by decide⟩).1,
   by decide,
   (((runDiscover_spec discoverSys sampleReadDir testDiscovered []).2.1
      [{ Name := "README.md", IsDir := false }, { Name := "mp", IsDir := true },
       { Name := "tools", IsDir := true }] (by decide) rfl).2.2.2
      (by decide)).2.1⟩

end Ccpm
